import Mathlib

/-!
# unordered_buffer: a direct-mapped, fixed-capacity key/value buffer

Shallow embedding of `src/unordered_buffer.h` and a verification of its
specification.

Modelling conventions.

* `std::vector<Element> m_data` is a `List (Element Key T)`; a pointer into it
  (`std::pair<Key,T>*`, the payload of a traversal node) is the index of the slot.
* `std::list<std::pair<Key,T>*> m_used` is a `List Nat` of slot indices, head first.
* A `std::list` iterator stays attached to its node. The only mutations of `m_used`
  in the source are `push_front` and `clear`, and `push_front` never changes how far a
  node is from `end()`. A cursor is therefore recorded as that distance: `end()` is
  distance `0`, the last node distance `1`, and `begin()` distance `m_used.size()`.
  `operator++` lowers the distance by one, `operator--` raises it by one.
* `int priority` is an `Int` kept within the 32 bits of an `int`: `data.priority++` is
  `wrap_int (priority + 1)`, two's complement, so that `INT_MAX` is followed by
  `INT_MIN` as in the compiled code (in C++ the overflow itself is undefined).
* `m_rdist(m_rng)` is a `double` in `[0, 1)`; the value it yields in a call is passed
  to that call as the rational `r`. `pow(2, -priority)` is the double the code compares
  it with, `pow_two_neg priority`: the exact power of two down to `2^(-1074)`, and
  `0.0` from priority 1075 on.
* `hash % m_data.size()` with `m_data.size() == 0` is a division by zero; the model
  reports it as `Error.undefined_behavior`.
* The node payload pushed by `push_front(&data)` (in `emplace` and the copying `insert`)
  and by `push_front(&data.value)` (in the moving `insert`) denotes the same slot. Only
  the moving `insert` is well-typed C++: the bodies of the copying `insert`, of
  `emplace` and of `emplace_hint` do not compile once instantiated (`&data` is an
  `Element*`, `std::make_pair<iterator, bool>` is handed lvalues, `emplace` is called
  with lvalues); they are embedded as the transition their text describes.
-/

/-- Failure modes: the `std::out_of_range` thrown by `at`, and undefined behaviour
(division by zero in `hash % m_data.size()`, or an access outside `m_data`). -/
inductive Error where
  | out_of_range
  | undefined_behavior
deriving DecidableEq

/-- The class `unordered_buffer::iterator`: wraps a `std::list` iterator `it`.
`none` is a default-constructed (singular) iterator, `some d` is attached to the node
that lies `d` steps before `end()` (`some 0` is `end()` itself). -/
structure iterator where
  it : Option Nat
deriving DecidableEq

/-- The struct `Element`: one slot of the bucket table. -/
structure Element (Key T : Type) where
  priority : Int
  pos : iterator
  value : Key × T
deriving DecidableEq

/-- The data members `m_data` and `m_used` of the class `unordered_buffer`. -/
structure unordered_buffer (Key T : Type) where
  m_data : List (Element Key T)
  m_used : List Nat
deriving DecidableEq

/-- The member constant `MAX_PRIORITY`; no function of the class reads it. -/
def MAX_PRIORITY : Int := 1000

/-- The largest value of an `int` (32 bits). -/
def INT_MAX : Int := 2147483647

/-- The smallest value of an `int` (32 bits). -/
def INT_MIN : Int := -2147483648

/-- The value an `int` holds after an arithmetic result `x`: 32 bits, two's complement,
as the compiled code keeps it. -/
def wrap_int (x : Int) : Int := (x + 2147483648) % 4294967296 - 2147483648

/-- `pow(2, -data.priority)` as the double the collision path compares the draw with
(the path is entered with a priority of at least 1): the power of two is exact down to
the smallest subnormal `2^(-1074)`, below it the result rounds to `0.0`. -/
def pow_two_neg (priority : Int) : ℚ := if priority ≤ 1074 then (2 : ℚ) ^ (-priority) else 0

namespace iterator

/-- `operator++`: `it++` on the wrapped list iterator. -/
def incr (c : iterator) : iterator := ⟨c.it.map (fun d => d - 1)⟩

/-- `operator--`: `it--` on the wrapped list iterator. -/
def decr (c : iterator) : iterator := ⟨c.it.map (fun d => d + 1)⟩

end iterator

namespace unordered_buffer

variable {Key T : Type}

/-- `m_used.begin()` wrapped in an `iterator`. -/
def begin (b : unordered_buffer Key T) : iterator := ⟨some b.m_used.length⟩

/-- `m_used.end()` wrapped in an `iterator`. -/
def end_ (_b : unordered_buffer Key T) : iterator := ⟨some 0⟩

/-- The loop `for (ii = 0; ii < m_data.size(); ii++) m_data[ii].priority = 0;`
shared by the constructor and `clear`. -/
def reset_priorities (data : List (Element Key T)) : List (Element Key T) :=
  data.map (fun e => { e with priority := 0 })

/-- The constructor `unordered_buffer(size_t size)`: `resize` value-initialises the
slots, the loop zeroes the priorities, the traversal list is emptied. -/
def mk_sized [Inhabited Key] [Inhabited T] (size : Nat) : unordered_buffer Key T :=
  { m_data := reset_priorities
      (List.replicate size { priority := 0, pos := ⟨none⟩, value := (default, default) })
    m_used := [] }

/-- `empty()`: `m_data.empty()`. -/
def empty (b : unordered_buffer Key T) : Bool := b.m_data.isEmpty

/-- `size()`: `m_used.size()`. -/
def size (b : unordered_buffer Key T) : Nat := b.m_used.length

/-- `max_size()`: `m_data.size()`. -/
def max_size (b : unordered_buffer Key T) : Nat := b.m_data.length

/-- `bucket_count()`: `m_data.size()`. -/
def bucket_count (b : unordered_buffer Key T) : Nat := b.m_data.length

/-- `clear()`: empties the traversal list and zeroes every priority; keys, values and
`pos` stay as they were. -/
def clear (b : unordered_buffer Key T) : unordered_buffer Key T :=
  { m_data := reset_priorities b.m_data, m_used := [] }

/-- The two lines that open every keyed member function,
`size_t hash = m_hasher(key); auto& data = m_data[hash % m_data.size()];`:
the bucket index together with the slot found there. -/
def locate (hash : Key → Nat) (b : unordered_buffer Key T) (key : Key) :
    Except Error (Nat × Element Key T) :=
  if b.m_data.length = 0 then .error .undefined_behavior
  else
    match b.m_data[hash key % b.m_data.length]? with
    | none => .error .undefined_behavior
    | some data => .ok (hash key % b.m_data.length, data)

/-- `insert(const std::pair<Key,T>& value, bool prob)`, the copying overload; `r` is
the value of `m_rdist(m_rng)`, read only on the probabilistic collision path. The body
does not compile once instantiated (`push_front(&data)` hands an `Element*` to a list of
`std::pair<Key,T>*`, `std::make_pair<iterator, bool>` is handed lvalues); this is the
transition its statements describe, with `&data` read as the slot. -/
def insert [DecidableEq Key] (hash : Key → Nat) (b : unordered_buffer Key T) (value : Key × T)
    (prob : Bool) (r : ℚ) : Except Error (unordered_buffer Key T × (iterator × Bool)) :=
  match locate hash b value.1 with
  | .error e => .error e
  | .ok (idx, data) =>
    if data.priority ≤ 0 then
      -- Miss: occupy the slot, push_front, pos = m_used.begin()
      let used := idx :: b.m_used
      let pos : iterator := ⟨some used.length⟩
      .ok ({ m_data := b.m_data.set idx { priority := 1, pos := pos, value := (value.1, value.2) }
             m_used := used }, (pos, true))
    else if data.value.1 = value.1 then
      -- Hit: keys are equal, increase priority (data.priority++)
      .ok ({ b with m_data := b.m_data.set idx { data with priority := wrap_int (data.priority + 1) } },
        (data.pos, false))
    else if prob then
      -- keys are different, probabilistically replace
      if r < pow_two_neg data.priority then
        .ok ({ b with m_data :=
                b.m_data.set idx { data with value := (value.1, value.2), priority := 1 } },
          (data.pos, true))
      else
        .ok (b, (data.pos, false))
    else
      -- keys are different, replace
      .ok ({ b with m_data :=
              b.m_data.set idx { data with value := (value.1, value.2), priority := 1 } },
        (data.pos, true))

/-- `insert(std::pair<Key,T>&& value, bool prob)`: the moving overload, the one
insertion entry point that compiles and that a client can call. -/
def insert_move [DecidableEq Key] (hash : Key → Nat) (b : unordered_buffer Key T) (value : Key × T)
    (prob : Bool) (r : ℚ) : Except Error (unordered_buffer Key T × (iterator × Bool)) :=
  match locate hash b value.1 with
  | .error e => .error e
  | .ok (idx, data) =>
    if data.priority ≤ 0 then
      -- set bin to used, copy into bin, m_used.push_front(&data.value)
      let b1 : unordered_buffer Key T :=
        { m_data := b.m_data.set idx { data with priority := 1, value := (value.1, value.2) }
          m_used := idx :: b.m_used }
      -- data.pos = this->begin()
      let b2 : unordered_buffer Key T :=
        { m_data := b1.m_data.set idx { priority := 1, pos := b1.begin, value := (value.1, value.2) }
          m_used := b1.m_used }
      .ok (b2, (b2.begin, true))
    else if data.value.1 = value.1 then
      .ok ({ b with m_data := b.m_data.set idx { data with priority := wrap_int (data.priority + 1) } },
        (data.pos, false))
    else if prob then
      if r < pow_two_neg data.priority then
        .ok ({ b with m_data :=
                b.m_data.set idx { data with value := (value.1, value.2), priority := 1 } },
          (data.pos, true))
      else
        .ok (b, (data.pos, false))
    else
      .ok ({ b with m_data :=
              b.m_data.set idx { data with value := (value.1, value.2), priority := 1 } },
        (data.pos, true))

/-- `emplace(Key&& key, T&& value, bool prob)`. The body does not compile once
instantiated, for the same expressions as the copying `insert`; this is the transition
its statements describe, with `&data` read as the slot. -/
def emplace [DecidableEq Key] (hash : Key → Nat) (b : unordered_buffer Key T) (key : Key) (value : T)
    (prob : Bool) (r : ℚ) : Except Error (unordered_buffer Key T × (iterator × Bool)) :=
  match locate hash b key with
  | .error e => .error e
  | .ok (idx, data) =>
    if data.priority ≤ 0 then
      let used := idx :: b.m_used
      let pos : iterator := ⟨some used.length⟩
      .ok ({ m_data := b.m_data.set idx { priority := 1, pos := pos, value := (key, value) }
             m_used := used }, (pos, true))
    else if data.value.1 = key then
      .ok ({ b with m_data := b.m_data.set idx { data with priority := wrap_int (data.priority + 1) } },
        (data.pos, false))
    else if prob then
      if r < pow_two_neg data.priority then
        .ok ({ b with m_data :=
                b.m_data.set idx { data with value := (key, value), priority := 1 } },
          (data.pos, true))
      else
        .ok (b, (data.pos, false))
    else
      .ok ({ b with m_data :=
              b.m_data.set idx { data with value := (key, value), priority := 1 } },
        (data.pos, true))

/-- `emplace_hint(const_iterator it, Key&& key, T&& value, bool prob)`:
`return emplace(key, value, prob);`, which hands the lvalues `key` and `value` to
`Key&&` and `T&&` and so does not compile once instantiated; the call it describes. -/
def emplace_hint [DecidableEq Key] (hash : Key → Nat) (b : unordered_buffer Key T) (_it : iterator)
    (key : Key) (value : T) (prob : Bool) (r : ℚ) :
    Except Error (unordered_buffer Key T × (iterator × Bool)) :=
  emplace hash b key value prob r

/-- `at(const Key& key)`: the stored value, or `std::out_of_range`. -/
def at_ [DecidableEq Key] (hash : Key → Nat) (b : unordered_buffer Key T) (key : Key) : Except Error T :=
  match locate hash b key with
  | .error e => .error e
  | .ok (_, data) =>
    if data.priority ≤ 0 then .error .out_of_range
    else if data.value.1 = key then .ok data.value.2
    else .error .out_of_range

/-- `at(const Key& key) const`: the overload for constant containers. -/
def at_const [DecidableEq Key] (hash : Key → Nat) (b : unordered_buffer Key T) (key : Key) :
    Except Error T :=
  match locate hash b key with
  | .error e => .error e
  | .ok (_, data) =>
    if data.priority ≤ 0 then .error .out_of_range
    else if data.value.1 = key then .ok data.value.2
    else .error .out_of_range

/-- `count(const Key& key)`. -/
def count [DecidableEq Key] (hash : Key → Nat) (b : unordered_buffer Key T) (key : Key) : Except Error Nat :=
  match locate hash b key with
  | .error e => .error e
  | .ok (_, data) =>
    if data.priority ≤ 0 then .ok 0
    else if data.value.1 = key then .ok 1
    else .ok 0

/-- `equal_range(const Key& key)`. -/
def equal_range [DecidableEq Key] (hash : Key → Nat) (b : unordered_buffer Key T) (key : Key) :
    Except Error (iterator × iterator) :=
  match locate hash b key with
  | .error e => .error e
  | .ok (_, data) =>
    if data.priority ≤ 0 then .ok (b.end_, b.end_)
    else if data.value.1 = key then .ok (data.pos, data.pos)
    else .ok (b.end_, b.end_)

/-- The payload `*it` of the traversal node a cursor is attached to: the slot the node
points to. `none` for a singular cursor, for `end()`, and for a cursor attached to no
node of the present list. -/
def node_slot (b : unordered_buffer Key T) (c : iterator) : Option Nat :=
  match c.it with
  | none => none
  | some d =>
    if d = 0 ∨ b.m_used.length < d then none
    else b.m_used[b.m_used.length - d]?

/-- `iterator::operator*`: `*(*it)`, the key/value pair of the slot the node points to. -/
def deref (b : unordered_buffer Key T) (c : iterator) : Option (Key × T) :=
  match b.node_slot c with
  | none => none
  | some i => (b.m_data[i]?).map (fun e => e.value)

/-- The client loop `for (it = ...; it != end(); ++it) visit(*it)` started at the cursor
`d` steps before `end()`: at distance `0` the cursor equals `end()` and the loop stops;
at distance `d + 1` the cursor is dereferenced and `++it` moves it to distance `d`.
Dereferencing a cursor that denotes no entry ends the walk. -/
def visit (b : unordered_buffer Key T) : Nat → List (Key × T)
  | 0 => []
  | d + 1 =>
    match b.deref ⟨some (d + 1)⟩ with
    | none => []
    | some kv => kv :: visit b d

/-- The entries visited by iterating from `begin()` to `end()`. -/
def entries (b : unordered_buffer Key T) : List (Key × T) :=
  match b.begin.it with
  | none => []
  | some d => b.visit d

/-- Client code: a sequence of `insert` calls, each with its own pair, flag and random
draw; the returned cursors are discarded. -/
def insert_seq [DecidableEq Key] (hash : Key → Nat) (b : unordered_buffer Key T) :
    List ((Key × T) × Bool × ℚ) → Except Error (unordered_buffer Key T)
  | [] => .ok b
  | (kv, prob, r) :: rest =>
    match b.insert hash kv prob r with
    | .error e => .error e
    | .ok (b', _) => insert_seq hash b' rest

/-- The states a client can reach: construction with any size, then any interleaving of
`clear`, `insert` (both overloads), `emplace` and `emplace_hint` calls that return,
every random draw lying in `[0, 1)`. -/
inductive Reachable [DecidableEq Key] [Inhabited Key] [Inhabited T] (hash : Key → Nat) :
    unordered_buffer Key T → Prop where
  | ctor (size : Nat) : Reachable hash (mk_sized size)
  | clear {b : unordered_buffer Key T} : Reachable hash b → Reachable hash b.clear
  | insert {b b' : unordered_buffer Key T} {value : Key × T} {prob : Bool} {r : ℚ}
      {res : iterator × Bool} :
      Reachable hash b → 0 ≤ r → r < 1 → b.insert hash value prob r = .ok (b', res) →
      Reachable hash b'
  | insert_move {b b' : unordered_buffer Key T} {value : Key × T} {prob : Bool} {r : ℚ}
      {res : iterator × Bool} :
      Reachable hash b → 0 ≤ r → r < 1 → b.insert_move hash value prob r = .ok (b', res) →
      Reachable hash b'
  | emplace {b b' : unordered_buffer Key T} {key : Key} {value : T} {prob : Bool} {r : ℚ}
      {res : iterator × Bool} :
      Reachable hash b → 0 ≤ r → r < 1 → b.emplace hash key value prob r = .ok (b', res) →
      Reachable hash b'
  | emplace_hint {b b' : unordered_buffer Key T} {it : iterator} {key : Key} {value : T}
      {prob : Bool} {r : ℚ} {res : iterator × Bool} :
      Reachable hash b → 0 ≤ r → r < 1 →
      b.emplace_hint hash it key value prob r = .ok (b', res) → Reachable hash b'

/-- The representation invariant: the traversal list holds exactly the occupied slots,
each once; the `pos` of an occupied slot is attached to the node that points back to the
slot; and an occupied slot sits at the bucket index of the key it stores. -/
structure Inv (hash : Key → Nat) (b : unordered_buffer Key T) : Prop where
  used_nodup : b.m_used.Nodup
  used_iff : ∀ i, i ∈ b.m_used ↔ ∃ e, b.m_data[i]? = some e ∧ 1 ≤ e.priority
  pos_ok : ∀ i e, b.m_data[i]? = some e → 1 ≤ e.priority →
    ∃ d, e.pos = ⟨some d⟩ ∧ b.node_slot ⟨some d⟩ = some i
  home : ∀ i e, b.m_data[i]? = some e → 1 ≤ e.priority →
    hash e.value.1 % b.m_data.length = i
  size_eq : b.m_used.length = b.m_data.countP (fun e => decide (1 ≤ e.priority))

/-- The client loop `for (it = first; it != second; ++it) visit(*it)` over a range of
cursors, `first` lying `d` steps before `end()`: the walk stops when the cursor equals
`second`; otherwise the cursor is dereferenced and `++it` moves it one step on.
Dereferencing a cursor that denotes no entry ends the walk. -/
def visit_until (b : unordered_buffer Key T) (second : iterator) : Nat → List (Key × T)
  | 0 => []
  | d + 1 =>
    if (⟨some (d + 1)⟩ : iterator) = second then []
    else
      match b.deref ⟨some (d + 1)⟩ with
      | none => []
      | some kv => kv :: visit_until b second d

/-- The entries visited by iterating from `first` up to but excluding `second`. -/
def range_entries (b : unordered_buffer Key T) (first second : iterator) : List (Key × T) :=
  match first.it with
  | none => []
  | some d => b.visit_until second d

/-- One call of an insertion entry point, with the draw `m_rdist(m_rng)` would yield. -/
inductive Insertion (Key T : Type) where
  | insert (value : Key × T) (prob : Bool) (r : ℚ)
  | insert_move (value : Key × T) (prob : Bool) (r : ℚ)
  | emplace (key : Key) (value : T) (prob : Bool) (r : ℚ)
  | emplace_hint (it : iterator) (key : Key) (value : T) (prob : Bool) (r : ℚ)

/-- The key/value pair an insertion call carries. -/
def Insertion.pair : Insertion Key T → Key × T
  | .insert value _ _ => value
  | .insert_move value _ _ => value
  | .emplace key value _ _ => (key, value)
  | .emplace_hint _ key value _ _ => (key, value)

/-- The `prob` flag of an insertion call. -/
def Insertion.prob : Insertion Key T → Bool
  | .insert _ prob _ => prob
  | .insert_move _ prob _ => prob
  | .emplace _ _ prob _ => prob
  | .emplace_hint _ _ _ prob _ => prob

/-- The random draw of an insertion call. -/
def Insertion.draw : Insertion Key T → ℚ
  | .insert _ _ r => r
  | .insert_move _ _ r => r
  | .emplace _ _ _ r => r
  | .emplace_hint _ _ _ _ r => r

/-- Client code: performs one insertion call through the entry point it names. -/
def apply_insertion [DecidableEq Key] (hash : Key → Nat) (b : unordered_buffer Key T) :
    Insertion Key T → Except Error (unordered_buffer Key T × (iterator × Bool))
  | .insert value prob r => b.insert hash value prob r
  | .insert_move value prob r => b.insert_move hash value prob r
  | .emplace key value prob r => b.emplace hash key value prob r
  | .emplace_hint it key value prob r => b.emplace_hint hash it key value prob r

/-- Client code: a sequence of insertion calls through any of the entry points; the
returned cursors are discarded. -/
def run_insertions [DecidableEq Key] (hash : Key → Nat) (b : unordered_buffer Key T) :
    List (Insertion Key T) → Except Error (unordered_buffer Key T)
  | [] => .ok b
  | c :: rest =>
    match b.apply_insertion hash c with
    | .error e => .error e
    | .ok (b', _) => run_insertions hash b' rest

/-- One client operation on the container. -/
inductive Call (Key T : Type) where
  | insertion (c : Insertion Key T)
  | at_ (key : Key)
  | count (key : Key)
  | equal_range (key : Key)
  | size
  | iterate
  | clear

/-- What a client operation hands back: the pair returned by an insertion, the value
returned by `at` or its `std::out_of_range`, the number returned by `count`, the range
returned by `equal_range`, the number returned by `size`, the entries visited from
`begin()` to `end()`, or nothing (`clear`). -/
inductive Reply (Key T : Type) where
  | inserted (c : iterator) (flag : Bool)
  | found (value : T)
  | not_found
  | counted (n : Nat)
  | range (first second : iterator)
  | sized (n : Nat)
  | visited (l : List (Key × T))
  | cleared

/-- Client code: performs one operation; the new state and what the client observes.
Undefined behaviour aborts; the exception of `at` is caught and observed. -/
def call [DecidableEq Key] (hash : Key → Nat) (b : unordered_buffer Key T) :
    Call Key T → Except Error (unordered_buffer Key T × Reply Key T)
  | .insertion c =>
    match b.apply_insertion hash c with
    | .error e => .error e
    | .ok (b', (c, flag)) => .ok (b', .inserted c flag)
  | .at_ key =>
    match b.at_ hash key with
    | .ok v => .ok (b, .found v)
    | .error .out_of_range => .ok (b, .not_found)
    | .error .undefined_behavior => .error .undefined_behavior
  | .count key =>
    match b.count hash key with
    | .error e => .error e
    | .ok n => .ok (b, .counted n)
  | .equal_range key =>
    match b.equal_range hash key with
    | .error e => .error e
    | .ok (first, second) => .ok (b, .range first second)
  | .size => .ok (b, .sized b.size)
  | .iterate => .ok (b, .visited b.entries)
  | .clear => .ok (b.clear, .cleared)

/-- Client code: a sequence of operations; the list of what the client observes. -/
def run_calls [DecidableEq Key] (hash : Key → Nat) (b : unordered_buffer Key T) :
    List (Call Key T) → Except Error (List (Reply Key T))
  | [] => .ok []
  | c :: rest =>
    match b.call hash c with
    | .error e => .error e
    | .ok (b', reply) =>
      match run_calls hash b' rest with
      | .error e => .error e
      | .ok replies => .ok (reply :: replies)

/-- Whether a call that inserts `key` reaches `data.priority++` with a priority equal
to `INT_MAX`, the one increment an `int` cannot hold. -/
def overflows [DecidableEq Key] (hash : Key → Nat) (b : unordered_buffer Key T) (key : Key) :
    Bool :=
  match b.m_data[hash key % b.m_data.length]? with
  | none => false
  | some data => decide (data.value.1 = key ∧ data.priority = INT_MAX)

/-- The states a client can reach without an overflowing `data.priority++`: as
`Reachable`, with every insertion call required not to meet its own key at priority
`INT_MAX`. -/
inductive ReachableInRange [DecidableEq Key] [Inhabited Key] [Inhabited T]
    (hash : Key → Nat) : unordered_buffer Key T → Prop where
  | ctor (size : Nat) : ReachableInRange hash (mk_sized size)
  | clear {b : unordered_buffer Key T} : ReachableInRange hash b →
      ReachableInRange hash b.clear
  | insert {b b' : unordered_buffer Key T} {value : Key × T} {prob : Bool} {r : ℚ}
      {res : iterator × Bool} :
      ReachableInRange hash b → 0 ≤ r → r < 1 → b.overflows hash value.1 = false →
      b.insert hash value prob r = .ok (b', res) → ReachableInRange hash b'
  | insert_move {b b' : unordered_buffer Key T} {value : Key × T} {prob : Bool} {r : ℚ}
      {res : iterator × Bool} :
      ReachableInRange hash b → 0 ≤ r → r < 1 → b.overflows hash value.1 = false →
      b.insert_move hash value prob r = .ok (b', res) → ReachableInRange hash b'
  | emplace {b b' : unordered_buffer Key T} {key : Key} {value : T} {prob : Bool} {r : ℚ}
      {res : iterator × Bool} :
      ReachableInRange hash b → 0 ≤ r → r < 1 → b.overflows hash key = false →
      b.emplace hash key value prob r = .ok (b', res) → ReachableInRange hash b'
  | emplace_hint {b b' : unordered_buffer Key T} {it : iterator} {key : Key} {value : T}
      {prob : Bool} {r : ℚ} {res : iterator × Bool} :
      ReachableInRange hash b → 0 ≤ r → r < 1 → b.overflows hash key = false →
      b.emplace_hint hash it key value prob r = .ok (b', res) → ReachableInRange hash b'

/-- Whether a run of insertion calls stays clear of an overflowing `data.priority++`:
no call of the run meets its own key at priority `INT_MAX`. -/
def in_range [DecidableEq Key] (hash : Key → Nat) (b : unordered_buffer Key T) :
    List (Insertion Key T) → Bool
  | [] => true
  | c :: rest =>
    !(b.overflows hash c.pair.1) &&
      match b.apply_insertion hash c with
      | .error _ => true
      | .ok (b', _) => in_range hash b' rest

/-- What every reachable state satisfies, overflow or not: priorities are values of an
`int`, the traversal list points into the slot array, and an occupied slot sits at the
bucket index of the key it stores. -/
structure Wf (hash : Key → Nat) (b : unordered_buffer Key T) : Prop where
  range : ∀ (i : Nat) (e : Element Key T), b.m_data[i]? = some e →
    INT_MIN ≤ e.priority ∧ e.priority ≤ INT_MAX
  listed : ∀ i ∈ b.m_used, i < b.m_data.length
  home : ∀ (i : Nat) (e : Element Key T), b.m_data[i]? = some e → 1 ≤ e.priority →
    hash e.value.1 % b.m_data.length = i

/-- Two states no operation tells apart: the same traversal list, the same capacity,
and slot by slot either the same element or two empty slots that the traversal list
does not mention. -/
structure Sim (b1 b2 : unordered_buffer Key T) : Prop where
  used_eq : b1.m_used = b2.m_used
  len_eq : b1.m_data.length = b2.m_data.length
  slots : ∀ (i : Nat) (e1 e2 : Element Key T), b1.m_data[i]? = some e1 →
    b2.m_data[i]? = some e2 →
    e1 = e2 ∨ (e1.priority ≤ 0 ∧ e2.priority ≤ 0 ∧ i ∉ b1.m_used)

/-- The scenario of the specification: capacity 4 and the identity as hash function. -/
def scenario_fresh : unordered_buffer Nat String := mk_sized 4

/-- The scenario after `insert(1, "a")`: bucket 1 is occupied. -/
def scenario_one : unordered_buffer Nat String :=
  ⟨[⟨0, ⟨none⟩, (0, "")⟩, ⟨1, ⟨some 1⟩, (1, "a")⟩, ⟨0, ⟨none⟩, (0, "")⟩, ⟨0, ⟨none⟩, (0, "")⟩],
    [1]⟩

/-- The scenario after the further `insert(5, "b", false)`: key 5 displaced key 1. -/
def scenario_five : unordered_buffer Nat String :=
  ⟨[⟨0, ⟨none⟩, (0, "")⟩, ⟨1, ⟨some 1⟩, (5, "b")⟩, ⟨0, ⟨none⟩, (0, "")⟩, ⟨0, ⟨none⟩, (0, "")⟩],
    [1]⟩

/-- The scenario with key 1 resident at priority `p`: what `insert(1, "a")` followed by
`p - 1` repetitions of the key leaves. -/
def scenario_hit (p : Int) : unordered_buffer Nat String :=
  ⟨[⟨0, ⟨none⟩, (0, "")⟩, ⟨p, ⟨some 1⟩, (1, "a")⟩, ⟨0, ⟨none⟩, (0, "")⟩, ⟨0, ⟨none⟩, (0, "")⟩],
    [1]⟩

/-- The scenario after one insertion of key 1 more than `scenario_hit INT_MIN`: the slot
was taken for empty and pushed to the traversal list a second time. -/
def scenario_twice : unordered_buffer Nat String :=
  ⟨[⟨0, ⟨none⟩, (0, "")⟩, ⟨1, ⟨some 2⟩, (1, "a")⟩, ⟨0, ⟨none⟩, (0, "")⟩, ⟨0, ⟨none⟩, (0, "")⟩],
    [1, 1]⟩

/-! ## Basic lemmas -/

theorem wrap_int_succ (p : Int) (h1 : INT_MIN ≤ p) (h2 : p < INT_MAX) :
    wrap_int (p + 1) = p + 1 := by
  unfold wrap_int
  unfold INT_MIN at h1
  unfold INT_MAX at h2
  omega

theorem wrap_int_max : wrap_int (INT_MAX + 1) = INT_MIN := by
  unfold wrap_int INT_MAX INT_MIN
  norm_num

theorem wrap_int_range (x : Int) : INT_MIN ≤ wrap_int x ∧ wrap_int x ≤ INT_MAX := by
  unfold wrap_int INT_MIN INT_MAX
  omega

theorem pow_two_neg_exact (p : Int) (h : p ≤ 1074) : pow_two_neg p = (2 : ℚ) ^ (-p) := by
  unfold pow_two_neg
  rw [if_pos h]

theorem pow_two_neg_zero (p : Int) (h : 1075 ≤ p) : pow_two_neg p = 0 := by
  unfold pow_two_neg
  rw [if_neg (by omega)]

theorem overflows_of_slot [DecidableEq Key] (hash : Key → Nat) (b : unordered_buffer Key T)
    (key : Key) (data : Element Key T)
    (h : b.m_data[hash key % b.m_data.length]? = some data) :
    b.overflows hash key = decide (data.value.1 = key ∧ data.priority = INT_MAX) := by
  unfold overflows
  rw [h]

theorem incr_succ (d : Nat) : (⟨some (d + 1)⟩ : iterator).incr = ⟨some d⟩ := rfl

theorem begin_eq_end_iff (b : unordered_buffer Key T) : b.begin = b.end_ ↔ b.m_used = [] := by
  simp [begin, end_]

theorem locate_of_slot (hash : Key → Nat) (b : unordered_buffer Key T) (key : Key)
    (data : Element Key T) (h : b.m_data[hash key % b.m_data.length]? = some data) :
    b.locate hash key = .ok (hash key % b.m_data.length, data) := by
  have hne : b.m_data.length ≠ 0 := by
    intro h0
    have hnil : b.m_data = [] := List.length_eq_zero.mp h0
    rw [hnil] at h
    simp at h
  simp [locate, hne, h]

theorem slot_exists (hash : Key → Nat) (b : unordered_buffer Key T) (key : Key)
    (hN : 1 ≤ b.m_data.length) :
    ∃ data, b.m_data[hash key % b.m_data.length]? = some data := by
  have hlt : hash key % b.m_data.length < b.m_data.length := Nat.mod_lt _ hN
  exact ⟨_, List.getElem?_eq_getElem hlt⟩

theorem locate_zero (hash : Key → Nat) (b : unordered_buffer Key T) (key : Key)
    (h0 : b.m_data.length = 0) : b.locate hash key = .error .undefined_behavior := by
  simp [locate, h0]

theorem locate_ok_inv (hash : Key → Nat) (b : unordered_buffer Key T) (key : Key)
    (idx : Nat) (data : Element Key T) (h : b.locate hash key = .ok (idx, data)) :
    idx = hash key % b.m_data.length ∧ b.m_data[idx]? = some data ∧
      idx < b.m_data.length := by
  unfold locate at h
  split at h
  · cases h
  · split at h
    · cases h
    · rename_i d hd
      cases h
      refine ⟨rfl, hd, ?_⟩
      exact (List.getElem?_eq_some.mp hd).1

theorem insert_of_slot [DecidableEq Key] (hash : Key → Nat) (b : unordered_buffer Key T)
    (kv : Key × T) (prob : Bool) (r : ℚ) (data : Element Key T)
    (h : b.m_data[hash kv.1 % b.m_data.length]? = some data) :
    b.insert hash kv prob r =
      if data.priority ≤ 0 then
        .ok (⟨b.m_data.set (hash kv.1 % b.m_data.length)
                ⟨1, ⟨some (b.m_used.length + 1)⟩, kv⟩,
              (hash kv.1 % b.m_data.length) :: b.m_used⟩,
             (⟨some (b.m_used.length + 1)⟩, true))
      else if data.value.1 = kv.1 then
        .ok (⟨b.m_data.set (hash kv.1 % b.m_data.length)
                ⟨wrap_int (data.priority + 1), data.pos, data.value⟩, b.m_used⟩, (data.pos, false))
      else if prob = true ∧ ¬ r < pow_two_neg data.priority then
        .ok (b, (data.pos, false))
      else
        .ok (⟨b.m_data.set (hash kv.1 % b.m_data.length) ⟨1, data.pos, kv⟩, b.m_used⟩,
             (data.pos, true)) := by
  unfold insert
  rw [locate_of_slot hash b kv.1 data h]
  by_cases h1 : data.priority ≤ 0
  · simp only [h1, if_true, List.length_cons]
  · by_cases h2 : data.value.1 = kv.1
    · simp only [h1, h2, if_true, if_false]
    · cases prob
      · simp [h1, h2]
      · by_cases h3 : r < pow_two_neg data.priority
        · simp only [h1, h2, h3, if_true, if_false, not_true_eq_false, and_false]
        · simp only [h1, h2, h3, if_true, if_false, not_false_eq_true, and_self]

theorem at_of_slot [DecidableEq Key] (hash : Key → Nat) (b : unordered_buffer Key T)
    (key : Key) (data : Element Key T)
    (h : b.m_data[hash key % b.m_data.length]? = some data) :
    b.at_ hash key =
      if 1 ≤ data.priority ∧ data.value.1 = key then .ok data.value.2
      else .error .out_of_range := by
  unfold at_
  rw [locate_of_slot hash b key data h]
  by_cases h1 : data.priority ≤ 0
  · have : ¬ (1 ≤ data.priority) := by omega
    simp [h1, this]
  · have : 1 ≤ data.priority := by omega
    by_cases h2 : data.value.1 = key <;> simp [h1, h2, this]

theorem count_of_slot [DecidableEq Key] (hash : Key → Nat) (b : unordered_buffer Key T)
    (key : Key) (data : Element Key T)
    (h : b.m_data[hash key % b.m_data.length]? = some data) :
    b.count hash key = .ok (if 1 ≤ data.priority ∧ data.value.1 = key then 1 else 0) := by
  unfold count
  rw [locate_of_slot hash b key data h]
  by_cases h1 : data.priority ≤ 0
  · have : ¬ (1 ≤ data.priority) := by omega
    simp [h1, this]
  · have : 1 ≤ data.priority := by omega
    by_cases h2 : data.value.1 = key <;> simp [h1, h2, this]

theorem slot_lt (b : unordered_buffer Key T) (i : Nat) (e : Element Key T)
    (h : b.m_data[i]? = some e) : i < b.m_data.length :=
  (List.getElem?_eq_some.mp h).1

theorem set_slot_self (b : unordered_buffer Key T) (i : Nat) (e : Element Key T)
    (h : b.m_data[i]? = some e) : b.m_data.set i e = b.m_data := by
  apply List.ext_getElem?
  intro j
  rw [List.getElem?_set]
  by_cases hij : i = j
  · subst hij
    simp [slot_lt b i e h, h]
  · simp [hij]

theorem count_eq_one_iff [DecidableEq Key] (hash : Key → Nat) (b : unordered_buffer Key T)
    (key : Key) :
    b.count hash key = .ok 1 ↔
      ∃ e, b.m_data[hash key % b.m_data.length]? = some e ∧ 1 ≤ e.priority ∧
        e.value.1 = key := by
  constructor
  · intro h
    by_cases h0 : b.m_data.length = 0
    · simp [count, locate_zero hash b key h0] at h
    · obtain ⟨e, he⟩ := slot_exists hash b key (by omega)
      refine ⟨e, he, ?_⟩
      rw [count_of_slot hash b key e he] at h
      by_contra hc
      rw [if_neg hc] at h
      cases h
  · rintro ⟨e, he, h1, h2⟩
    rw [count_of_slot hash b key e he, if_pos ⟨h1, h2⟩]

theorem at_const_eq_at [DecidableEq Key] (hash : Key → Nat) (b : unordered_buffer Key T)
    (key : Key) : b.at_const hash key = b.at_ hash key := rfl

/-- The four exits of `insert`, told apart by the slot found and the flag. -/
theorem insert_cases [DecidableEq Key] (hash : Key → Nat) (b : unordered_buffer Key T)
    (kv : Key × T) (prob : Bool) (r : ℚ) (data : Element Key T)
    (h : b.m_data[hash kv.1 % b.m_data.length]? = some data) :
    (data.priority ≤ 0 ∧
      b.insert hash kv prob r =
        .ok (⟨b.m_data.set (hash kv.1 % b.m_data.length) ⟨1, ⟨some (b.m_used.length + 1)⟩, kv⟩,
              (hash kv.1 % b.m_data.length) :: b.m_used⟩,
             (⟨some (b.m_used.length + 1)⟩, true))) ∨
    (1 ≤ data.priority ∧ data.value.1 = kv.1 ∧
      b.insert hash kv prob r =
        .ok (⟨b.m_data.set (hash kv.1 % b.m_data.length)
                ⟨wrap_int (data.priority + 1), data.pos, data.value⟩, b.m_used⟩, (data.pos, false))) ∨
    (1 ≤ data.priority ∧ data.value.1 ≠ kv.1 ∧ (prob = true → r < pow_two_neg data.priority) ∧
      b.insert hash kv prob r =
        .ok (⟨b.m_data.set (hash kv.1 % b.m_data.length) ⟨1, data.pos, kv⟩, b.m_used⟩,
             (data.pos, true))) ∨
    (1 ≤ data.priority ∧ data.value.1 ≠ kv.1 ∧ prob = true ∧
      ¬ r < pow_two_neg data.priority ∧
      b.insert hash kv prob r = .ok (b, (data.pos, false))) := by
  rw [insert_of_slot hash b kv prob r data h]
  by_cases h1 : data.priority ≤ 0
  · left
    exact ⟨h1, by rw [if_pos h1]⟩
  · right
    have h1' : 1 ≤ data.priority := by omega
    by_cases h2 : data.value.1 = kv.1
    · left
      exact ⟨h1', h2, by rw [if_neg h1, if_pos h2]⟩
    · right
      by_cases h3 : prob = true ∧ ¬ r < pow_two_neg data.priority
      · right
        exact ⟨h1', h2, h3.1, h3.2, by rw [if_neg h1, if_neg h2, if_pos h3]⟩
      · left
        refine ⟨h1', h2, ?_, by rw [if_neg h1, if_neg h2, if_neg h3]⟩
        intro hp
        by_contra hc
        exact h3 ⟨hp, hc⟩

/-- An `insert` that returns leaves the capacity alone and touches no slot but the one
at the bucket index of its key. -/
theorem insert_frame [DecidableEq Key] (hash : Key → Nat) (b b' : unordered_buffer Key T)
    (kv : Key × T) (prob : Bool) (r : ℚ) (res : iterator × Bool)
    (h : b.insert hash kv prob r = .ok (b', res)) :
    b'.m_data.length = b.m_data.length ∧
      ∀ j, j ≠ hash kv.1 % b.m_data.length → b'.m_data[j]? = b.m_data[j]? := by
  by_cases h0 : b.m_data.length = 0
  · simp [insert, locate_zero hash b kv.1 h0] at h
  · obtain ⟨data, hd⟩ := slot_exists hash b kv.1 (by omega)
    rcases insert_cases hash b kv prob r data hd with
      ⟨_, he⟩ | ⟨_, _, he⟩ | ⟨_, _, _, he⟩ | ⟨_, _, _, _, he⟩ <;>
    · rw [he] at h
      cases h
      refine ⟨by simp, ?_⟩
      intro j hj
      first
        | rfl
        | exact List.getElem?_set_ne (Ne.symm hj)

/-- With at least one bucket, `insert` returns. -/
theorem insert_total [DecidableEq Key] (hash : Key → Nat) (b : unordered_buffer Key T)
    (kv : Key × T) (prob : Bool) (r : ℚ) (hN : 1 ≤ b.m_data.length) :
    ∃ b' res, b.insert hash kv prob r = .ok (b', res) := by
  obtain ⟨data, hd⟩ := slot_exists hash b kv.1 hN
  rcases insert_cases hash b kv prob r data hd with
    ⟨_, he⟩ | ⟨_, _, he⟩ | ⟨_, _, _, he⟩ | ⟨_, _, _, _, he⟩ <;>
  exact ⟨_, _, he⟩

/-- A run of inserts, each of the resident key or of a key of another bucket, leaves the
resident key and value in place and raises the priority once per insert of the key, as
long as the priority stays within `INT_MAX`. -/
theorem insert_seq_resident [DecidableEq Key] (hash : Key → Nat) (K : Key) (V0 : T)
    (c : iterator) (N : Nat) (ops : List ((Key × T) × Bool × ℚ)) :
    ∀ (b : unordered_buffer Key T) (p : Int), b.m_data.length = N → 1 ≤ p →
      p + (ops.countP (fun op => decide (op.1.1 = K)) : Nat) ≤ INT_MAX →
      b.m_data[hash K % N]? = some ⟨p, c, (K, V0)⟩ →
      (∀ op ∈ ops, op.1.1 = K ∨ hash op.1.1 % N ≠ hash K % N) →
      ∃ b', b.insert_seq hash ops = .ok b' ∧ b'.m_data.length = N ∧
        b'.m_data[hash K % N]? =
          some ⟨p + (ops.countP (fun op => decide (op.1.1 = K)) : Nat), c, (K, V0)⟩ := by
  induction ops with
  | nil =>
    intro b p hlen _ _ hslot _
    exact ⟨b, rfl, hlen, by simpa using hslot⟩
  | cons op rest ih =>
    intro b p hlen hp hmax hslot hops
    obtain ⟨⟨k, v⟩, prob, r⟩ := op
    have hlt : hash K % N < N := by
      have := slot_lt b _ _ hslot
      omega
    have hhead := hops ((k, v), prob, r) (List.mem_cons_self _ _)
    have htail : ∀ op ∈ rest, op.1.1 = K ∨ hash op.1.1 % N ≠ hash K % N :=
      fun op hop => hops op (List.mem_cons_of_mem _ hop)
    by_cases hk : k = K
    · subst hk
      have hcount : ((((k, v), prob, r) :: rest).countP (fun op => decide (op.1.1 = k)) : Nat) =
          rest.countP (fun op => decide (op.1.1 = k)) + 1 := by
        simp [List.countP_cons]
      rw [hcount] at hmax ⊢
      push_cast at hmax ⊢
      have hwrap : wrap_int (p + 1) = p + 1 :=
        wrap_int_succ p (by unfold INT_MIN; omega) (by omega)
      have hs : b.m_data[hash (k, v).1 % b.m_data.length]? = some ⟨p, c, (k, V0)⟩ := by
        rw [hlen]; exact hslot
      have hins : b.insert hash (k, v) prob r =
          .ok (⟨b.m_data.set (hash k % b.m_data.length) ⟨p + 1, c, (k, V0)⟩, b.m_used⟩,
            (c, false)) := by
        rw [insert_of_slot hash b (k, v) prob r _ hs]
        have h1 : ¬ p ≤ 0 := by omega
        simp [h1, hwrap]
      obtain ⟨b', hrun, hlen', hslot'⟩ := ih
        ⟨b.m_data.set (hash k % b.m_data.length) ⟨p + 1, c, (k, V0)⟩, b.m_used⟩ (p + 1)
        (by simp [hlen]) (by omega) (by omega) (by simp [hlen, hlt]) htail
      refine ⟨b', ?_, hlen', ?_⟩
      · simp only [insert_seq, hins]
        exact hrun
      · rw [hslot']
        congr 2
        ring
    · have hbucket : hash k % N ≠ hash K % N := by
        rcases hhead with h | h
        · exact absurd h hk
        · exact h
      have hcount : ((((k, v), prob, r) :: rest).countP (fun op => decide (op.1.1 = K)) : Nat) =
          rest.countP (fun op => decide (op.1.1 = K)) := by
        simp [List.countP_cons, hk]
      rw [hcount] at hmax ⊢
      obtain ⟨b1, res, hins⟩ := insert_total hash b (k, v) prob r (by omega)
      obtain ⟨hlen1, hframe⟩ := insert_frame hash b b1 (k, v) prob r res hins
      have hslot1 : b1.m_data[hash K % N]? = some ⟨p, c, (K, V0)⟩ := by
        rw [hframe (hash K % N) (by rw [hlen]; exact fun h => hbucket h.symm)]
        exact hslot
      obtain ⟨b', hrun, hlen', hslot'⟩ := ih b1 p (by omega) hp hmax hslot1 htail
      refine ⟨b', ?_, hlen', hslot'⟩
      simp only [insert_seq, hins]
      exact hrun

/-- The transition written in the body of the copying `insert` is that of the moving
`insert`, the overload a client can call. -/
theorem insert_move_eq_insert [DecidableEq Key] (hash : Key → Nat)
    (b : unordered_buffer Key T) (kv : Key × T) (prob : Bool) (r : ℚ) :
    b.insert_move hash kv prob r = b.insert hash kv prob r := by
  unfold insert_move insert
  cases hloc : b.locate hash kv.1 with
  | error e => rfl
  | ok found =>
    obtain ⟨idx, data⟩ := found
    by_cases h1 : data.priority ≤ 0
    · simp only [h1, if_true, begin, List.set_set, List.length_cons]
    · simp only [h1, if_false]

/-- The transition written in the body of `emplace` is that of `insert`. This compares
the embedded texts only: `emplace` does not compile once instantiated. -/
theorem emplace_eq_insert [DecidableEq Key] (hash : Key → Nat)
    (b : unordered_buffer Key T) (key : Key) (value : T) (prob : Bool) (r : ℚ) :
    b.emplace hash key value prob r = b.insert hash (key, value) prob r := rfl

/-- The transition written in the body of `emplace_hint` is that of `insert`; the hint
is not read. This compares the embedded texts only. -/
theorem emplace_hint_eq_insert [DecidableEq Key] (hash : Key → Nat)
    (b : unordered_buffer Key T) (it : iterator) (key : Key) (value : T) (prob : Bool)
    (r : ℚ) :
    b.emplace_hint hash it key value prob r = b.insert hash (key, value) prob r := rfl

theorem reset_priorities_slot (data : List (Element Key T)) (i : Nat) (e : Element Key T)
    (h : (reset_priorities data)[i]? = some e) : e.priority = 0 := by
  unfold reset_priorities at h
  rw [List.getElem?_map] at h
  cases hd : data[i]? with
  | none => rw [hd] at h; cases h
  | some d =>
    rw [hd] at h
    cases h
    rfl

theorem reset_priorities_length (data : List (Element Key T)) :
    (reset_priorities data).length = data.length := by
  simp [reset_priorities]

theorem inv_of_all_empty (hash : Key → Nat) (data : List (Element Key T))
    (h : ∀ (i : Nat) (e : Element Key T), data[i]? = some e → e.priority = 0) :
    Inv hash (⟨data, []⟩ : unordered_buffer Key T) where
  used_nodup := List.nodup_nil
  used_iff := by
    intro i
    constructor
    · intro hi
      cases hi
    · rintro ⟨e, he, hp⟩
      have := h i e he
      omega
  pos_ok := by
    intro i e he hp
    have := h i e he
    omega
  home := by
    intro i e he hp
    have := h i e he
    omega
  size_eq := by
    symm
    rw [List.length_nil, List.countP_eq_zero]
    intro e he
    obtain ⟨i, hi⟩ := List.mem_iff_getElem?.mp he
    have := h i e hi
    simp only [decide_eq_true_eq]
    omega

theorem inv_clear (hash : Key → Nat) (b : unordered_buffer Key T) : Inv hash b.clear :=
  inv_of_all_empty hash _ (reset_priorities_slot b.m_data)

theorem inv_mk_sized [Inhabited Key] [Inhabited T] (hash : Key → Nat) (size : Nat) :
    Inv hash (mk_sized size : unordered_buffer Key T) :=
  inv_of_all_empty hash _ (reset_priorities_slot _)

/-- Occupying an empty slot keeps the invariant. -/
theorem inv_occupy (hash : Key → Nat) (b : unordered_buffer Key T) (kv : Key × T)
    (data : Element Key T) (hinv : Inv hash b)
    (hslot : b.m_data[hash kv.1 % b.m_data.length]? = some data) (hp : data.priority ≤ 0) :
    Inv hash (⟨b.m_data.set (hash kv.1 % b.m_data.length)
        ⟨1, ⟨some (b.m_used.length + 1)⟩, kv⟩,
      (hash kv.1 % b.m_data.length) :: b.m_used⟩ : unordered_buffer Key T) := by
  have hlt := slot_lt b _ data hslot
  have hnot : hash kv.1 % b.m_data.length ∉ b.m_used := by
    intro hmem
    obtain ⟨e, he, hocc⟩ := (hinv.used_iff _).mp hmem
    rw [hslot] at he
    cases he
    omega
  refine ⟨?_, ?_, ?_, ?_, ?_⟩
  · exact List.nodup_cons.mpr ⟨hnot, hinv.used_nodup⟩
  · intro i
    simp only [List.mem_cons, List.getElem?_set]
    by_cases hi : hash kv.1 % b.m_data.length = i
    · subst hi
      simp [hlt]
    · rw [if_neg hi, hinv.used_iff i]
      constructor
      · rintro (h | h)
        · exact absurd h.symm hi
        · exact h
      · exact fun h => Or.inr h
  · intro i e he hocc
    simp only [List.getElem?_set] at he
    by_cases hi : hash kv.1 % b.m_data.length = i
    · subst hi
      rw [if_pos rfl, if_pos hlt] at he
      cases he
      refine ⟨b.m_used.length + 1, rfl, ?_⟩
      simp [node_slot]
    · rw [if_neg hi] at he
      obtain ⟨d, hd, hnode⟩ := hinv.pos_ok i e he hocc
      refine ⟨d, hd, ?_⟩
      simp only [node_slot] at hnode ⊢
      by_cases hc : d = 0 ∨ b.m_used.length < d
      · rw [if_pos hc] at hnode
        cases hnode
      · rw [if_neg hc] at hnode
        have hc' : ¬ (d = 0 ∨ (hash kv.1 % b.m_data.length :: b.m_used).length < d) := by
          simp only [List.length_cons]
          omega
        rw [if_neg hc']
        have : (hash kv.1 % b.m_data.length :: b.m_used).length - d =
            (b.m_used.length - d) + 1 := by
          simp only [List.length_cons]
          omega
        rw [this, List.getElem?_cons_succ]
        exact hnode
  · intro i e he hocc
    simp only [List.getElem?_set, List.length_set] at he ⊢
    by_cases hi : hash kv.1 % b.m_data.length = i
    · subst hi
      rw [if_pos rfl, if_pos hlt] at he
      cases he
      rfl
    · rw [if_neg hi] at he
      exact hinv.home i e he hocc
  · have hdata : b.m_data[hash kv.1 % b.m_data.length] = data := by
      have := List.getElem?_eq_getElem hlt
      rw [hslot] at this
      exact (Option.some.inj this).symm
    have hnp : ¬ (1 ≤ data.priority) := by omega
    simp only [List.length_cons, List.countP_set _ _ _ _ hlt, hdata, decide_eq_true_eq,
      hnp, if_false, le_refl, if_true, hinv.size_eq]
    omega

/-- Rewriting an occupied slot in place, keeping it occupied, its `pos`, and a key of
the same bucket, keeps the invariant. -/
theorem inv_update (hash : Key → Nat) (b : unordered_buffer Key T) (idx : Nat)
    (data e' : Element Key T) (hinv : Inv hash b)
    (hslot : b.m_data[idx]? = some data) (hp : 1 ≤ data.priority)
    (hp' : 1 ≤ e'.priority) (hpos : e'.pos = data.pos)
    (hhome : hash e'.value.1 % b.m_data.length = idx) :
    Inv hash (⟨b.m_data.set idx e', b.m_used⟩ : unordered_buffer Key T) := by
  have hlt := slot_lt b _ data hslot
  refine ⟨hinv.used_nodup, ?_, ?_, ?_, ?_⟩
  · intro i
    simp only [List.getElem?_set]
    by_cases hi : idx = i
    · subst hi
      rw [if_pos rfl, if_pos hlt, hinv.used_iff idx]
      constructor
      · intro _
        exact ⟨e', rfl, hp'⟩
      · intro _
        exact ⟨data, hslot, hp⟩
    · rw [if_neg hi, hinv.used_iff i]
  · intro i e he hocc
    simp only [List.getElem?_set] at he
    by_cases hi : idx = i
    · subst hi
      rw [if_pos rfl, if_pos hlt] at he
      cases he
      obtain ⟨d, hd, hnode⟩ := hinv.pos_ok idx data hslot hp
      exact ⟨d, hpos.trans hd, hnode⟩
    · rw [if_neg hi] at he
      exact hinv.pos_ok i e he hocc
  · intro i e he hocc
    simp only [List.getElem?_set, List.length_set] at he ⊢
    by_cases hi : idx = i
    · subst hi
      rw [if_pos rfl, if_pos hlt] at he
      cases he
      exact hhome
    · rw [if_neg hi] at he
      exact hinv.home i e he hocc
  · have hdata : b.m_data[idx] = data := by
      have := List.getElem?_eq_getElem hlt
      rw [hslot] at this
      exact (Option.some.inj this).symm
    have hpos1 : 0 < b.m_data.countP (fun e => decide (1 ≤ e.priority)) := by
      rw [List.countP_pos_iff]
      exact ⟨data, by rw [← hdata]; exact List.getElem_mem _, by simpa using hp⟩
    simp only [List.countP_set _ _ _ _ hlt, hdata, decide_eq_true_eq, hp, hp', if_true,
      hinv.size_eq]
    omega

/-- An insertion that does not overflow a priority keeps the invariant. -/
theorem inv_insert [DecidableEq Key] (hash : Key → Nat) (b b' : unordered_buffer Key T)
    (kv : Key × T) (prob : Bool) (r : ℚ) (res : iterator × Bool) (hinv : Inv hash b)
    (hwf : Wf hash b) (hno : b.overflows hash kv.1 = false)
    (h : b.insert hash kv prob r = .ok (b', res)) : Inv hash b' := by
  by_cases h0 : b.m_data.length = 0
  · simp [insert, locate_zero hash b kv.1 h0] at h
  · obtain ⟨data, hd⟩ := slot_exists hash b kv.1 (by omega)
    rcases insert_cases hash b kv prob r data hd with
      ⟨hp, he⟩ | ⟨hp, hk, he⟩ | ⟨hp, hk, _, he⟩ | ⟨hp, hk, _, _, he⟩
    · rw [he] at h
      cases h
      exact inv_occupy hash b kv data hinv hd hp
    · rw [he] at h
      cases h
      have hle := (hwf.range _ data hd).2
      have hne : data.priority ≠ INT_MAX := by
        intro hmax
        rw [overflows_of_slot hash b kv.1 data hd] at hno
        simp [hk, hmax] at hno
      have hwrap : wrap_int (data.priority + 1) = data.priority + 1 :=
        wrap_int_succ _ (by unfold INT_MIN; omega) (lt_of_le_of_ne hle hne)
      refine inv_update hash b _ data _ hinv hd hp ?_ rfl ?_
      · simp only [hwrap]
        omega
      · simp only []
        rw [hk]
    · rw [he] at h
      cases h
      exact inv_update hash b _ data _ hinv hd hp (le_refl 1) rfl rfl
    · rw [he] at h
      cases h
      exact hinv

theorem wf_of_all_empty (hash : Key → Nat) (data : List (Element Key T))
    (h : ∀ (i : Nat) (e : Element Key T), data[i]? = some e → e.priority = 0) :
    Wf hash (⟨data, []⟩ : unordered_buffer Key T) where
  range := by
    intro i e he
    have := h i e he
    unfold INT_MIN INT_MAX
    omega
  listed := by
    intro i hi
    cases hi
  home := by
    intro i e he hp
    have := h i e he
    omega

/-- Every returning insertion keeps priorities within `int`, the traversal list within
the slot array, and occupied slots at the bucket index of their key. -/
theorem wf_insert [DecidableEq Key] (hash : Key → Nat) (b b' : unordered_buffer Key T)
    (kv : Key × T) (prob : Bool) (r : ℚ) (res : iterator × Bool) (hwf : Wf hash b)
    (h : b.insert hash kv prob r = .ok (b', res)) : Wf hash b' := by
  by_cases h0 : b.m_data.length = 0
  · simp [insert, locate_zero hash b kv.1 h0] at h
  · obtain ⟨data, hd⟩ := slot_exists hash b kv.1 (by omega)
    have hlt := slot_lt b _ data hd
    have hgen : ∀ (e' : Element Key T) (u : List Nat),
        (INT_MIN ≤ e'.priority ∧ e'.priority ≤ INT_MAX) →
        (∀ i ∈ u, i < b.m_data.length) →
        (1 ≤ e'.priority → hash e'.value.1 % b.m_data.length = hash kv.1 % b.m_data.length) →
        Wf hash (⟨b.m_data.set (hash kv.1 % b.m_data.length) e', u⟩ : unordered_buffer Key T) := by
      intro e' u hr hu hh
      refine ⟨?_, ?_, ?_⟩
      · intro i e he
        simp only [List.getElem?_set] at he
        by_cases hi : hash kv.1 % b.m_data.length = i
        · rw [if_pos hi, if_pos hlt] at he
          cases he
          exact hr
        · rw [if_neg hi] at he
          exact hwf.range i e he
      · intro i hi
        simp only [List.length_set]
        exact hu i hi
      · intro i e he hocc
        simp only [List.getElem?_set, List.length_set] at he ⊢
        by_cases hi : hash kv.1 % b.m_data.length = i
        · rw [if_pos hi, if_pos hlt] at he
          cases he
          rw [← hi]
          exact hh hocc
        · rw [if_neg hi] at he
          exact hwf.home i e he hocc
    rcases insert_cases hash b kv prob r data hd with
      ⟨hp, he⟩ | ⟨hp, hk, he⟩ | ⟨hp, hk, _, he⟩ | ⟨hp, hk, _, _, he⟩
    · rw [he] at h
      cases h
      refine hgen _ _ (by unfold INT_MIN INT_MAX; simp) ?_ (fun _ => rfl)
      intro i hi
      rcases List.mem_cons.mp hi with rfl | hi'
      · exact hlt
      · exact hwf.listed i hi'
    · rw [he] at h
      cases h
      refine hgen _ _ (wrap_int_range _) hwf.listed (fun _ => ?_)
      simp only []
      rw [hk]
    · rw [he] at h
      cases h
      exact hgen _ _ (by unfold INT_MIN INT_MAX; simp) hwf.listed (fun _ => rfl)
    · rw [he] at h
      cases h
      exact hwf

theorem reachable_wf [DecidableEq Key] [Inhabited Key] [Inhabited T] (hash : Key → Nat)
    (b : unordered_buffer Key T) (h : Reachable hash b) : Wf hash b := by
  induction h with
  | ctor size => exact wf_of_all_empty hash _ (reset_priorities_slot _)
  | clear _ _ => exact wf_of_all_empty hash _ (reset_priorities_slot _)
  | insert _ _ _ hins ih => exact wf_insert hash _ _ _ _ _ _ ih hins
  | insert_move _ _ _ hins ih =>
    rw [insert_move_eq_insert] at hins
    exact wf_insert hash _ _ _ _ _ _ ih hins
  | emplace _ _ _ hins ih =>
    rw [emplace_eq_insert] at hins
    exact wf_insert hash _ _ _ _ _ _ ih hins
  | emplace_hint _ _ _ hins ih =>
    rw [emplace_hint_eq_insert] at hins
    exact wf_insert hash _ _ _ _ _ _ ih hins

theorem reachable_of_in_range [DecidableEq Key] [Inhabited Key] [Inhabited T]
    (hash : Key → Nat) (b : unordered_buffer Key T) (h : ReachableInRange hash b) :
    Reachable hash b := by
  induction h with
  | ctor size => exact Reachable.ctor size
  | clear _ ih => exact Reachable.clear ih
  | insert _ h0 h1 _ hins ih => exact Reachable.insert ih h0 h1 hins
  | insert_move _ h0 h1 _ hins ih => exact Reachable.insert_move ih h0 h1 hins
  | emplace _ h0 h1 _ hins ih => exact Reachable.emplace ih h0 h1 hins
  | emplace_hint _ h0 h1 _ hins ih => exact Reachable.emplace_hint ih h0 h1 hins

theorem reachable_inv [DecidableEq Key] [Inhabited Key] [Inhabited T] (hash : Key → Nat)
    (b : unordered_buffer Key T) (h : ReachableInRange hash b) : Inv hash b := by
  induction h with
  | ctor size => exact inv_mk_sized hash size
  | clear _ _ => exact inv_clear hash _
  | insert hr _ _ hno hins ih =>
    exact inv_insert hash _ _ _ _ _ _ ih (reachable_wf hash _ (reachable_of_in_range hash _ hr))
      hno hins
  | insert_move hr _ _ hno hins ih =>
    rw [insert_move_eq_insert] at hins
    exact inv_insert hash _ _ _ _ _ _ ih (reachable_wf hash _ (reachable_of_in_range hash _ hr))
      hno hins
  | emplace hr _ _ hno hins ih =>
    rw [emplace_eq_insert] at hins
    exact inv_insert hash _ _ _ _ _ _ ih (reachable_wf hash _ (reachable_of_in_range hash _ hr))
      hno hins
  | emplace_hint hr _ _ hno hins ih =>
    rw [emplace_hint_eq_insert] at hins
    exact inv_insert hash _ _ _ _ _ _ ih (reachable_wf hash _ (reachable_of_in_range hash _ hr))
      hno hins

theorem scenario_fresh_insert :
    scenario_fresh.insert id (1, "a") true (1 / 3) = .ok (scenario_one, (⟨some 1⟩, true)) := rfl

theorem scenario_fresh_reachable : Reachable id scenario_fresh := Reachable.ctor 4

theorem scenario_one_reachable : Reachable id scenario_one :=
  Reachable.insert scenario_fresh_reachable (by norm_num) (by norm_num) scenario_fresh_insert

/-- The walk of `visit` reads the traversal list from the cursor on. -/
theorem visit_eq (b : unordered_buffer Key T)
    (hused : ∀ i ∈ b.m_used, ∃ e, b.m_data[i]? = some e) :
    ∀ d, d ≤ b.m_used.length →
      (b.visit d).map some =
        (b.m_used.drop (b.m_used.length - d)).map
          (fun i => (b.m_data[i]?).map (fun e => e.value)) := by
  intro d
  induction d with
  | zero =>
    intro _
    simp [visit]
  | succ d ih =>
    intro hd
    have hlt : b.m_used.length - (d + 1) < b.m_used.length := by omega
    have hnode : b.node_slot ⟨some (d + 1)⟩ = some (b.m_used[b.m_used.length - (d + 1)]) := by
      simp only [node_slot]
      rw [if_neg (by omega)]
      exact List.getElem?_eq_getElem hlt
    obtain ⟨e, he⟩ := hused _ (List.getElem_mem hlt)
    have hderef : b.deref ⟨some (d + 1)⟩ = some e.value := by
      simp only [deref, hnode, he, Option.map_some']
    have hdrop : b.m_used.drop (b.m_used.length - (d + 1)) =
        b.m_used[b.m_used.length - (d + 1)] :: b.m_used.drop (b.m_used.length - d) := by
      rw [List.drop_eq_getElem_cons hlt]
      congr 2
      omega
    simp only [visit, hderef, List.map_cons, hdrop, he, Option.map_some']
    rw [ih (by omega)]

theorem entries_eq (hash : Key → Nat) (b : unordered_buffer Key T) (hinv : Inv hash b) :
    b.entries.map some = b.m_used.map (fun i => (b.m_data[i]?).map (fun e => e.value)) := by
  have hused : ∀ i ∈ b.m_used, ∃ e, b.m_data[i]? = some e := by
    intro i hi
    obtain ⟨e, he, _⟩ := (hinv.used_iff i).mp hi
    exact ⟨e, he⟩
  have := visit_eq b hused b.m_used.length (le_refl _)
  simpa [entries, begin] using this

theorem entries_length (hash : Key → Nat) (b : unordered_buffer Key T) (hinv : Inv hash b) :
    b.entries.length = b.m_used.length := by
  have := congrArg List.length (entries_eq hash b hinv)
  simpa using this

theorem entries_keys_nodup (hash : Key → Nat) (b : unordered_buffer Key T)
    (hinv : Inv hash b) : (b.entries.map Prod.fst).Nodup := by
  have hmap : (b.entries.map Prod.fst).map some =
      b.m_used.map (fun i => (b.m_data[i]?).map (fun e => e.value.1)) := by
    have h := congrArg (List.map (Option.map Prod.fst)) (entries_eq hash b hinv)
    simp only [List.map_map] at h
    rw [List.map_map]
    have hl : (Option.map Prod.fst ∘ some : Key × T → Option Key) = some ∘ Prod.fst := by
      funext x; rfl
    have hr : (Option.map Prod.fst ∘
        fun i : Nat => (b.m_data[i]?).map (fun e : Element Key T => e.value)) =
        fun i : Nat => (b.m_data[i]?).map (fun e : Element Key T => e.value.1) := by
      funext i
      simp only [Function.comp_apply, Option.map_map]
      rfl
    rw [hl, hr] at h
    exact h
  have hnd : (b.m_used.map (fun i => (b.m_data[i]?).map (fun e => e.value.1))).Nodup := by
    apply List.Nodup.map_on _ hinv.used_nodup
    intro i hi j hj hij
    obtain ⟨ei, hei, hoi⟩ := (hinv.used_iff i).mp hi
    obtain ⟨ej, hej, hoj⟩ := (hinv.used_iff j).mp hj
    simp only [hei, hej, Option.map_some', Option.some.injEq] at hij
    rw [← hinv.home i ei hei hoi, ← hinv.home j ej hej hoj, hij]
  rw [← hmap] at hnd
  exact List.Nodup.of_map _ hnd

/-- In the invariant, a slot index occurs in the traversal list once if the slot is
occupied and not at all if it is empty. -/
theorem used_count (hash : Key → Nat) (b : unordered_buffer Key T) (hinv : Inv hash b)
    (i : Nat) (e : Element Key T) (he : b.m_data[i]? = some e) :
    b.m_used.count i = if 1 ≤ e.priority then 1 else 0 := by
  by_cases hocc : 1 ≤ e.priority
  · rw [if_pos hocc]
    exact List.count_eq_one_of_mem hinv.used_nodup ((hinv.used_iff i).mpr ⟨e, he, hocc⟩)
  · rw [if_neg hocc, List.count_eq_zero]
    intro hmem
    obtain ⟨e', he', hocc'⟩ := (hinv.used_iff i).mp hmem
    rw [he] at he'
    cases he'
    exact hocc hocc'

/-- The visited entries are the pairs of the listed slots, whenever the traversal list
points into the slot array. -/
theorem entries_eq_of_listed (b : unordered_buffer Key T)
    (hl : ∀ i ∈ b.m_used, i < b.m_data.length) :
    b.entries.map some = b.m_used.map (fun i => (b.m_data[i]?).map (fun e => e.value)) := by
  have hused : ∀ i ∈ b.m_used, ∃ e, b.m_data[i]? = some e :=
    fun i hi => ⟨_, List.getElem?_eq_getElem (hl i hi)⟩
  have := visit_eq b hused b.m_used.length (le_refl _)
  simpa [entries, begin] using this

theorem scenario_one_eq_hit : scenario_one = scenario_hit 1 := rfl

/-- Inserting key 1 again into the scenario with key 1 resident. -/
theorem scenario_hit_insert (p : Int) (v : String) (prob : Bool) (r : ℚ) (hp : 1 ≤ p) :
    (scenario_hit p).insert id (1, v) prob r =
      .ok (scenario_hit (wrap_int (p + 1)), (⟨some 1⟩, false)) := by
  have hs : (scenario_hit p).m_data[id (1, v).1 % (scenario_hit p).m_data.length]? =
      some ⟨p, ⟨some 1⟩, (1, "a")⟩ := rfl
  rw [insert_of_slot id (scenario_hit p) (1, v) prob r _ hs]
  have h1 : ¬ p ≤ 0 := by omega
  simp only [h1, if_false, if_true]
  rfl

/-- Key 1 resident at any priority from 1 to `INT_MAX` is reachable, by repeating
`insert(1, "a")`. -/
theorem scenario_hit_reachable (n : Nat) (hn : (n : Int) + 1 ≤ INT_MAX) :
    Reachable id (scenario_hit ((n : Int) + 1)) := by
  induction n with
  | zero => exact scenario_one_reachable
  | succ n ih =>
    have hprev : ((n : Int) + 1) ≤ INT_MAX := by push_cast at hn; omega
    have hstep := scenario_hit_insert ((n : Int) + 1) "a" true (1 / 2) (by omega)
    rw [wrap_int_succ _ (by unfold INT_MIN; omega) (by push_cast at hn; omega)] at hstep
    have hr := Reachable.insert (ih hprev) (by norm_num) (by norm_num) hstep
    have hcast : (((n + 1 : Nat) : Int) + 1) = (n : Int) + 1 + 1 := by push_cast; ring
    rw [hcast]
    exact hr

/-- Key 1 resident at priority `INT_MAX`: reachable by 2^31 - 1 insertions of the key. -/
theorem scenario_saturated_reachable : Reachable id (scenario_hit INT_MAX) := by
  have h := scenario_hit_reachable 2147483646 (by unfold INT_MAX; norm_num)
  have hc : ((2147483646 : Nat) : Int) + 1 = INT_MAX := by unfold INT_MAX; norm_num
  rw [hc] at h
  exact h

theorem scenario_saturated_insert (v : String) (prob : Bool) (r : ℚ) :
    (scenario_hit INT_MAX).insert id (1, v) prob r =
      .ok (scenario_hit INT_MIN, (⟨some 1⟩, false)) := by
  have h := scenario_hit_insert INT_MAX v prob r (by unfold INT_MAX; norm_num)
  rw [wrap_int_max] at h
  exact h

/-- One insertion more and the priority has wrapped to `INT_MIN`. -/
theorem scenario_wrapped_reachable : Reachable id (scenario_hit INT_MIN) :=
  Reachable.insert scenario_saturated_reachable (by norm_num) (by norm_num)
    (scenario_saturated_insert "a" true (1 / 2))

theorem scenario_wrapped_insert (prob : Bool) (r : ℚ) :
    (scenario_hit INT_MIN).insert id (1, "a") prob r =
      .ok (scenario_twice, (⟨some 2⟩, true)) := by
  have hs : (scenario_hit INT_MIN).m_data[id (1, "a").1 % (scenario_hit INT_MIN).m_data.length]? =
      some ⟨INT_MIN, ⟨some 1⟩, (1, "a")⟩ := rfl
  rw [insert_of_slot id (scenario_hit INT_MIN) (1, "a") prob r _ hs]
  have h1 : INT_MIN ≤ 0 := by unfold INT_MIN; norm_num
  simp only [h1, if_true]
  rfl

/-- One insertion more and the slot is listed twice. -/
theorem scenario_twice_reachable : Reachable id scenario_twice :=
  Reachable.insert scenario_wrapped_reachable (by norm_num) (by norm_num)
    (scenario_wrapped_insert true (1 / 2))

theorem scenario_one_in_range : ReachableInRange id scenario_one := by
  refine ReachableInRange.insert (ReachableInRange.ctor 4) ?_ ?_ ?_ scenario_fresh_insert
  · norm_num
  · norm_num
  · rfl

/-- A sequence of `insert` calls splits at any point. -/
theorem insert_seq_append [DecidableEq Key] (hash : Key → Nat)
    (l1 l2 : List ((Key × T) × Bool × ℚ)) :
    ∀ b b1 : unordered_buffer Key T, b.insert_seq hash l1 = .ok b1 →
      b.insert_seq hash (l1 ++ l2) = b1.insert_seq hash l2 := by
  induction l1 with
  | nil =>
    intro b b1 h
    simp only [insert_seq] at h
    cases h
    rfl
  | cons op rest ih =>
    intro b b1 h
    obtain ⟨kv, prob, r⟩ := op
    simp only [insert_seq, List.cons_append] at h ⊢
    cases hins : b.insert hash kv prob r with
    | error err =>
      rw [hins] at h
      cases h
    | ok out =>
      obtain ⟨b2, res⟩ := out
      rw [hins] at h
      simp only at h ⊢
      exact ih b2 b1 h

/-- Repeating `insert(1, "z")` on the scenario with key 1 resident adds the number of
repetitions to the priority, up to `INT_MAX`. -/
theorem insert_seq_hits (n : Nat) :
    ∀ p : Int, 1 ≤ p → p + n ≤ INT_MAX →
      (scenario_hit p).insert_seq id (List.replicate n ((1, "z"), true, 1 / 2)) =
        .ok (scenario_hit (p + n)) := by
  induction n with
  | zero =>
    intro p _ _
    simp [insert_seq]
  | succ n ih =>
    intro p hp hmax
    push_cast at hmax
    have hstep := scenario_hit_insert p "z" true (1 / 2) hp
    rw [wrap_int_succ p (by unfold INT_MIN; omega) (by omega)] at hstep
    rw [List.replicate_succ]
    simp only [insert_seq, hstep]
    rw [ih (p + 1) (by omega) (by omega)]
    congr 2
    push_cast
    ring

/-- After the first insertion of key 1, 2^31 - 1 further inserts of the key leave its
priority at `INT_MIN`. -/
theorem insert_seq_overflow :
    (scenario_hit 1).insert_seq id (List.replicate 2147483647 ((1, "z"), true, 1 / 2)) =
      .ok (scenario_hit INT_MIN) := by
  have h2 := insert_seq_hits 2147483646 1 (le_refl 1) (by unfold INT_MAX; norm_num)
  have hc : (1 : Int) + ((2147483646 : Nat) : Int) = INT_MAX := by unfold INT_MAX; norm_num
  rw [hc] at h2
  have h3 : (scenario_hit INT_MAX).insert_seq id [((1, "z"), true, 1 / 2)] =
      .ok (scenario_hit INT_MIN) := by
    simp only [insert_seq, scenario_saturated_insert]
  have hsplit : List.replicate 2147483647 (((1 : Nat), "z"), true, (1 / 2 : ℚ)) =
      List.replicate 2147483646 (((1 : Nat), "z"), true, (1 / 2 : ℚ)) ++
        [((1, "z"), true, 1 / 2)] :=
    List.replicate_succ' 2147483646 _
  rw [hsplit]
  exact (insert_seq_append id _ _ _ _ h2).trans h3

/-! ## The claims -/

/-- Claim C1. Inserting a key whose bucket is empty reports `inserted == true`; right
afterwards `count` of the key is 1, `at` returns the inserted value, the slot has priority
exactly 1 and `size()` has grown by one. The slot exists only when the capacity is at
least 1, and the statement holds in every state, reachable or not. -/
theorem insert_empty_bucket {Key T : Type} [DecidableEq Key] (hash : Key → Nat)
    (b : unordered_buffer Key T) (K : Key) (V : T) (prob : Bool) (r : ℚ)
    (e : Element Key T)
    (hslot : b.m_data[hash K % b.max_size]? = some e) (hempty : e.priority = 0) :
    ∃ b' c, b.insert hash (K, V) prob r = .ok (b', (c, true)) ∧
      b'.count hash K = .ok 1 ∧
      b'.at_ hash K = .ok V ∧
      (∃ e', b'.m_data[hash K % b'.max_size]? = some e' ∧ e'.priority = 1) ∧
      b'.size = b.size + 1 := by
  have hlt := slot_lt b _ e hslot
  simp only [max_size] at hslot hlt
  refine ⟨⟨b.m_data.set (hash K % b.m_data.length) ⟨1, ⟨some (b.m_used.length + 1)⟩, (K, V)⟩,
    (hash K % b.m_data.length) :: b.m_used⟩, ⟨some (b.m_used.length + 1)⟩, ?_, ?_, ?_, ?_, ?_⟩
  · rw [insert_of_slot hash b (K, V) prob r e hslot]
    simp only [hempty, le_refl, if_true]
  · rw [count_of_slot hash _ K ⟨1, ⟨some (b.m_used.length + 1)⟩, (K, V)⟩]
    · simp
    · simp [hlt]
  · rw [at_of_slot hash _ K ⟨1, ⟨some (b.m_used.length + 1)⟩, (K, V)⟩]
    · simp
    · simp [hlt]
  · exact ⟨⟨1, ⟨some (b.m_used.length + 1)⟩, (K, V)⟩, by simp [max_size, hlt], rfl⟩
  · simp [size]

/-- Claim C1 on the scenario: `insert(1, "a")` into the fresh container of capacity 4. -/
theorem insert_empty_bucket_witness :
    scenario_fresh.m_data[id 1 % scenario_fresh.max_size]? = some ⟨0, ⟨none⟩, (0, "")⟩ ∧
      ∃ b' c, scenario_fresh.insert id (1, "a") true (1 / 3) = .ok (b', (c, true)) ∧
        b'.count id 1 = .ok 1 ∧
        b'.at_ id 1 = .ok "a" ∧
        (∃ e', b'.m_data[id 1 % b'.max_size]? = some e' ∧ e'.priority = 1) ∧
        b'.size = scenario_fresh.size + 1 :=
  ⟨rfl, insert_empty_bucket id scenario_fresh 1 "a" true (1 / 3) ⟨0, ⟨none⟩, (0, "")⟩ rfl rfl⟩

/-- Claim C2. With `probabilistic == false`, inserting a key that collides with a
different resident key always displaces it: `inserted == true`, the old key is absent
(`count` 0, `at` fails with `out_of_range`), `at` of the new key returns the new value,
the slot has priority exactly 1 and `size()` is unchanged. -/
theorem deterministic_displacement {Key T : Type} [DecidableEq Key] (hash : Key → Nat)
    (b : unordered_buffer Key T) (K1 K2 : Key) (V : T) (r : ℚ)
    (hres : b.count hash K1 = .ok 1) (hne : K2 ≠ K1)
    (hcol : hash K2 % b.max_size = hash K1 % b.max_size) :
    ∃ b' c, b.insert hash (K2, V) false r = .ok (b', (c, true)) ∧
      b'.count hash K1 = .ok 0 ∧
      b'.at_ hash K1 = .error .out_of_range ∧
      b'.at_ hash K2 = .ok V ∧
      (∃ e', b'.m_data[hash K2 % b'.max_size]? = some e' ∧ e'.priority = 1) ∧
      b'.size = b.size := by
  obtain ⟨e, hslot, hocc, hkey⟩ := (count_eq_one_iff hash b K1).mp hres
  have hlt := slot_lt b _ e hslot
  simp only [max_size] at hcol
  have hslot2 : b.m_data[hash (K2, V).1 % b.m_data.length]? = some e := by
    simpa [hcol] using hslot
  have hnk : ¬ e.value.1 = K2 := by
    rw [hkey]; exact fun h => hne h.symm
  refine ⟨⟨b.m_data.set (hash K2 % b.m_data.length) ⟨1, e.pos, (K2, V)⟩, b.m_used⟩, e.pos,
    ?_, ?_, ?_, ?_, ?_, ?_⟩
  · rw [insert_of_slot hash b (K2, V) false r e hslot2]
    have h1 : ¬ e.priority ≤ 0 := by omega
    simp [h1, hnk]
  · rw [count_of_slot hash _ K1 ⟨1, e.pos, (K2, V)⟩]
    · simp [hne]
    · simp [hcol, hlt]
  · rw [at_of_slot hash _ K1 ⟨1, e.pos, (K2, V)⟩]
    · simp [hne]
    · simp [hcol, hlt]
  · rw [at_of_slot hash _ K2 ⟨1, e.pos, (K2, V)⟩]
    · simp
    · simp [hcol, hlt]
  · exact ⟨⟨1, e.pos, (K2, V)⟩, by simp [max_size, hcol, hlt], rfl⟩
  · simp [size]

/-- Claim C2 on the scenario of the specification: capacity 4, `hash(k) = k`,
`insert(1, "a")` then `insert(5, "b", false)`. -/
theorem deterministic_displacement_witness :
    scenario_fresh.insert id (1, "a") true (1 / 3) = .ok (scenario_one, (⟨some 1⟩, true)) ∧
      scenario_one.count id 1 = .ok 1 ∧ (5 : Nat) ≠ 1 ∧
      id 5 % scenario_one.max_size = id 1 % scenario_one.max_size ∧
      scenario_one.size = 1 ∧
      ∃ b' c, scenario_one.insert id (5, "b") false 0 = .ok (b', (c, true)) ∧
        b'.count id 1 = .ok 0 ∧
        b'.at_ id 1 = .error .out_of_range ∧
        b'.at_ id 5 = .ok "b" ∧
        (∃ e', b'.m_data[id 5 % b'.max_size]? = some e' ∧ e'.priority = 1) ∧
        b'.size = scenario_one.size :=
  ⟨rfl, rfl, by decide, rfl, rfl,
    deterministic_displacement id scenario_one 1 5 "b" 0 rfl (by decide) rfl⟩

/-- Claim C3, counterexample. Key 1 resident with value `"a"` at priority
`INT_MAX = 2^31 - 1` is reachable (by 2^31 - 1 insertions of the key). One more
`insert` of key 1 executes `data.priority++` on it: the priority becomes `INT_MIN`,
not `INT_MAX + 1`, it has not increased, and `at(1)` no longer returns the value. So
after the first insertion of key 1 into the fresh container and `n = 2^31 - 1` further
inserts of the key the priority is `INT_MIN`, not `n + 1`. -/
theorem repeated_insert_overflow :
    Reachable id (scenario_hit INT_MAX) ∧
      (scenario_hit INT_MAX).m_data[id 1 % (scenario_hit INT_MAX).max_size]? =
        some ⟨INT_MAX, ⟨some 1⟩, (1, "a")⟩ ∧
      (scenario_hit INT_MAX).at_ id 1 = .ok "a" ∧
      (scenario_hit INT_MAX).insert id (1, "z") true (1 / 2) =
        .ok (scenario_hit INT_MIN, (⟨some 1⟩, false)) ∧
      (scenario_hit INT_MIN).m_data[id 1 % (scenario_hit INT_MIN).max_size]? =
        some ⟨INT_MIN, ⟨some 1⟩, (1, "a")⟩ ∧
      INT_MIN ≠ INT_MAX + 1 ∧ INT_MIN < INT_MAX ∧
      (scenario_hit INT_MIN).at_ id 1 = .error .out_of_range ∧
      scenario_fresh.insert id (1, "a") true (1 / 2) =
        .ok (scenario_hit 1, (⟨some 1⟩, true)) ∧
      (scenario_hit 1).insert_seq id (List.replicate 2147483647 ((1, "z"), true, 1 / 2)) =
        .ok (scenario_hit INT_MIN) ∧
      INT_MIN ≠ ((2147483647 : Nat) : Int) + 1 :=
  ⟨scenario_saturated_reachable, rfl, rfl, scenario_saturated_insert "z" true (1 / 2), rfl,
    by decide, by decide, rfl, rfl, insert_seq_overflow, by decide⟩

/-- Claim C3, amended. Inserting an already resident key whose priority `p` is below
`INT_MAX` reports `inserted == false`, keeps the stored value (the supplied one is
discarded), keeps `size()` and raises the priority to exactly `p + 1`. Hence after a
first insertion into an empty bucket and a run of further inserts, each of the same key
or of a key of another bucket, with `n` repetitions of the key and `n + 1 <= INT_MAX`,
the priority is `n + 1`; it is not capped at `MAX_PRIORITY` and exceeds it once the key
was repeated `MAX_PRIORITY` times. -/
theorem repeated_insert_bumps_priority {Key T : Type} [DecidableEq Key] (hash : Key → Nat)
    (K : Key) :
    (∀ (b : unordered_buffer Key T) (e : Element Key T) (V : T) (prob : Bool) (r : ℚ),
      b.m_data[hash K % b.max_size]? = some e → 1 ≤ e.priority → e.priority < INT_MAX →
      e.value.1 = K →
      ∃ b', b.insert hash (K, V) prob r = .ok (b', (e.pos, false)) ∧
        b'.at_ hash K = .ok e.value.2 ∧
        b'.size = b.size ∧
        b'.m_data[hash K % b'.max_size]? = some ⟨e.priority + 1, e.pos, e.value⟩) ∧
    (∀ (b : unordered_buffer Key T) (e : Element Key T) (V0 : T) (prob : Bool) (r : ℚ)
        (ops : List ((Key × T) × Bool × ℚ)),
      b.m_data[hash K % b.max_size]? = some e → e.priority = 0 →
      (∀ op ∈ ops, op.1.1 = K ∨ hash op.1.1 % b.max_size ≠ hash K % b.max_size) →
      ((ops.countP (fun op => decide (op.1.1 = K)) : Nat) : Int) + 1 ≤ INT_MAX →
      ∃ b1 c b2 e2, b.insert hash (K, V0) prob r = .ok (b1, (c, true)) ∧
        b1.insert_seq hash ops = .ok b2 ∧
        b2.m_data[hash K % b2.max_size]? = some e2 ∧
        e2.value = (K, V0) ∧
        e2.priority = (ops.countP (fun op => decide (op.1.1 = K)) : Nat) + 1 ∧
        ((∀ op ∈ ops, op.1.1 = K) → e2.priority = (ops.length : Nat) + 1) ∧
        ((∀ op ∈ ops, op.1.1 = K) → MAX_PRIORITY ≤ (ops.length : Nat) →
          MAX_PRIORITY < e2.priority)) := by
  constructor
  · intro b e V prob r hslot hocc hmax hkey
    have hlt := slot_lt b _ e hslot
    simp only [max_size] at hslot hlt
    have hwrap : wrap_int (e.priority + 1) = e.priority + 1 :=
      wrap_int_succ _ (by unfold INT_MIN; omega) hmax
    refine ⟨⟨b.m_data.set (hash K % b.m_data.length) ⟨e.priority + 1, e.pos, e.value⟩,
      b.m_used⟩, ?_, ?_, ?_, ?_⟩
    · rw [insert_of_slot hash b (K, V) prob r e hslot]
      have h1 : ¬ e.priority ≤ 0 := by omega
      simp [h1, hkey, hwrap]
    · rw [at_of_slot hash _ K ⟨e.priority + 1, e.pos, e.value⟩]
      · have h1 : (1 : Int) ≤ e.priority + 1 := by omega
        simp [h1, hkey]
      · simp [hlt]
    · simp [size]
    · simp [max_size, hlt]
  · intro b e V0 prob r ops hslot hempty hops hmax
    have hlt := slot_lt b _ e hslot
    simp only [max_size] at hslot hlt hops
    have hins : b.insert hash (K, V0) prob r =
        .ok (⟨b.m_data.set (hash K % b.m_data.length)
              ⟨1, ⟨some (b.m_used.length + 1)⟩, (K, V0)⟩,
            (hash K % b.m_data.length) :: b.m_used⟩, (⟨some (b.m_used.length + 1)⟩, true)) := by
      rw [insert_of_slot hash b (K, V0) prob r e hslot]
      simp [hempty]
    obtain ⟨b2, hrun, hlen2, hslot2⟩ := insert_seq_resident hash K V0
      ⟨some (b.m_used.length + 1)⟩ b.m_data.length ops
      ⟨b.m_data.set (hash K % b.m_data.length) ⟨1, ⟨some (b.m_used.length + 1)⟩, (K, V0)⟩,
        (hash K % b.m_data.length) :: b.m_used⟩ 1 (by simp) (le_refl 1) (by omega)
      (by simp [hlt]) hops
    have hall : (∀ op ∈ ops, op.1.1 = K) →
        ops.countP (fun op => decide (op.1.1 = K)) = ops.length := by
      intro h
      rw [List.countP_eq_length]
      intro op hop
      simp [h op hop]
    refine ⟨_, _, b2, ⟨1 + (ops.countP (fun op => decide (op.1.1 = K)) : Nat),
      ⟨some (b.m_used.length + 1)⟩, (K, V0)⟩, hins, hrun, ?_, rfl, ?_, ?_, ?_⟩
    · rw [max_size, hlen2]; exact hslot2
    · simp only []
      omega
    · intro h
      simp only [hall h]
      omega
    · intro h hmaxp
      simp only [hall h]
      omega

/-- Claim C3, amended, on the scenario: a repeated `insert` of key 1, and a first
insertion followed by 1000 repetitions, which ends at priority 1001, above
`MAX_PRIORITY`. -/
theorem repeated_insert_bumps_priority_witness :
    (∃ b', scenario_one.insert id (1, "z") true (1 / 3) = .ok (b', (⟨some 1⟩, false)) ∧
        b'.at_ id 1 = .ok "a" ∧
        b'.size = scenario_one.size ∧
        b'.m_data[id 1 % b'.max_size]? = some ⟨1 + 1, ⟨some 1⟩, (1, "a")⟩) ∧
      ∃ b1 c b2 e2, scenario_fresh.insert id (1, "a") true (1 / 3) = .ok (b1, (c, true)) ∧
        b1.insert_seq id (List.replicate 1000 ((1, "z"), true, 1 / 2)) = .ok b2 ∧
        b2.m_data[id 1 % b2.max_size]? = some e2 ∧
        e2.value = (1, "a") ∧ e2.priority = 1001 ∧ MAX_PRIORITY < e2.priority := by
  have hkeys : ∀ op ∈ List.replicate 1000 (((1 : Nat), "z"), true, (1 / 2 : ℚ)), op.1.1 = 1 := by
    intro op hop
    rw [List.eq_of_mem_replicate hop]
  have hcount : (List.replicate 1000 (((1 : Nat), "z"), true, (1 / 2 : ℚ))).countP
      (fun op => decide (op.1.1 = 1)) = 1000 := by
    rw [List.countP_eq_length.mpr (fun op hop => by simp [hkeys op hop]), List.length_replicate]
  refine ⟨(repeated_insert_bumps_priority id 1).1 scenario_one ⟨1, ⟨some 1⟩, (1, "a")⟩ "z" true
    (1 / 3) rfl (by decide) (by decide) rfl, ?_⟩
  obtain ⟨b1, c, b2, e2, h1, h2, h3, h4, _, h6, h7⟩ :=
    (repeated_insert_bumps_priority id 1).2 scenario_fresh ⟨0, ⟨none⟩, (0, "")⟩ "a" true (1 / 3)
      (List.replicate 1000 ((1, "z"), true, 1 / 2)) rfl rfl
      (fun op hop => Or.inl (hkeys op hop))
      (by rw [hcount]; unfold INT_MAX; norm_num)
  refine ⟨b1, c, b2, e2, h1, h2, h3, h4, ?_, ?_⟩
  · have h := h6 hkeys
    rw [List.length_replicate] at h
    rw [h]
    norm_num
  · refine h7 hkeys ?_
    rw [List.length_replicate]
    unfold MAX_PRIORITY
    norm_num

/-- Claim C4, counterexample. Key 1 resident at priority 1075 is reachable (by 1075
insertions of the key). A probabilistic insert of the colliding key 5 with the draw
`0`, which lies in `[0, 1)` and below `2^(-1075)`, does not displace the resident:
`pow(2, -1075)` is `0.0` in double precision and `0 < 0` fails. -/
theorem probabilistic_collision_underflow :
    Reachable id (scenario_hit 1075) ∧
      (scenario_hit 1075).m_data[id 1 % (scenario_hit 1075).max_size]? =
        some ⟨1075, ⟨some 1⟩, (1, "a")⟩ ∧
      (5 : Nat) ≠ 1 ∧ id 5 % (scenario_hit 1075).max_size = id 1 % (scenario_hit 1075).max_size ∧
      (0 : ℚ) ≤ 0 ∧ (0 : ℚ) < 1 ∧ (0 : ℚ) < (2 : ℚ) ^ (-(1075 : Int)) ∧
      (scenario_hit 1075).insert id (5, "b") true 0 =
        .ok (scenario_hit 1075, (⟨some 1⟩, false)) := by
  refine ⟨?_, rfl, by decide, rfl, le_refl 0, by norm_num, by positivity, ?_⟩
  · have h := scenario_hit_reachable 1074 (by unfold INT_MAX; norm_num)
    have hc : ((1074 : Nat) : Int) + 1 = 1075 := by norm_num
    rw [hc] at h
    exact h
  · have hs : (scenario_hit 1075).m_data[id (5, "b").1 % (scenario_hit 1075).m_data.length]? =
        some ⟨1075, ⟨some 1⟩, (1, "a")⟩ := rfl
    rw [insert_of_slot id (scenario_hit 1075) (5, "b") true 0 _ hs]
    have h1 : ¬ ((1075 : Int) ≤ 0) := by norm_num
    have h2 : ¬ ((1 : Nat) = 5) := by decide
    have h3 : pow_two_neg 1075 = 0 := pow_two_neg_zero 1075 (le_refl _)
    simp only [h1, h2, h3, if_false, lt_irrefl, not_false_eq_true, and_self, if_true]

/-- Claim C4, amended. A probabilistic insert of a key that collides with a different
resident key of priority `p >= 1`, with a draw `r >= 0`, displaces the resident exactly
when `r` is below `pow(2, -p)` as the code computes it in double precision: that is
`2^(-p)` for `p <= 1074`, and `0` for `p >= 1075`, where no draw displaces the
resident. On displacement the slot holds the new pair with priority 1 and
`inserted == true`; otherwise the container is unchanged and `inserted == false`.
`size()` is unchanged either way, and at `p == 1` the threshold is `1/2`. -/
theorem probabilistic_collision {Key T : Type} [DecidableEq Key] (hash : Key → Nat)
    (b : unordered_buffer Key T) (K1 K2 : Key) (V : T) (r : ℚ) (p : Int)
    (e : Element Key T)
    (hslot : b.m_data[hash K1 % b.max_size]? = some e) (hkey : e.value.1 = K1)
    (hprio : e.priority = p) (hocc : 1 ≤ p) (hne : K2 ≠ K1)
    (hcol : hash K2 % b.max_size = hash K1 % b.max_size) (hr0 : 0 ≤ r) :
    ∃ b' inserted, b.insert hash (K2, V) true r = .ok (b', (e.pos, inserted)) ∧
      (inserted = true ↔ r < pow_two_neg p) ∧
      (p ≤ 1074 → (inserted = true ↔ r < (2 : ℚ) ^ (-p))) ∧
      (1075 ≤ p → inserted = false) ∧
      (inserted = true →
        b'.m_data[hash K1 % b'.max_size]? = some ⟨1, e.pos, (K2, V)⟩) ∧
      (inserted = false → b'.m_data[hash K1 % b'.max_size]? = some e ∧ b' = b) ∧
      b'.size = b.size ∧
      (p = 1 → (inserted = true ↔ r < 1 / 2)) := by
  have hlt := slot_lt b _ e hslot
  simp only [max_size] at hslot hlt hcol
  have hslot2 : b.m_data[hash (K2, V).1 % b.m_data.length]? = some e := by
    simpa [hcol] using hslot
  have hnk : ¬ e.value.1 = K2 := by
    rw [hkey]; exact fun h => hne h.symm
  have h1 : ¬ e.priority ≤ 0 := by omega
  have hhalf : p = 1 → pow_two_neg p = 1 / 2 := by
    intro hp
    subst hp
    rw [pow_two_neg_exact 1 (by norm_num)]
    norm_num
  by_cases hr : r < pow_two_neg p
  · have hsmall : p ≤ 1074 := by
      by_contra hbig
      rw [pow_two_neg_zero p (by omega)] at hr
      exact absurd hr (not_lt.mpr hr0)
    refine ⟨⟨b.m_data.set (hash K2 % b.m_data.length) ⟨1, e.pos, (K2, V)⟩, b.m_used⟩, true,
      ?_, ?_, ?_, ?_, ?_, ?_, ?_, ?_⟩
    · rw [insert_of_slot hash b (K2, V) true r e hslot2]
      rw [if_neg h1, if_neg hnk, hprio, if_neg (fun h => h.2 hr)]
    · exact ⟨fun _ => hr, fun _ => rfl⟩
    · intro hp
      rw [← pow_two_neg_exact p hp]
      exact ⟨fun _ => hr, fun _ => rfl⟩
    · intro hp
      omega
    · intro _
      simp [max_size, hcol, hlt]
    · intro h
      cases h
    · simp [size]
    · intro hp
      rw [← hhalf hp]
      exact ⟨fun _ => hr, fun _ => rfl⟩
  · refine ⟨b, false, ?_, ?_, ?_, ?_, ?_, ?_, rfl, ?_⟩
    · rw [insert_of_slot hash b (K2, V) true r e hslot2]
      rw [if_neg h1, if_neg hnk, hprio, if_pos ⟨rfl, hr⟩]
    · exact ⟨fun h => Bool.noConfusion h, fun h => absurd h hr⟩
    · intro hp
      rw [← pow_two_neg_exact p hp]
      exact ⟨fun h => Bool.noConfusion h, fun h => absurd h hr⟩
    · intro _
      rfl
    · intro h
      cases h
    · intro _
      exact ⟨hslot, rfl⟩
    · intro hp
      rw [← hhalf hp]
      exact ⟨fun h => Bool.noConfusion h, fun h => absurd h hr⟩

/-- Claim C4, amended, on the scenario: key 5 challenges resident key 1 of priority 1
with the draw `1/4`. -/
theorem probabilistic_collision_witness :
    scenario_one.m_data[id 1 % scenario_one.max_size]? = some ⟨1, ⟨some 1⟩, (1, "a")⟩ ∧
      (5 : Nat) ≠ 1 ∧ id 5 % scenario_one.max_size = id 1 % scenario_one.max_size ∧
      (0 : ℚ) ≤ 1 / 4 ∧
      ∃ b' inserted,
        scenario_one.insert id (5, "b") true (1 / 4) = .ok (b', (⟨some 1⟩, inserted)) ∧
        (inserted = true ↔ (1 / 4 : ℚ) < pow_two_neg 1) ∧
        ((1 : Int) ≤ 1074 → (inserted = true ↔ (1 / 4 : ℚ) < (2 : ℚ) ^ (-(1 : Int)))) ∧
        ((1075 : Int) ≤ 1 → inserted = false) ∧
        (inserted = true →
          b'.m_data[id 1 % b'.max_size]? = some ⟨1, ⟨some 1⟩, (5, "b")⟩) ∧
        (inserted = false →
          b'.m_data[id 1 % b'.max_size]? = some ⟨1, ⟨some 1⟩, (1, "a")⟩ ∧ b' = scenario_one) ∧
        b'.size = scenario_one.size ∧
        ((1 : Int) = 1 → (inserted = true ↔ (1 / 4 : ℚ) < 1 / 2)) :=
  ⟨rfl, by decide, rfl, by norm_num,
    probabilistic_collision id scenario_one 1 5 "b" (1 / 4) 1 ⟨1, ⟨some 1⟩, (1, "a")⟩ rfl rfl rfl
      (le_refl 1) (by decide) rfl (by norm_num)⟩

/-- Claim C5. With capacity at least 1, `at` returns the value of the slot at the bucket
index exactly when that slot is occupied by the key; when the slot is empty or holds
another key it fails with the same `out_of_range`, and it fails in no other way. Both
overloads of `at` behave alike. -/
theorem at_found_iff {Key T : Type} [DecidableEq Key] (hash : Key → Nat)
    (b : unordered_buffer Key T) (K : Key) (hN : 1 ≤ b.max_size) :
    (∀ v, b.at_ hash K = .ok v ↔
      ∃ e, b.m_data[hash K % b.max_size]? = some e ∧ 1 ≤ e.priority ∧ e.value.1 = K ∧
        e.value.2 = v) ∧
    ((¬ ∃ e, b.m_data[hash K % b.max_size]? = some e ∧ 1 ≤ e.priority ∧ e.value.1 = K) →
      b.at_ hash K = .error .out_of_range) ∧
    (∀ e, b.m_data[hash K % b.max_size]? = some e → e.priority ≤ 0 →
      b.at_ hash K = .error .out_of_range) ∧
    (∀ e, b.m_data[hash K % b.max_size]? = some e → 1 ≤ e.priority → e.value.1 ≠ K →
      b.at_ hash K = .error .out_of_range) ∧
    b.at_ hash K ≠ .error .undefined_behavior ∧
    b.at_const hash K = b.at_ hash K := by
  simp only [max_size] at hN ⊢
  obtain ⟨d, hd⟩ := slot_exists hash b K hN
  have hat := at_of_slot hash b K d hd
  refine ⟨?_, ?_, ?_, ?_, ?_, rfl⟩
  · intro v
    rw [hat]
    constructor
    · intro h
      by_cases hc : 1 ≤ d.priority ∧ d.value.1 = K
      · rw [if_pos hc] at h
        cases h
        exact ⟨d, hd, hc.1, hc.2, rfl⟩
      · rw [if_neg hc] at h
        cases h
    · rintro ⟨e, he, h1, h2, h3⟩
      rw [hd] at he
      cases he
      rw [if_pos ⟨h1, h2⟩, h3]
  · intro hno
    rw [hat, if_neg]
    exact fun hc => hno ⟨d, hd, hc.1, hc.2⟩
  · intro e he hp
    rw [hd] at he
    cases he
    rw [hat, if_neg]
    intro hc
    omega
  · intro e he _ hk
    rw [hd] at he
    cases he
    rw [hat, if_neg]
    exact fun hc => hk hc.2
  · rw [hat]
    split_ifs <;> simp

/-- Claim C5 on the scenario: key 1 is found, key 5 meets another key, key 2 an empty
slot. -/
theorem at_found_iff_witness :
    1 ≤ scenario_one.max_size ∧ scenario_one.at_ id 1 = .ok "a" ∧
      scenario_one.at_ id 5 = .error .out_of_range ∧
      scenario_one.at_ id 2 = .error .out_of_range :=
  ⟨by decide,
    ((at_found_iff id scenario_one 1 (by decide)).1 "a").mpr
      ⟨⟨1, ⟨some 1⟩, (1, "a")⟩, rfl, by decide, rfl, rfl⟩,
    (at_found_iff id scenario_one 5 (by decide)).2.2.2.1 ⟨1, ⟨some 1⟩, (1, "a")⟩ rfl
      (by decide) (by decide),
    (at_found_iff id scenario_one 2 (by decide)).2.2.1 ⟨0, ⟨none⟩, (0, "")⟩ rfl (by decide)⟩

/-- Claim C6. With capacity at least 1, `count` is 1 when the slot at the bucket index
is occupied by the key and 0 otherwise; it never exceeds 1, and it is 1 exactly when
`at` succeeds. -/
theorem count_zero_or_one {Key T : Type} [DecidableEq Key] (hash : Key → Nat)
    (b : unordered_buffer Key T) (K : Key) (hN : 1 ≤ b.max_size) :
    ((∃ e, b.m_data[hash K % b.max_size]? = some e ∧ 1 ≤ e.priority ∧ e.value.1 = K) →
      b.count hash K = .ok 1) ∧
    ((¬ ∃ e, b.m_data[hash K % b.max_size]? = some e ∧ 1 ≤ e.priority ∧ e.value.1 = K) →
      b.count hash K = .ok 0) ∧
    (∃ n, b.count hash K = .ok n ∧ n ≤ 1) ∧
    (b.count hash K = .ok 1 ↔ ∃ v, b.at_ hash K = .ok v) := by
  simp only [max_size] at hN ⊢
  obtain ⟨d, hd⟩ := slot_exists hash b K hN
  have hat := at_of_slot hash b K d hd
  have hct := count_of_slot hash b K d hd
  refine ⟨?_, ?_, ?_, ?_⟩
  · rintro ⟨e, he, h1, h2⟩
    rw [hd] at he
    cases he
    rw [hct, if_pos ⟨h1, h2⟩]
  · intro hno
    rw [hct, if_neg]
    exact fun hc => hno ⟨d, hd, hc.1, hc.2⟩
  · rw [hct]
    refine ⟨_, rfl, ?_⟩
    split_ifs <;> omega
  · rw [hct, hat]
    by_cases hc : 1 ≤ d.priority ∧ d.value.1 = K
    · rw [if_pos hc, if_pos hc]
      simp
    · rw [if_neg hc, if_neg hc]
      simp

/-- Claim C6 on the scenario after `insert(1, "a")`. -/
theorem count_zero_or_one_witness :
    1 ≤ scenario_one.max_size ∧ scenario_one.count id 1 = .ok 1 ∧
      (scenario_one.count id 1 = .ok 1 ↔ ∃ v, scenario_one.at_ id 1 = .ok v) ∧
      ∃ n, scenario_one.count id 5 = .ok n ∧ n ≤ 1 :=
  ⟨by decide,
    (count_zero_or_one id scenario_one 1 (by decide)).1
      ⟨⟨1, ⟨some 1⟩, (1, "a")⟩, rfl, by decide, rfl⟩,
    (count_zero_or_one id scenario_one 1 (by decide)).2.2.2,
    (count_zero_or_one id scenario_one 5 (by decide)).2.2.1⟩

/-- Claim C7, counterexample. A container constructed with capacity 0 is reachable, and
after `clear()` a lookup still divides by zero in `hash % m_data.size()`: `count` does
not return 0 and `at` does not fail with `out_of_range`. -/
theorem clear_lookup_zero_capacity :
    Reachable id (mk_sized 0 : unordered_buffer Nat String) ∧
      (mk_sized 0 : unordered_buffer Nat String).clear.count id 1 ≠ .ok 0 ∧
      (mk_sized 0 : unordered_buffer Nat String).clear.at_ id 1 ≠ .error .out_of_range ∧
      (mk_sized 0 : unordered_buffer Nat String).clear.count id 1 =
        .error .undefined_behavior ∧
      (mk_sized 0 : unordered_buffer Nat String).clear.at_ id 1 =
        .error .undefined_behavior :=
  ⟨Reachable.ctor 0,
    fun h => Except.noConfusion
      (show (Except.error Error.undefined_behavior : Except Error Nat) = .ok 0 from h),
    fun h => Error.noConfusion (Except.error.inj
      (show (Except.error Error.undefined_behavior : Except Error String) =
        .error Error.out_of_range from h)),
    rfl, rfl⟩

/-- Claim C7, amended. After `clear()`, in every state: `size()` is 0, `begin()` equals
`end()` and iteration visits no entry, every slot has priority 0, and the capacity
(`max_size()`, `bucket_count()`) is unchanged; and when the capacity is at least 1, for
every key `count` is 0 and `at` fails with `out_of_range`. -/
theorem clear_resets {Key T : Type} [DecidableEq Key] (hash : Key → Nat)
    (b : unordered_buffer Key T) :
    b.clear.size = 0 ∧
      b.clear.begin = b.clear.end_ ∧
      b.clear.entries = [] ∧
      (∀ (i : Nat) (e : Element Key T), b.clear.m_data[i]? = some e → e.priority = 0) ∧
      b.clear.max_size = b.max_size ∧
      b.clear.bucket_count = b.bucket_count ∧
      (1 ≤ b.max_size →
        ∀ K, b.clear.count hash K = .ok 0 ∧ b.clear.at_ hash K = .error .out_of_range) := by
  refine ⟨rfl, rfl, rfl, ?_, ?_, ?_, ?_⟩
  · intro i e he
    exact reset_priorities_slot b.m_data i e he
  · exact reset_priorities_length b.m_data
  · exact reset_priorities_length b.m_data
  · intro hN K
    have hlen : 1 ≤ b.clear.m_data.length := by
      rw [clear, reset_priorities_length]
      exact hN
    obtain ⟨d, hd⟩ := slot_exists hash b.clear K hlen
    have hp : d.priority = 0 := reset_priorities_slot b.m_data _ d hd
    have hno : ¬ (1 ≤ d.priority ∧ d.value.1 = K) := by
      intro hc
      omega
    rw [count_of_slot hash b.clear K d hd, at_of_slot hash b.clear K d hd, if_neg hno,
      if_neg hno]
    exact ⟨rfl, rfl⟩

/-- Claim C7, amended, on the scenario: key 1 is present before `clear()` and absent
after it. -/
theorem clear_resets_witness :
    1 ≤ scenario_one.max_size ∧ scenario_one.count id 1 = .ok 1 ∧
      scenario_one.clear.count id 1 = .ok 0 ∧
      scenario_one.clear.at_ id 1 = .error .out_of_range ∧
      scenario_one.clear.size = 0 ∧ scenario_one.clear.max_size = 4 :=
  ⟨by decide, rfl,
    ((clear_resets id scenario_one).2.2.2.2.2.2 (by decide) 1).1,
    ((clear_resets id scenario_one).2.2.2.2.2.2 (by decide) 1).2,
    (clear_resets id scenario_one).1, rfl⟩

/-- Claim C8, counterexample. After 2^31 insertions of key 1 the priority of slot 1 has
wrapped to `INT_MIN`: the slot counts as empty, yet the traversal list still holds it,
and `size()` is 1 with no occupied slot. One insertion more takes the slot for empty
and pushes it again: the list holds slot 1 twice and `size()` is 2 with one occupied
slot. Both states are reachable. -/
theorem representation_overflow :
    Reachable id (scenario_hit INT_MIN) ∧
      (scenario_hit INT_MIN).m_data[1]? = some ⟨INT_MIN, ⟨some 1⟩, (1, "a")⟩ ∧
      INT_MIN ≤ 0 ∧ 1 ∈ (scenario_hit INT_MIN).m_used ∧
      (scenario_hit INT_MIN).size = 1 ∧
      (scenario_hit INT_MIN).m_data.countP (fun e => decide (1 ≤ e.priority)) = 0 ∧
      Reachable id scenario_twice ∧
      scenario_twice.m_data[1]? = some ⟨1, ⟨some 2⟩, (1, "a")⟩ ∧
      scenario_twice.m_used.count 1 = 2 ∧
      scenario_twice.size = 2 ∧
      scenario_twice.entries.length = 2 ∧
      scenario_twice.m_data.countP (fun e => decide (1 ≤ e.priority)) = 1 :=
  ⟨scenario_wrapped_reachable, rfl, by decide, by decide, rfl, by decide,
    scenario_twice_reachable, rfl, by decide, rfl, rfl, by decide⟩

/-- Claim C8, amended. In every state reachable from construction by `insert`,
`emplace` and `clear` without an overflowing `priority++` (no call found its own key
resident with priority `INT_MAX`), the traversal list holds each occupied slot exactly
once and no empty slot, the `pos` of an occupied slot is attached to the node whose
payload is that slot (so dereferencing it yields the slot's pair), and `size()`, the
length of the traversal list, the number of entries visited from `begin()` to `end()`
and the number of slots with priority at least 1 all agree. -/
theorem representation_invariant {Key T : Type} [DecidableEq Key] [Inhabited Key]
    [Inhabited T] (hash : Key → Nat) (b : unordered_buffer Key T)
    (hreach : ReachableInRange hash b) :
    (∀ (i : Nat) (e : Element Key T), b.m_data[i]? = some e → 1 ≤ e.priority →
      b.m_used.count i = 1) ∧
    (∀ (i : Nat) (e : Element Key T), b.m_data[i]? = some e → e.priority ≤ 0 →
      b.m_used.count i = 0) ∧
    (∀ i ∈ b.m_used, ∃ e, b.m_data[i]? = some e ∧ 1 ≤ e.priority) ∧
    (∀ (i : Nat) (e : Element Key T), b.m_data[i]? = some e → 1 ≤ e.priority →
      b.node_slot e.pos = some i ∧ b.deref e.pos = some e.value) ∧
    b.size = b.m_used.length ∧
    b.size = b.entries.length ∧
    b.size = b.m_data.countP (fun e => decide (1 ≤ e.priority)) := by
  have hinv := reachable_inv hash b hreach
  refine ⟨?_, ?_, ?_, ?_, rfl, ?_, ?_⟩
  · intro i e he hocc
    rw [used_count hash b hinv i e he, if_pos hocc]
  · intro i e he hemp
    rw [used_count hash b hinv i e he, if_neg (by omega)]
  · intro i hi
    exact (hinv.used_iff i).mp hi
  · intro i e he hocc
    obtain ⟨d, hd, hnode⟩ := hinv.pos_ok i e he hocc
    rw [hd]
    refine ⟨hnode, ?_⟩
    simp only [deref, hnode, he, Option.map_some']
  · exact (entries_length hash b hinv).symm
  · exact hinv.size_eq

/-- Claim C8, amended, on the scenario after `insert(1, "a")`. -/
theorem representation_invariant_witness :
    ReachableInRange id scenario_one ∧
      scenario_one.m_used.count 1 = 1 ∧
      scenario_one.m_used.count 2 = 0 ∧
      scenario_one.deref ⟨some 1⟩ = some (1, "a") ∧
      scenario_one.size = scenario_one.entries.length ∧
      scenario_one.size =
        scenario_one.m_data.countP (fun e => decide (1 ≤ e.priority)) :=
  ⟨scenario_one_in_range,
    (representation_invariant id scenario_one scenario_one_in_range).1 1
      ⟨1, ⟨some 1⟩, (1, "a")⟩ rfl (by decide),
    (representation_invariant id scenario_one scenario_one_in_range).2.1 2
      ⟨0, ⟨none⟩, (0, "")⟩ rfl (by decide),
    ((representation_invariant id scenario_one scenario_one_in_range).2.2.2.1 1
      ⟨1, ⟨some 1⟩, (1, "a")⟩ rfl (by decide)).2,
    (representation_invariant id scenario_one scenario_one_in_range).2.2.2.2.2.1,
    (representation_invariant id scenario_one scenario_one_in_range).2.2.2.2.2.2⟩

/-- Claim C9, counterexample. After 2^31 + 1 insertions of key 1 (the priority wrapped
to `INT_MIN`, then the slot was taken for empty and pushed again) the reachable state
lists slot 1 twice, and iteration visits the key 1 twice. -/
theorem visited_keys_repeat :
    Reachable id scenario_twice ∧
      scenario_twice.entries = [(1, "a"), (1, "a")] ∧
      ¬ (scenario_twice.entries.map Prod.fst).Nodup :=
  ⟨scenario_twice_reachable, rfl, by decide⟩

/-- Claim C9, amended. In every state reachable from construction by `insert`,
`emplace` and `clear`, an occupied slot at index `i` stores a key whose bucket index is
`i`, hence two distinct keys that are both present lie in different buckets; and in the
states reached without an overflowing `priority++` (no call found its own key resident
with priority `INT_MAX`) the keys of the entries visited by iteration are pairwise
distinct. -/
theorem one_key_per_bucket {Key T : Type} [DecidableEq Key] [Inhabited Key] [Inhabited T]
    (hash : Key → Nat) (b : unordered_buffer Key T) :
    (Reachable hash b →
      (∀ (i : Nat) (e : Element Key T), b.m_data[i]? = some e → 1 ≤ e.priority →
        hash e.value.1 % b.max_size = i) ∧
      (∀ K1 K2, b.count hash K1 = .ok 1 → b.count hash K2 = .ok 1 → K1 ≠ K2 →
        hash K1 % b.max_size ≠ hash K2 % b.max_size)) ∧
    (ReachableInRange hash b → (b.entries.map Prod.fst).Nodup) := by
  constructor
  · intro hreach
    refine ⟨(reachable_wf hash b hreach).home, ?_⟩
    intro K1 K2 h1 h2 hne hsame
    obtain ⟨e1, hs1, _, hk1⟩ := (count_eq_one_iff hash b K1).mp h1
    obtain ⟨e2, hs2, _, hk2⟩ := (count_eq_one_iff hash b K2).mp h2
    simp only [max_size] at hsame
    rw [hsame, hs2] at hs1
    cases hs1
    exact hne (hk1.symm.trans hk2)
  · intro hreach
    exact entries_keys_nodup hash b (reachable_inv hash b hreach)

/-- Claim C9, amended, on the scenario after `insert(1, "a")`. -/
theorem one_key_per_bucket_witness :
    Reachable id scenario_one ∧ ReachableInRange id scenario_one ∧
      id (1, "a").1 % scenario_one.max_size = 1 ∧
      (scenario_one.entries.map Prod.fst).Nodup :=
  ⟨scenario_one_reachable, scenario_one_in_range,
    ((one_key_per_bucket id scenario_one).1 scenario_one_reachable).1 1
      ⟨1, ⟨some 1⟩, (1, "a")⟩ rfl (by decide),
    (one_key_per_bucket id scenario_one).2 scenario_one_in_range⟩

/-- Claim C10, counterexample. The constructor accepts capacity 0; in that reachable
state `hash % m_data.size()` divides by zero, so `insert`, `count` and `equal_range` do
not return and there is no valid slot index. -/
theorem insert_zero_capacity :
    Reachable id (mk_sized 0 : unordered_buffer Nat String) ∧
      (mk_sized 0 : unordered_buffer Nat String).max_size = 0 ∧
      (mk_sized 0 : unordered_buffer Nat String).insert id (1, "a") true 0 =
        .error .undefined_behavior ∧
      (mk_sized 0 : unordered_buffer Nat String).count id 1 = .error .undefined_behavior ∧
      (mk_sized 0 : unordered_buffer Nat String).equal_range id 1 =
        .error .undefined_behavior ∧
      ¬ (id 1 % (mk_sized 0 : unordered_buffer Nat String).max_size <
        (mk_sized 0 : unordered_buffer Nat String).max_size) :=
  ⟨Reachable.ctor 0, rfl, rfl, rfl, rfl, by decide⟩

/-- Claim C10, amended. With capacity at least 1, in every state and for every key,
value, flag and draw: the bucket index `hash(key) mod N` is below `N` and names a slot;
`insert` returns, in exactly one of its four outcomes, told apart by guards that exclude
one another: new occupancy (the slot was empty), priority bump (the slot held the key;
the priority is incremented as an `int`), probabilistic displacement (the slot held
another key and `prob` was set: the draw is compared with `pow(2, -priority)`) and
deterministic displacement (the slot held another key and `prob` was not set); the other
insertion entry points, `count` and `equal_range` return as well. -/
theorem operations_total {Key T : Type} [DecidableEq Key] (hash : Key → Nat)
    (b : unordered_buffer Key T) (K : Key) (V : T) (prob : Bool) (r : ℚ) (it : iterator)
    (hN : 1 ≤ b.max_size) :
    hash K % b.max_size < b.max_size ∧
    (∃ data, b.m_data[hash K % b.max_size]? = some data ∧
      ((data.priority ≤ 0 ∧
          b.insert hash (K, V) prob r =
            .ok (⟨b.m_data.set (hash K % b.max_size) ⟨1, ⟨some (b.size + 1)⟩, (K, V)⟩,
                  (hash K % b.max_size) :: b.m_used⟩, (⟨some (b.size + 1)⟩, true))) ∨
        (1 ≤ data.priority ∧ data.value.1 = K ∧
          b.insert hash (K, V) prob r =
            .ok (⟨b.m_data.set (hash K % b.max_size)
                    ⟨wrap_int (data.priority + 1), data.pos, data.value⟩, b.m_used⟩,
                 (data.pos, false))) ∨
        (1 ≤ data.priority ∧ data.value.1 ≠ K ∧ prob = true ∧
          ((r < pow_two_neg data.priority ∧
              b.insert hash (K, V) prob r =
                .ok (⟨b.m_data.set (hash K % b.max_size) ⟨1, data.pos, (K, V)⟩, b.m_used⟩,
                     (data.pos, true))) ∨
            (¬ r < pow_two_neg data.priority ∧
              b.insert hash (K, V) prob r = .ok (b, (data.pos, false))))) ∨
        (1 ≤ data.priority ∧ data.value.1 ≠ K ∧ prob = false ∧
          b.insert hash (K, V) prob r =
            .ok (⟨b.m_data.set (hash K % b.max_size) ⟨1, data.pos, (K, V)⟩, b.m_used⟩,
                 (data.pos, true))))) ∧
    (∃ res, b.insert_move hash (K, V) prob r = .ok res) ∧
    (∃ res, b.emplace hash K V prob r = .ok res) ∧
    (∃ res, b.emplace_hint hash it K V prob r = .ok res) ∧
    (∃ n, b.count hash K = .ok n) ∧
    (∃ range, b.equal_range hash K = .ok range) := by
  simp only [max_size, size] at hN ⊢
  obtain ⟨d, hd⟩ := slot_exists hash b K hN
  have hloc := locate_of_slot hash b K d hd
  have hins : ∃ res, b.insert hash (K, V) prob r = .ok res := by
    obtain ⟨b', res, h⟩ := insert_total hash b (K, V) prob r hN
    exact ⟨_, h⟩
  refine ⟨slot_lt b _ d hd, ⟨d, hd, ?_⟩, ?_, ?_, ?_, ?_, ?_⟩
  · rcases insert_cases hash b (K, V) prob r d hd with
      ⟨hp, he⟩ | ⟨hp, hk, he⟩ | ⟨hp, hk, hr, he⟩ | ⟨hp, hk, hpr, hr, he⟩
    · exact Or.inl ⟨hp, he⟩
    · exact Or.inr (Or.inl ⟨hp, hk, he⟩)
    · cases prob
      · exact Or.inr (Or.inr (Or.inr ⟨hp, hk, rfl, he⟩))
      · exact Or.inr (Or.inr (Or.inl ⟨hp, hk, rfl, Or.inl ⟨hr rfl, he⟩⟩))
    · exact Or.inr (Or.inr (Or.inl ⟨hp, hk, hpr, Or.inr ⟨hr, he⟩⟩))
  · rw [insert_move_eq_insert]
    exact hins
  · rw [emplace_eq_insert]
    exact hins
  · rw [emplace_hint_eq_insert]
    exact hins
  · exact ⟨_, count_of_slot hash b K d hd⟩
  · unfold equal_range
    rw [hloc]
    simp only []
    split_ifs <;> exact ⟨_, rfl⟩

/-- Claim C10, amended, on the scenario after `insert(1, "a")`. -/
theorem operations_total_witness :
    1 ≤ scenario_one.max_size ∧
      id 5 % scenario_one.max_size < scenario_one.max_size ∧
      (∃ res, scenario_one.insert_move id (5, "b") true (3 / 4) = .ok res) ∧
      (∃ n, scenario_one.count id 5 = .ok n) ∧
      ∃ range, scenario_one.equal_range id 5 = .ok range :=
  ⟨by decide,
    (operations_total id scenario_one 5 "b" true (3 / 4) ⟨none⟩ (by decide)).1,
    (operations_total id scenario_one 5 "b" true (3 / 4) ⟨none⟩ (by decide)).2.2.1,
    (operations_total id scenario_one 5 "b" true (3 / 4) ⟨none⟩ (by decide)).2.2.2.2.2.1,
    (operations_total id scenario_one 5 "b" true (3 / 4) ⟨none⟩ (by decide)).2.2.2.2.2.2⟩

/-! ## Ranges -/

theorem equal_range_of_slot [DecidableEq Key] (hash : Key → Nat) (b : unordered_buffer Key T)
    (key : Key) (data : Element Key T)
    (h : b.m_data[hash key % b.m_data.length]? = some data) :
    b.equal_range hash key =
      if 1 ≤ data.priority ∧ data.value.1 = key then .ok (data.pos, data.pos)
      else .ok (b.end_, b.end_) := by
  unfold equal_range
  rw [locate_of_slot hash b key data h]
  by_cases h1 : data.priority ≤ 0
  · have : ¬ (1 ≤ data.priority) := by omega
    simp [h1, this]
  · have : 1 ≤ data.priority := by omega
    by_cases h2 : data.value.1 = key <;> simp [h1, h2, this]

theorem range_entries_self (b : unordered_buffer Key T) (c : iterator) :
    b.range_entries c c = [] := by
  unfold range_entries
  cases hc : c.it with
  | none => rfl
  | some d =>
    cases d with
    | zero => rfl
    | succ d =>
      have : (⟨some (d + 1)⟩ : iterator) = c := by
        cases c
        simp only at hc
        rw [hc]
      simp only [visit_until, this, if_true]

theorem visit_until_end (b : unordered_buffer Key T) (d : Nat) :
    b.visit_until b.end_ d = b.visit d := by
  induction d with
  | zero => rfl
  | succ d ih =>
    have hne : ¬ ((⟨some (d + 1)⟩ : iterator) = b.end_) := by
      simp [end_]
    simp only [visit_until, visit, hne, if_false, ih]

/-- Claim C11, evaluated on the scenario after `insert(1, "a")`, a reachable state in
which key 1 is present: `equal_range(1)` returns the pair `(pos, pos)`. Its first
cursor denotes the entry `(1, "a")`, but both cursors are the same, so iterating from
the first up to the second visits no entry; the range that visits the entry would end
one step further, at `++pos`. -/
theorem equal_range_present_empty :
    Reachable id scenario_one ∧
      scenario_one.count id 1 = .ok 1 ∧
      scenario_one.at_ id 1 = .ok "a" ∧
      scenario_one.equal_range id 1 = .ok (⟨some 1⟩, ⟨some 1⟩) ∧
      scenario_one.deref ⟨some 1⟩ = some (1, "a") ∧
      scenario_one.range_entries ⟨some 1⟩ ⟨some 1⟩ = [] ∧
      scenario_one.range_entries ⟨some 1⟩ ⟨some 1⟩ ≠ [(1, "a")] ∧
      scenario_one.range_entries ⟨some 1⟩ (iterator.incr ⟨some 1⟩) = [(1, "a")] :=
  ⟨scenario_one_reachable, rfl, rfl, rfl, rfl, rfl, by decide, by decide⟩

/-- Claim C12. For a key that is absent (`count` returns 0, whether its bucket is empty
or held by another key), `equal_range` returns `(end(), end())`. -/
theorem equal_range_absent [DecidableEq Key] (hash : Key → Nat)
    (b : unordered_buffer Key T) (K : Key) (habsent : b.count hash K = .ok 0) :
    b.equal_range hash K = .ok (b.end_, b.end_) := by
  by_cases h0 : b.m_data.length = 0
  · simp [count, locate_zero hash b K h0] at habsent
  · obtain ⟨d, hd⟩ := slot_exists hash b K (by omega)
    rw [count_of_slot hash b K d hd] at habsent
    rw [equal_range_of_slot hash b K d hd]
    by_cases hc : 1 ≤ d.priority ∧ d.value.1 = K
    · rw [if_pos hc] at habsent
      cases habsent
    · rw [if_neg hc]

/-- Claim C12 on the scenario: key 5 meets another key in its bucket, key 2 an empty
bucket. -/
theorem equal_range_absent_witness :
    scenario_one.count id 5 = .ok 0 ∧ scenario_one.count id 2 = .ok 0 ∧
      scenario_one.equal_range id 5 = .ok (scenario_one.end_, scenario_one.end_) ∧
      scenario_one.equal_range id 2 = .ok (scenario_one.end_, scenario_one.end_) :=
  ⟨rfl, rfl, equal_range_absent id scenario_one 5 rfl, equal_range_absent id scenario_one 2 rfl⟩

/-! ## Insertion calls and cursors -/

theorem apply_insertion_eq [DecidableEq Key] (hash : Key → Nat) (b : unordered_buffer Key T)
    (c : Insertion Key T) :
    b.apply_insertion hash c = b.insert hash c.pair c.prob c.draw := by
  cases c with
  | insert value prob r => rfl
  | insert_move value prob r => exact insert_move_eq_insert hash b value prob r
  | emplace key value prob r => rfl
  | emplace_hint it key value prob r => rfl

/-- What a returning `insert` did: it rewrote the slot at the bucket index of its key
and nothing else, in one of four ways. -/
theorem insert_effect [DecidableEq Key] (hash : Key → Nat) (b b' : unordered_buffer Key T)
    (kv : Key × T) (prob : Bool) (r : ℚ) (res : iterator × Bool) (data : Element Key T)
    (hslot : b.m_data[hash kv.1 % b.m_data.length]? = some data)
    (hins : b.insert hash kv prob r = .ok (b', res)) :
    ∃ e', b'.m_data = b.m_data.set (hash kv.1 % b.m_data.length) e' ∧
      ((data.priority ≤ 0 ∧ e' = ⟨1, ⟨some (b.m_used.length + 1)⟩, kv⟩ ∧
          b'.m_used = (hash kv.1 % b.m_data.length) :: b.m_used ∧
          res = (⟨some (b.m_used.length + 1)⟩, true)) ∨
        (1 ≤ data.priority ∧ data.value.1 = kv.1 ∧
          e' = ⟨wrap_int (data.priority + 1), data.pos, data.value⟩ ∧ b'.m_used = b.m_used ∧
          res = (data.pos, false)) ∨
        (1 ≤ data.priority ∧ data.value.1 ≠ kv.1 ∧
          (prob = true → r < pow_two_neg data.priority) ∧
          e' = ⟨1, data.pos, kv⟩ ∧ b'.m_used = b.m_used ∧ res = (data.pos, true)) ∨
        (1 ≤ data.priority ∧ data.value.1 ≠ kv.1 ∧ prob = true ∧
          ¬ r < pow_two_neg data.priority ∧
          e' = data ∧ b'.m_used = b.m_used ∧ res = (data.pos, false))) := by
  rcases insert_cases hash b kv prob r data hslot with
    ⟨hp, he⟩ | ⟨hp, hk, he⟩ | ⟨hp, hk, hr, he⟩ | ⟨hp, hk, hpr, hr, he⟩
  · rw [he] at hins
    cases hins
    exact ⟨_, rfl, Or.inl ⟨hp, rfl, rfl, rfl⟩⟩
  · rw [he] at hins
    cases hins
    exact ⟨_, rfl, Or.inr (Or.inl ⟨hp, hk, rfl, rfl, rfl⟩)⟩
  · rw [he] at hins
    cases hins
    exact ⟨_, rfl, Or.inr (Or.inr (Or.inl ⟨hp, hk, hr, rfl, rfl, rfl⟩))⟩
  · rw [he] at hins
    cases hins
    exact ⟨data, (set_slot_self b _ data hslot).symm,
      Or.inr (Or.inr (Or.inr ⟨hp, hk, hpr, hr, rfl, rfl, rfl⟩))⟩

/-- An insertion call that returns was given at least one bucket. -/
theorem insert_ok_slot [DecidableEq Key] (hash : Key → Nat) (b b' : unordered_buffer Key T)
    (kv : Key × T) (prob : Bool) (r : ℚ) (res : iterator × Bool)
    (hins : b.insert hash kv prob r = .ok (b', res)) :
    ∃ data, b.m_data[hash kv.1 % b.m_data.length]? = some data := by
  by_cases h0 : b.m_data.length = 0
  · simp [insert, locate_zero hash b kv.1 h0] at hins
  · exact slot_exists hash b kv.1 (by omega)

/-- The slot table after setting the slot at a valid index. -/
theorem slot_after_set (l : List (Element Key T)) (idx i : Nat) (e' : Element Key T)
    (hlt : idx < l.length) :
    (l.set idx e')[i]? = if idx = i then some e' else l[i]? := by
  rw [List.getElem?_set]
  by_cases h : idx = i
  · rw [if_pos h, if_pos h, if_pos hlt]
  · rw [if_neg h, if_neg h]

/-- A cursor keeps its node when a node is pushed to the front of the list. -/
theorem node_slot_push (b : unordered_buffer Key T) (data : List (Element Key T)) (idx : Nat)
    (c : iterator) (i : Nat) (h : b.node_slot c = some i) :
    (⟨data, idx :: b.m_used⟩ : unordered_buffer Key T).node_slot c = some i := by
  unfold node_slot at h ⊢
  cases hc : c.it with
  | none => rw [hc] at h; cases h
  | some d =>
    rw [hc] at h
    simp only at h ⊢
    by_cases hd : d = 0 ∨ b.m_used.length < d
    · rw [if_pos hd] at h
      cases h
    · rw [if_neg hd] at h
      have hd' : ¬ (d = 0 ∨ (idx :: b.m_used).length < d) := by
        simp only [List.length_cons]
        omega
      rw [if_neg hd']
      have : (idx :: b.m_used).length - d = (b.m_used.length - d) + 1 := by
        simp only [List.length_cons]
        omega
      rw [this, List.getElem?_cons_succ]
      exact h

theorem node_slot_data (b : unordered_buffer Key T) (data : List (Element Key T))
    (c : iterator) :
    (⟨data, b.m_used⟩ : unordered_buffer Key T).node_slot c = b.node_slot c := rfl

/-! ## Runs of insertion calls -/

/-- The traversal list after one more first occupation: a bucket index that is already
listed leaves it alone, a new one goes to the front. -/
theorem foldl_push_eq_dedup (l : List Nat) :
    l.foldl (fun u i => if i ∈ u then u else i :: u) [] = l.reverse.dedup := by
  induction l using List.reverseRecOn with
  | nil => rfl
  | append_singleton xs x ih =>
    rw [List.foldl_append, List.foldl_cons, List.foldl_nil, ih, List.reverse_append,
      List.reverse_singleton, List.singleton_append]
    by_cases hx : x ∈ xs.reverse
    · rw [List.dedup_cons_of_mem hx, if_pos (List.mem_dedup.mpr hx)]
    · rw [List.dedup_cons_of_not_mem hx, if_neg (fun h => hx (List.mem_dedup.mp h))]

theorem dedup_reverse_length (l : List Nat) : l.reverse.dedup.length = l.dedup.length :=
  (List.Perm.dedup (List.reverse_perm l)).length_eq

theorem dedup_replicate_succ (n a : Nat) : (List.replicate (n + 1) a).dedup = [a] := by
  induction n with
  | zero => rfl
  | succ n ih =>
    rw [List.replicate_succ, List.dedup_cons_of_mem (by simp [List.mem_replicate]), ih]

/-- A run that stays in range: its first call does not overflow and the rest stays in
range. -/
theorem in_range_cons [DecidableEq Key] (hash : Key → Nat) (b b1 : unordered_buffer Key T)
    (c : Insertion Key T) (rest : List (Insertion Key T)) (res : iterator × Bool)
    (hr : b.in_range hash (c :: rest) = true)
    (hcall : b.apply_insertion hash c = .ok (b1, res)) :
    b.overflows hash c.pair.1 = false ∧ b1.in_range hash rest = true := by
  simp only [in_range, hcall, Bool.and_eq_true, Bool.not_eq_true'] at hr
  exact hr

theorem apply_insertion_wf [DecidableEq Key] (hash : Key → Nat)
    (b b' : unordered_buffer Key T) (c : Insertion Key T) (res : iterator × Bool)
    (hwf : Wf hash b) (hcall : b.apply_insertion hash c = .ok (b', res)) : Wf hash b' := by
  rw [apply_insertion_eq] at hcall
  exact wf_insert hash b b' _ _ _ res hwf hcall

/-- One insertion call that does not overflow, in a state that satisfies the invariant:
the capacity stays, the invariant stays, and the bucket index of the key goes to the
front of the traversal list unless it is listed already. -/
theorem apply_insertion_used [DecidableEq Key] (hash : Key → Nat)
    (b b' : unordered_buffer Key T) (c : Insertion Key T) (res : iterator × Bool)
    (hinv : Inv hash b) (hwf : Wf hash b) (hno : b.overflows hash c.pair.1 = false)
    (hcall : b.apply_insertion hash c = .ok (b', res)) :
    Inv hash b' ∧ b'.m_data.length = b.m_data.length ∧
      b'.m_used =
        if hash c.pair.1 % b.m_data.length ∈ b.m_used then b.m_used
        else (hash c.pair.1 % b.m_data.length) :: b.m_used := by
  rw [apply_insertion_eq] at hcall
  obtain ⟨data, hd⟩ := insert_ok_slot hash b b' _ _ _ res hcall
  obtain ⟨e', hset, hcases⟩ := insert_effect hash b b' _ _ _ res data hd hcall
  refine ⟨inv_insert hash b b' _ _ _ res hinv hwf hno hcall, by rw [hset, List.length_set], ?_⟩
  have hmem : hash c.pair.1 % b.m_data.length ∈ b.m_used ↔ 1 ≤ data.priority := by
    rw [hinv.used_iff]
    constructor
    · rintro ⟨e, he, hocc⟩
      rw [hd] at he
      cases he
      exact hocc
    · exact fun h => ⟨data, hd, h⟩
  rcases hcases with ⟨hp, _, hu, _⟩ | ⟨hp, _, _, hu, _⟩ | ⟨hp, _, _, _, hu, _⟩ |
    ⟨hp, _, _, _, _, hu, _⟩
  · rw [if_neg (fun h => by have := hmem.mp h; omega), hu]
  · rw [if_pos (hmem.mpr hp), hu]
  · rw [if_pos (hmem.mpr hp), hu]
  · rw [if_pos (hmem.mpr hp), hu]

/-- With at least one bucket every insertion call returns. -/
theorem apply_insertion_total [DecidableEq Key] (hash : Key → Nat)
    (b : unordered_buffer Key T) (c : Insertion Key T) (hN : 1 ≤ b.m_data.length) :
    ∃ b' res, b.apply_insertion hash c = .ok (b', res) := by
  rw [apply_insertion_eq]
  exact insert_total hash b _ _ _ hN

/-- A run of insertion calls without overflow, from a state that satisfies the
invariant. -/
theorem run_insertions_used [DecidableEq Key] (hash : Key → Nat) (N : Nat) (hN : 1 ≤ N)
    (calls : List (Insertion Key T)) :
    ∀ b : unordered_buffer Key T, Inv hash b → Wf hash b → b.m_data.length = N →
      b.in_range hash calls = true →
      ∃ b', b.run_insertions hash calls = .ok b' ∧ Inv hash b' ∧ b'.m_data.length = N ∧
        b'.m_used =
          (calls.map (fun c => hash c.pair.1 % N)).foldl
            (fun u i => if i ∈ u then u else i :: u) b.m_used := by
  induction calls with
  | nil =>
    intro b hinv _ hlen _
    exact ⟨b, rfl, hinv, hlen, rfl⟩
  | cons c rest ih =>
    intro b hinv hwf hlen hr
    obtain ⟨b1, res, hcall⟩ := apply_insertion_total hash b c (by omega)
    obtain ⟨hno, hr1⟩ := in_range_cons hash b b1 c rest res hr hcall
    obtain ⟨hinv1, hlen1, hused1⟩ := apply_insertion_used hash b b1 c res hinv hwf hno hcall
    obtain ⟨b', hrun, hinv', hlen', hused'⟩ :=
      ih b1 hinv1 (apply_insertion_wf hash b b1 c res hwf hcall) (by omega) hr1
    refine ⟨b', ?_, hinv', hlen', ?_⟩
    · simp only [run_insertions, hcall]
      exact hrun
    · rw [hused', hused1, hlen]
      rfl

/-- A run of insertion calls without overflow never empties an occupied slot. -/
theorem run_insertions_keeps_occupied [DecidableEq Key] (hash : Key → Nat)
    (calls : List (Insertion Key T)) :
    ∀ b b' : unordered_buffer Key T, Wf hash b → b.in_range hash calls = true →
      b.run_insertions hash calls = .ok b' →
      ∀ (i : Nat) (e : Element Key T), b.m_data[i]? = some e → 1 ≤ e.priority →
        ∃ e', b'.m_data[i]? = some e' ∧ 1 ≤ e'.priority := by
  induction calls with
  | nil =>
    intro b b' _ _ hrun i e he hocc
    simp only [run_insertions] at hrun
    cases hrun
    exact ⟨e, he, hocc⟩
  | cons c rest ih =>
    intro b b' hwf hr hrun i e he hocc
    simp only [run_insertions] at hrun
    cases hcall : b.apply_insertion hash c with
    | error err =>
      rw [hcall] at hrun
      cases hrun
    | ok out =>
      obtain ⟨b1, res⟩ := out
      rw [hcall] at hrun
      simp only at hrun
      obtain ⟨hno, hr1⟩ := in_range_cons hash b b1 c rest res hr hcall
      have hcall' := hcall
      rw [apply_insertion_eq] at hcall'
      obtain ⟨data, hd⟩ := insert_ok_slot hash b b1 _ _ _ res hcall'
      have hlt := slot_lt b _ data hd
      obtain ⟨e1, hset, hcases⟩ := insert_effect hash b b1 _ _ _ res data hd hcall'
      have hstep : ∃ e1', b1.m_data[i]? = some e1' ∧ 1 ≤ e1'.priority := by
        by_cases hi : hash c.pair.1 % b.m_data.length = i
        · subst hi
          refine ⟨e1, by rw [hset, slot_after_set _ _ _ _ hlt, if_pos rfl], ?_⟩
          rcases hcases with ⟨_, rfl, _⟩ | ⟨hp, hk, rfl, _⟩ | ⟨_, _, _, rfl, _⟩ |
            ⟨hp, _, _, _, rfl, _⟩
          · exact le_refl 1
          · have hle := (hwf.range _ data hd).2
            have hne : data.priority ≠ INT_MAX := by
              intro hmax
              rw [overflows_of_slot hash b c.pair.1 data hd] at hno
              simp [hk, hmax] at hno
            simp only [wrap_int_succ _ (by unfold INT_MIN; omega) (lt_of_le_of_ne hle hne)]
            omega
          · exact le_refl 1
          · exact hp
        · exact ⟨e, by rw [hset, slot_after_set _ _ _ _ hlt, if_neg hi]; exact he, hocc⟩
      obtain ⟨e1', he1', hocc1⟩ := hstep
      exact ih b1 b' (apply_insertion_wf hash b b1 c res hwf hcall) hr1 hrun i e1' he1' hocc1

/-- A run splits at any point. -/
theorem run_insertions_append [DecidableEq Key] (hash : Key → Nat)
    (l1 l2 : List (Insertion Key T)) :
    ∀ b b1 : unordered_buffer Key T, b.run_insertions hash l1 = .ok b1 →
      b.run_insertions hash (l1 ++ l2) = b1.run_insertions hash l2 := by
  induction l1 with
  | nil =>
    intro b b1 h
    simp only [run_insertions] at h
    cases h
    rfl
  | cons c rest ih =>
    intro b b1 h
    simp only [run_insertions, List.cons_append] at h ⊢
    cases hcall : b.apply_insertion hash c with
    | error err =>
      rw [hcall] at h
      cases h
    | ok out =>
      obtain ⟨b2, res⟩ := out
      rw [hcall] at h
      simp only at h ⊢
      exact ih b2 b1 h

/-- Repeating `insert(1, "a")` on the scenario with key 1 resident adds the number of
repetitions to the priority, up to `INT_MAX`. -/
theorem run_hits (n : Nat) :
    ∀ p : Int, 1 ≤ p → p + n ≤ INT_MAX →
      (scenario_hit p).run_insertions id
          (List.replicate n (Insertion.insert (1, "a") true (1 / 2))) =
        .ok (scenario_hit (p + n)) := by
  induction n with
  | zero =>
    intro p _ _
    simp [run_insertions]
  | succ n ih =>
    intro p hp hmax
    push_cast at hmax
    have hstep := scenario_hit_insert p "a" true (1 / 2) hp
    rw [wrap_int_succ p (by unfold INT_MIN; omega) (by omega)] at hstep
    rw [List.replicate_succ]
    simp only [run_insertions, apply_insertion, hstep]
    rw [ih (p + 1) (by omega) (by omega)]
    congr 2
    push_cast
    ring

/-! ## Runs that overflow, runs that stay in range -/

theorem run_insertions_wf [DecidableEq Key] (hash : Key → Nat)
    (calls : List (Insertion Key T)) :
    ∀ b b' : unordered_buffer Key T, Wf hash b → b.run_insertions hash calls = .ok b' →
      Wf hash b' := by
  induction calls with
  | nil =>
    intro b b' hwf hrun
    simp only [run_insertions] at hrun
    cases hrun
    exact hwf
  | cons c rest ih =>
    intro b b' hwf hrun
    simp only [run_insertions] at hrun
    cases hcall : b.apply_insertion hash c with
    | error err =>
      rw [hcall] at hrun
      cases hrun
    | ok out =>
      obtain ⟨b1, res⟩ := out
      rw [hcall] at hrun
      exact ih b1 b' (apply_insertion_wf hash b b1 c res hwf hcall) hrun

/-- A run that stays in range stays in range from any point on. -/
theorem in_range_append [DecidableEq Key] (hash : Key → Nat)
    (l1 l2 : List (Insertion Key T)) :
    ∀ b b1 : unordered_buffer Key T, b.in_range hash (l1 ++ l2) = true →
      b.run_insertions hash l1 = .ok b1 → b1.in_range hash l2 = true := by
  induction l1 with
  | nil =>
    intro b b1 hr hrun
    simp only [run_insertions] at hrun
    cases hrun
    exact hr
  | cons c rest ih =>
    intro b b1 hr hrun
    simp only [run_insertions] at hrun
    cases hcall : b.apply_insertion hash c with
    | error err =>
      rw [hcall] at hrun
      cases hrun
    | ok out =>
      obtain ⟨b2, res⟩ := out
      rw [hcall] at hrun
      exact ih b2 b1 (in_range_cons hash b b2 c (rest ++ l2) res hr hcall).2 hrun

/-- After 2^31 - 1 repetitions of `insert(1, "a")` on the fresh scenario the priority
of slot 1 is `INT_MAX`. -/
theorem run_saturate :
    scenario_fresh.run_insertions id
        (List.replicate 2147483647 (Insertion.insert (1, "a") true (1 / 2))) =
      .ok (scenario_hit INT_MAX) := by
  have h1 : scenario_fresh.run_insertions id [Insertion.insert (1, "a") true (1 / 2)] =
      .ok (scenario_hit 1) := rfl
  have h2 := run_hits 2147483646 1 (le_refl 1) (by unfold INT_MAX; norm_num)
  have hc : (1 : Int) + ((2147483646 : Nat) : Int) = INT_MAX := by unfold INT_MAX; norm_num
  rw [hc] at h2
  have hsplit : List.replicate 2147483647 (Insertion.insert (1, "a") true (1 / 2)) =
      [Insertion.insert ((1 : Nat), "a") true (1 / 2)] ++
        List.replicate 2147483646 (Insertion.insert (1, "a") true (1 / 2)) :=
    List.replicate_succ _ 2147483646
  rw [hsplit]
  exact (run_insertions_append id _ _ _ _ h1).trans h2

/-- After 2^31 repetitions the priority has wrapped to `INT_MIN`. -/
theorem run_wrap :
    scenario_fresh.run_insertions id
        (List.replicate 2147483648 (Insertion.insert (1, "a") true (1 / 2))) =
      .ok (scenario_hit INT_MIN) := by
  have h3 : (scenario_hit INT_MAX).run_insertions id
      [Insertion.insert (1, "a") true (1 / 2)] = .ok (scenario_hit INT_MIN) := by
    simp only [run_insertions, apply_insertion, scenario_saturated_insert]
  have hsplit : List.replicate 2147483648 (Insertion.insert (1, "a") true (1 / 2)) =
      List.replicate 2147483647 (Insertion.insert ((1 : Nat), "a") true (1 / 2)) ++
        [Insertion.insert (1, "a") true (1 / 2)] :=
    List.replicate_succ' 2147483647 _
  rw [hsplit]
  exact (run_insertions_append id _ _ _ _ run_saturate).trans h3

/-- After 2^31 + 1 repetitions the slot has been taken for empty and pushed again. -/
theorem run_overflow :
    scenario_fresh.run_insertions id
        (List.replicate 2147483649 (Insertion.insert (1, "a") true (1 / 2))) =
      .ok scenario_twice := by
  have h3 : (scenario_hit INT_MIN).run_insertions id
      [Insertion.insert (1, "a") true (1 / 2)] = .ok scenario_twice := by
    simp only [run_insertions, apply_insertion, scenario_wrapped_insert]
  have hsplit : List.replicate 2147483649 (Insertion.insert (1, "a") true (1 / 2)) =
      List.replicate 2147483648 (Insertion.insert ((1 : Nat), "a") true (1 / 2)) ++
        [Insertion.insert (1, "a") true (1 / 2)] :=
    List.replicate_succ' 2147483648 _
  rw [hsplit]
  exact (run_insertions_append id _ _ _ _ run_wrap).trans h3

/-- The bucket indices of the overflowing run are all 1. -/
theorem run_overflow_buckets :
    (List.replicate 2147483649 (Insertion.insert ((1 : Nat), "a") true (1 / 2))).map
        (fun c => id c.pair.1 % scenario_fresh.max_size) =
      List.replicate (2147483648 + 1) 1 := by
  rw [List.map_replicate]
  rfl

/-! ## The claims on runs of insertion calls -/

/-- Claim C13, counterexample. On the fresh container of capacity 4 the run of 2^31 + 1
calls `insert(1, "a")` meets one bucket index only, yet it ends with `size()` equal to
2: after 2^31 - 1 calls slot 1 is occupied with priority `INT_MAX`, the next call wraps
the priority to `INT_MIN`, so the occupied slot counts as empty again, and the call
after that pushes the slot a second time. -/
theorem size_exceeds_buckets :
    ((∃ n, scenario_fresh = mk_sized n) ∨
        ∃ s : unordered_buffer Nat String, scenario_fresh = s.clear) ∧
      1 ≤ scenario_fresh.max_size ∧
      scenario_fresh.run_insertions id
          (List.replicate 2147483647 (Insertion.insert (1, "a") true (1 / 2))) =
        .ok (scenario_hit INT_MAX) ∧
      (scenario_hit INT_MAX).m_data[1]? = some ⟨INT_MAX, ⟨some 1⟩, (1, "a")⟩ ∧
      1 ≤ INT_MAX ∧
      scenario_fresh.run_insertions id
          (List.replicate 2147483648 (Insertion.insert (1, "a") true (1 / 2))) =
        .ok (scenario_hit INT_MIN) ∧
      (scenario_hit INT_MIN).m_data[1]? = some ⟨INT_MIN, ⟨some 1⟩, (1, "a")⟩ ∧
      INT_MIN ≤ 0 ∧
      scenario_fresh.run_insertions id
          (List.replicate 2147483649 (Insertion.insert (1, "a") true (1 / 2))) =
        .ok scenario_twice ∧
      scenario_twice.size = 2 ∧
      (((List.replicate 2147483649 (Insertion.insert ((1 : Nat), "a") true (1 / 2))).map
        (fun c => id c.pair.1 % scenario_fresh.max_size)).dedup).length = 1 := by
  refine ⟨Or.inl ⟨4, rfl⟩, by decide, run_saturate, rfl, by decide, run_wrap, rfl,
    by decide, run_overflow, rfl, ?_⟩
  rw [run_overflow_buckets, dedup_replicate_succ]
  rfl

/-- Claim C13, amended. A run of insertion calls (any entry point, key, value, flag and
draw) in which no call finds its own key resident with priority `INT_MAX` never makes an
occupied slot empty again, from any reachable state. Started on a freshly constructed
or freshly cleared container of capacity at least 1 such a run returns, a slot occupied
at any point of the run is occupied at its end, and afterwards `size()`, the number of
occupied slots and the number of visited entries all equal the number of distinct
bucket indices `hash(K) mod N` of the keys inserted, and `size()` is at most
`max_size()`, which is still the capacity `N`. -/
theorem size_counts_buckets [DecidableEq Key] [Inhabited Key] [Inhabited T]
    (hash : Key → Nat) :
    (∀ (b b' : unordered_buffer Key T) (calls : List (Insertion Key T)),
      Reachable hash b → b.in_range hash calls = true →
      b.run_insertions hash calls = .ok b' →
      ∀ (i : Nat) (e : Element Key T), b.m_data[i]? = some e → 1 ≤ e.priority →
        ∃ e', b'.m_data[i]? = some e' ∧ 1 ≤ e'.priority) ∧
    (∀ (b0 : unordered_buffer Key T) (calls : List (Insertion Key T)),
      ((∃ n, b0 = mk_sized n) ∨ ∃ s : unordered_buffer Key T, b0 = s.clear) →
      1 ≤ b0.max_size → b0.in_range hash calls = true →
      ∃ b', b0.run_insertions hash calls = .ok b' ∧
        (∀ (l1 l2 : List (Insertion Key T)) (b1 : unordered_buffer Key T),
          calls = l1 ++ l2 → b0.run_insertions hash l1 = .ok b1 →
          ∀ (i : Nat) (e : Element Key T), b1.m_data[i]? = some e → 1 ≤ e.priority →
            ∃ e', b'.m_data[i]? = some e' ∧ 1 ≤ e'.priority) ∧
        b'.size = ((calls.map (fun c => hash c.pair.1 % b0.max_size)).dedup).length ∧
        b'.m_data.countP (fun e => decide (1 ≤ e.priority)) =
          ((calls.map (fun c => hash c.pair.1 % b0.max_size)).dedup).length ∧
        b'.entries.length =
          ((calls.map (fun c => hash c.pair.1 % b0.max_size)).dedup).length ∧
        b'.size ≤ b'.max_size ∧
        b'.max_size = b0.max_size) := by
  refine ⟨fun b b' calls hreach hr => run_insertions_keeps_occupied hash calls b b'
    (reachable_wf hash b hreach) hr, ?_⟩
  intro b0 calls hfresh hN hr
  have hinv0 : Inv hash b0 := by
    rcases hfresh with ⟨n, rfl⟩ | ⟨s, rfl⟩
    · exact inv_mk_sized hash n
    · exact inv_clear hash s
  have hwf0 : Wf hash b0 := by
    rcases hfresh with ⟨n, rfl⟩ | ⟨s, rfl⟩ <;>
      exact wf_of_all_empty hash _ (reset_priorities_slot _)
  have hused0 : b0.m_used = [] := by
    rcases hfresh with ⟨n, rfl⟩ | ⟨s, rfl⟩ <;> rfl
  obtain ⟨b', hrun, hinv', hlen', hused'⟩ :=
    run_insertions_used hash b0.m_data.length hN calls b0 hinv0 hwf0 rfl hr
  rw [hused0, foldl_push_eq_dedup] at hused'
  have hsize : b'.size = ((calls.map (fun c => hash c.pair.1 % b0.max_size)).dedup).length := by
    simp only [size, max_size]
    rw [hused', dedup_reverse_length]
  refine ⟨b', hrun, ?_, hsize, ?_, ?_, ?_, hlen'⟩
  · intro l1 l2 b1 hsplit hrun1
    subst hsplit
    have hrun2 := run_insertions_append hash l1 l2 b0 b1 hrun1
    rw [hrun] at hrun2
    exact run_insertions_keeps_occupied hash l2 b1 b'
      (run_insertions_wf hash l1 b0 b1 hwf0 hrun1)
      (in_range_append hash l1 l2 b0 b1 hr hrun1) hrun2.symm
  · rw [← hinv'.size_eq]
    exact hsize
  · rw [entries_length hash b' hinv']
    exact hsize
  · simp only [size, max_size]
    rw [hinv'.size_eq]
    exact List.countP_le_length _

/-- Claim C13 on the scenario: the displacement of key 1 by key 5 keeps slot 1
occupied, and three insertion calls with keys 1, 5 and 2 into the fresh container of
capacity 4 hit two distinct buckets, and `size()` is 2. -/
theorem size_counts_buckets_witness :
    Reachable id scenario_one ∧
      scenario_one.in_range id [.insert (5, "b") false 0] = true ∧
      scenario_one.run_insertions id [.insert (5, "b") false 0] = .ok scenario_five ∧
      scenario_one.m_data[1]? = some ⟨1, ⟨some 1⟩, (1, "a")⟩ ∧
      (∃ e', scenario_five.m_data[1]? = some e' ∧ 1 ≤ e'.priority) ∧
      ((∃ n, scenario_fresh = mk_sized n) ∨
        ∃ s : unordered_buffer Nat String, scenario_fresh = s.clear) ∧
      1 ≤ scenario_fresh.max_size ∧
      scenario_fresh.in_range id
          [.insert (1, "a") true (1 / 3), .emplace 5 "b" false 0,
            .insert_move (2, "c") true (1 / 2)] = true ∧
      ∃ b', scenario_fresh.run_insertions id
          [.insert (1, "a") true (1 / 3), .emplace 5 "b" false 0,
            .insert_move (2, "c") true (1 / 2)] = .ok b' ∧
        b'.size = 2 ∧ b'.size ≤ b'.max_size ∧ b'.max_size = 4 := by
  refine ⟨scenario_one_reachable, rfl, rfl, rfl, ?_, Or.inl ⟨4, rfl⟩, by decide, rfl, ?_⟩
  · exact (@size_counts_buckets Nat String _ _ _ id).1 scenario_one scenario_five
      [.insert (5, "b") false 0] scenario_one_reachable rfl rfl 1 ⟨1, ⟨some 1⟩, (1, "a")⟩
      rfl (by decide)
  · obtain ⟨b', hrun, _, hsize, _, _, hle, hmax⟩ :=
      (@size_counts_buckets Nat String _ _ _ id).2 scenario_fresh
        [.insert (1, "a") true (1 / 3), .emplace 5 "b" false 0,
          .insert_move (2, "c") true (1 / 2)] (Or.inl ⟨4, rfl⟩) (by decide) rfl
    exact ⟨b', hrun, hsize, hle, hmax⟩

/-- Claim C14, counterexample. In the reachable state whose slot 1 holds key 1 with
priority `INT_MAX`, inserting key 1 again leaves the key and takes the priority from
`INT_MAX` to `INT_MIN`: it decreases with the key unchanged, and it is set below 0. -/
theorem priority_drops_on_overflow :
    Reachable id (scenario_hit INT_MAX) ∧
      (scenario_hit INT_MAX).apply_insertion id (.insert (1, "a") true (1 / 2)) =
        .ok (scenario_hit INT_MIN, (⟨some 1⟩, false)) ∧
      (scenario_hit INT_MAX).m_data[1]? = some ⟨INT_MAX, ⟨some 1⟩, (1, "a")⟩ ∧
      (scenario_hit INT_MIN).m_data[1]? = some ⟨INT_MIN, ⟨some 1⟩, (1, "a")⟩ ∧
      1 ≤ INT_MAX ∧ INT_MIN < INT_MAX ∧ INT_MIN ≤ 0 :=
  ⟨scenario_saturated_reachable, scenario_saturated_insert "a" true (1 / 2), rfl, rfl,
    by decide, by decide, by decide⟩

/-- Claim C14, amended. For every reachable state, every insertion call that returns
and does not find its own key resident with priority `INT_MAX`, and every slot: a slot
that was occupied and holds the same key afterwards has a priority at least as high as
before; a slot whose key changed has priority exactly 1; and the call sets no priority
to 0 or below (the slot it writes ends with priority at least 1, and a slot whose
priority is 0 or below afterwards is a slot the call left as it was). -/
theorem priority_monotone [DecidableEq Key] [Inhabited Key] [Inhabited T]
    (hash : Key → Nat) (b b' : unordered_buffer Key T) (c : Insertion Key T)
    (res : iterator × Bool) (hreach : Reachable hash b)
    (hno : b.overflows hash c.pair.1 = false)
    (hcall : b.apply_insertion hash c = .ok (b', res)) (i : Nat) (e : Element Key T)
    (he : b.m_data[i]? = some e) :
    ∃ e', b'.m_data[i]? = some e' ∧
      (1 ≤ e.priority → e'.value.1 = e.value.1 → e.priority ≤ e'.priority) ∧
      (e'.value.1 ≠ e.value.1 → e'.priority = 1) ∧
      (i = hash c.pair.1 % b.max_size → 1 ≤ e'.priority) ∧
      (e'.priority ≤ 0 → e' = e) := by
  have hwf := reachable_wf hash b hreach
  rw [apply_insertion_eq] at hcall
  obtain ⟨data, hd⟩ := insert_ok_slot hash b b' _ _ _ res hcall
  have hlt := slot_lt b _ data hd
  obtain ⟨e', hset, hcases⟩ := insert_effect hash b b' _ _ _ res data hd hcall
  simp only [max_size]
  by_cases hi : hash c.pair.1 % b.m_data.length = i
  · subst hi
    rw [hd] at he
    cases he
    refine ⟨e', by rw [hset, slot_after_set _ _ _ _ hlt, if_pos rfl], ?_⟩
    rcases hcases with ⟨hp, rfl, _, _⟩ | ⟨hp, hk, rfl, _, _⟩ | ⟨hp, hk, _, rfl, _, _⟩ |
      ⟨hp, hk, _, _, rfl, _, _⟩
    · exact ⟨fun h => by omega, fun _ => rfl, fun _ => le_refl 1,
        fun h => by simp at h⟩
    · have hle := (hwf.range _ e hd).2
      have hne : e.priority ≠ INT_MAX := by
        intro hmax
        rw [overflows_of_slot hash b c.pair.1 e hd] at hno
        simp [hk, hmax] at hno
      have hw := wrap_int_succ e.priority (by unfold INT_MIN; omega)
        (lt_of_le_of_ne hle hne)
      refine ⟨fun _ _ => ?_, fun h => absurd rfl h, fun _ => ?_, fun h => ?_⟩
      · simp only [hw]
        omega
      · simp only [hw]
        omega
      · simp only [hw] at h
        omega
    · exact ⟨fun _ h => absurd h.symm hk, fun _ => rfl, fun _ => le_refl 1,
        fun h => by simp at h⟩
    · exact ⟨fun _ _ => le_refl _, fun h => absurd rfl h, fun _ => hp, fun _ => rfl⟩
  · refine ⟨e, by rw [hset, slot_after_set _ _ _ _ hlt, if_neg hi]; exact he, ?_⟩
    exact ⟨fun _ _ => le_refl _, fun h => absurd rfl h, fun h => absurd h.symm hi,
      fun _ => rfl⟩

/-- Claim C14 on the scenario: repeating key 1 raises the priority of slot 1 from 1 to
2. -/
theorem priority_monotone_witness :
    Reachable id scenario_one ∧
      scenario_one.overflows id 1 = false ∧
      scenario_one.apply_insertion id (.insert (1, "z") false 0) =
        .ok (scenario_hit 2, (⟨some 1⟩, false)) ∧
      scenario_one.m_data[1]? = some ⟨1, ⟨some 1⟩, (1, "a")⟩ ∧
      ∃ e', (scenario_hit 2).m_data[1]? = some e' ∧
        (1 ≤ (1 : Int) → e'.value.1 = 1 → (1 : Int) ≤ e'.priority) ∧
        (e'.value.1 ≠ 1 → e'.priority = 1) ∧
        (1 = id 1 % scenario_one.max_size → 1 ≤ e'.priority) ∧
        (e'.priority ≤ 0 → e' = ⟨1, ⟨some 1⟩, (1, "a")⟩) :=
  ⟨scenario_one_reachable, rfl, rfl, rfl,
    priority_monotone id scenario_one (scenario_hit 2) (.insert (1, "z") false 0)
      (⟨some 1⟩, false) scenario_one_reachable rfl rfl 1 ⟨1, ⟨some 1⟩, (1, "a")⟩ rfl⟩

/-- A run of insertion calls on a container without buckets returns only when it is
empty. -/
theorem run_insertions_zero [DecidableEq Key] (hash : Key → Nat)
    (b b' : unordered_buffer Key T) (calls : List (Insertion Key T))
    (h0 : b.m_data.length = 0) (hrun : b.run_insertions hash calls = .ok b') :
    calls = [] ∧ b' = b := by
  cases calls with
  | nil =>
    simp only [run_insertions] at hrun
    cases hrun
    exact ⟨rfl, rfl⟩
  | cons c rest =>
    simp only [run_insertions, apply_insertion_eq, insert, locate_zero hash b _ h0] at hrun
    cases hrun

/-- Claim C15, counterexample. The run of 2^31 + 1 calls `insert(1, "a")` on the fresh
container of capacity 4 occupies slot 1 only, yet the traversal list at its end holds
slot 1 twice: the call after the priority wrapped to `INT_MIN` took the slot for empty
and pushed it again, so iteration does not visit the slots in reverse order of their
first occupation. -/
theorem traversal_repeats_slot :
    ((∃ n, scenario_fresh = mk_sized n) ∨
        ∃ s : unordered_buffer Nat String, scenario_fresh = s.clear) ∧
      scenario_fresh.run_insertions id
          (List.replicate 2147483649 (Insertion.insert (1, "a") true (1 / 2))) =
        .ok scenario_twice ∧
      scenario_twice.m_used = [1, 1] ∧
      scenario_twice.entries = [(1, "a"), (1, "a")] ∧
      (((List.replicate 2147483649 (Insertion.insert ((1 : Nat), "a") true (1 / 2))).map
        (fun c => id c.pair.1 % scenario_fresh.max_size)).reverse).dedup = [1] := by
  refine ⟨Or.inl ⟨4, rfl⟩, run_overflow, rfl, rfl, ?_⟩
  rw [run_overflow_buckets, List.reverse_replicate, dedup_replicate_succ]

/-- Claim C15, amended. For every reachable state and every insertion call that
returns: when the slot at the bucket index of the key was empty, the traversal list
afterwards is that slot followed by the previous list; when it was occupied (same key,
resident kept, or displacement in either mode) the list is the previous one, so a
displacing key is visited at the place of the key it displaced; iteration visits the
pairs of the slots in the order of the list. Hence after a run of insertion calls on a
freshly constructed or freshly cleared container in which no call finds its own key
resident with priority `INT_MAX`, the list is the sequence of bucket indices of the
calls, latest call first, with only the last place of each index kept: the slots in
reverse order of their first occupation. -/
theorem traversal_order [DecidableEq Key] [Inhabited Key] [Inhabited T]
    (hash : Key → Nat) :
    (∀ (b b' : unordered_buffer Key T) (c : Insertion Key T) (res : iterator × Bool)
        (data : Element Key T),
      Reachable hash b → b.apply_insertion hash c = .ok (b', res) →
      b.m_data[hash c.pair.1 % b.max_size]? = some data →
      (data.priority ≤ 0 → b'.m_used = (hash c.pair.1 % b.max_size) :: b.m_used) ∧
      (1 ≤ data.priority → b'.m_used = b.m_used) ∧
      b'.entries.map some =
        b'.m_used.map (fun i => (b'.m_data[i]?).map (fun e => e.value))) ∧
    (∀ (b0 b' : unordered_buffer Key T) (calls : List (Insertion Key T)),
      ((∃ n, b0 = mk_sized n) ∨ ∃ s : unordered_buffer Key T, b0 = s.clear) →
      b0.in_range hash calls = true →
      b0.run_insertions hash calls = .ok b' →
      b'.m_used = ((calls.map (fun c => hash c.pair.1 % b0.max_size)).reverse).dedup ∧
      b'.entries.map some =
        b'.m_used.map (fun i => (b'.m_data[i]?).map (fun e => e.value))) := by
  constructor
  · intro b b' c res data hreach hcall hslot
    have hwf := reachable_wf hash b hreach
    have hwf' := apply_insertion_wf hash b b' c res hwf hcall
    have hcall' := hcall
    rw [apply_insertion_eq] at hcall'
    simp only [max_size] at hslot ⊢
    obtain ⟨e', _, hcases⟩ := insert_effect hash b b' _ _ _ res data hslot hcall'
    refine ⟨?_, ?_, entries_eq_of_listed b' hwf'.listed⟩
    · intro hp
      rcases hcases with ⟨_, _, hu, _⟩ | ⟨h, _⟩ | ⟨h, _⟩ | ⟨h, _⟩
      · exact hu
      all_goals omega
    · intro hp
      rcases hcases with ⟨h, _⟩ | ⟨_, _, _, hu, _⟩ | ⟨_, _, _, _, hu, _⟩ |
        ⟨_, _, _, _, _, hu, _⟩
      · omega
      all_goals exact hu
  · intro b0 b' calls hfresh hr hrun
    have hinv0 : Inv hash b0 := by
      rcases hfresh with ⟨n, rfl⟩ | ⟨s, rfl⟩
      · exact inv_mk_sized hash n
      · exact inv_clear hash s
    have hwf0 : Wf hash b0 := by
      rcases hfresh with ⟨n, rfl⟩ | ⟨s, rfl⟩ <;>
        exact wf_of_all_empty hash _ (reset_priorities_slot _)
    have hused0 : b0.m_used = [] := by
      rcases hfresh with ⟨n, rfl⟩ | ⟨s, rfl⟩ <;> rfl
    by_cases h0 : b0.m_data.length = 0
    · obtain ⟨rfl, rfl⟩ := run_insertions_zero hash b0 b' calls h0 hrun
      exact ⟨hused0, entries_eq hash b' hinv0⟩
    · obtain ⟨b1, hrun1, hinv1, _, hused1⟩ :=
        run_insertions_used hash b0.m_data.length (by omega) calls b0 hinv0 hwf0 rfl hr
      rw [hrun] at hrun1
      cases hrun1
      rw [hused0, foldl_push_eq_dedup] at hused1
      exact ⟨hused1, entries_eq hash b' hinv1⟩

/-- Claim C15 on the scenario: displacing key 1 by key 5 leaves the traversal list
`[1]` alone, and the calls with keys 1, 5, 2, 1 into the fresh container, whose bucket
indices are 1, 1, 2, 1, end with the traversal list `[2, 1]`. -/
theorem traversal_order_witness :
    Reachable id scenario_one ∧
      scenario_one.apply_insertion id (.insert (5, "b") false 0) =
        .ok (scenario_five, (⟨some 1⟩, true)) ∧
      scenario_one.m_data[id 5 % scenario_one.max_size]? = some ⟨1, ⟨some 1⟩, (1, "a")⟩ ∧
      scenario_five.m_used = scenario_one.m_used ∧
      ((∃ n, scenario_fresh = mk_sized n) ∨
        ∃ s : unordered_buffer Nat String, scenario_fresh = s.clear) ∧
      scenario_fresh.in_range id
          [.insert (1, "a") true (1 / 3), .emplace 5 "b" false 0,
            .insert_move (2, "c") true (1 / 2), .insert (1, "d") false 0] = true ∧
      ∃ b', scenario_fresh.run_insertions id
          [.insert (1, "a") true (1 / 3), .emplace 5 "b" false 0,
            .insert_move (2, "c") true (1 / 2), .insert (1, "d") false 0] = .ok b' ∧
        b'.m_used = [2, 1] := by
  refine ⟨scenario_one_reachable, rfl, rfl, ?_, Or.inl ⟨4, rfl⟩, rfl, ?_⟩
  · exact ((@traversal_order Nat String _ _ _ id).1 scenario_one scenario_five
      (.insert (5, "b") false 0) (⟨some 1⟩, true) ⟨1, ⟨some 1⟩, (1, "a")⟩
      scenario_one_reachable rfl rfl).2.1 (by decide)
  · have hrun : scenario_fresh.run_insertions id
        [.insert (1, "a") true (1 / 3), .emplace 5 "b" false 0,
          .insert_move (2, "c") true (1 / 2), .insert (1, "d") false 0] =
        .ok ⟨[⟨0, ⟨none⟩, (0, "")⟩, ⟨1, ⟨some 1⟩, (1, "d")⟩, ⟨1, ⟨some 2⟩, (2, "c")⟩,
          ⟨0, ⟨none⟩, (0, "")⟩], [2, 1]⟩ := rfl
    exact ⟨_, hrun, ((@traversal_order Nat String _ _ _ id).2 scenario_fresh _
      [.insert (1, "a") true (1 / 3), .emplace 5 "b" false 0,
        .insert_move (2, "c") true (1 / 2), .insert (1, "d") false 0]
      (Or.inl ⟨4, rfl⟩) rfl hrun).1⟩

/-- Claim C16. For every insertion call that returns and every cursor that denotes an
occupied slot `i`: the cursor still denotes slot `i` afterwards, and the pair it
dereferences to differs from the pair before exactly when the call overwrote slot `i`
with a different key, that is, the call went to bucket `i`, its key differs from the
resident key, and it was deterministic or its draw fell below the threshold
`pow(2, -priority)` as the code computes it (the call then reports `inserted == true`).
The pair is unchanged by a priority increment, overflowing or not, by a collision the
resident survives and by an insert into another bucket, and the call modifies no slot
other than the one at the bucket index of its key. -/
theorem cursor_stability [DecidableEq Key] (hash : Key → Nat)
    (b b' : unordered_buffer Key T) (call : Insertion Key T) (res : iterator × Bool)
    (hcall : b.apply_insertion hash call = .ok (b', res)) (c : iterator) (i : Nat)
    (e : Element Key T) (hc : b.node_slot c = some i) (he : b.m_data[i]? = some e)
    (hocc : 1 ≤ e.priority) :
    b.deref c = some e.value ∧
    b'.node_slot c = some i ∧
    (b'.deref c ≠ b.deref c ↔
      (hash call.pair.1 % b.max_size = i ∧ e.value.1 ≠ call.pair.1 ∧
        (call.prob = false ∨ call.draw < pow_two_neg e.priority))) ∧
    (b'.deref c ≠ b.deref c ↔ (hash call.pair.1 % b.max_size = i ∧ res.2 = true)) ∧
    (b'.deref c ≠ b.deref c → b'.deref c = some call.pair) ∧
    (∀ j, j ≠ hash call.pair.1 % b.max_size → b'.m_data[j]? = b.m_data[j]?) := by
  rw [apply_insertion_eq] at hcall
  obtain ⟨data, hd⟩ := insert_ok_slot hash b b' _ _ _ res hcall
  have hlt := slot_lt b _ data hd
  obtain ⟨e', hset, hcases⟩ := insert_effect hash b b' _ _ _ res data hd hcall
  have hderef : b.deref c = some e.value := by
    simp only [deref, hc, he, Option.map_some']
  have hnode : b'.node_slot c = some i := by
    rcases hcases with ⟨_, _, hu, _⟩ | ⟨_, _, _, hu, _⟩ | ⟨_, _, _, _, hu, _⟩ |
      ⟨_, _, _, _, _, hu, _⟩
    · have := node_slot_push b b'.m_data (hash call.pair.1 % b.m_data.length) c i hc
      rw [← hu] at this
      exact this
    all_goals
      have := node_slot_data b b'.m_data c
      rw [← hu] at this
      rw [← hc, ← this]
  have hframe : ∀ j, j ≠ hash call.pair.1 % b.m_data.length →
      b'.m_data[j]? = b.m_data[j]? := by
    intro j hj
    rw [hset, slot_after_set _ _ _ _ hlt, if_neg (Ne.symm hj)]
  simp only [max_size]
  have hchar :
      (b'.deref c = b.deref c ∧
        ¬ (hash call.pair.1 % b.m_data.length = i ∧ e.value.1 ≠ call.pair.1 ∧
          (call.prob = false ∨ call.draw < pow_two_neg e.priority)) ∧
        ¬ (hash call.pair.1 % b.m_data.length = i ∧ res.2 = true)) ∨
      (b'.deref c = some call.pair ∧ b'.deref c ≠ b.deref c ∧
        (hash call.pair.1 % b.m_data.length = i ∧ e.value.1 ≠ call.pair.1 ∧
          (call.prob = false ∨ call.draw < pow_two_neg e.priority)) ∧
        (hash call.pair.1 % b.m_data.length = i ∧ res.2 = true)) := by
    by_cases hi : hash call.pair.1 % b.m_data.length = i
    · subst hi
      rw [hd] at he
      cases he
      have hslot' : b'.m_data[hash call.pair.1 % b.m_data.length]? = some e' := by
        rw [hset, slot_after_set _ _ _ _ hlt, if_pos rfl]
      have hderef' : b'.deref c = some e'.value := by
        simp only [deref, hnode, hslot', Option.map_some']
      rw [hderef, hderef']
      rcases hcases with ⟨hp, _, _, _⟩ | ⟨hp, hk, rfl, _, rfl⟩ | ⟨hp, hk, hr, rfl, _, rfl⟩ |
        ⟨hp, hk, hpr, hr, rfl, _, rfl⟩
      · omega
      · exact Or.inl ⟨rfl, fun h => h.2.1 hk, fun h => Bool.noConfusion h.2⟩
      · right
        refine ⟨rfl, ?_, ⟨rfl, hk, ?_⟩, rfl, rfl⟩
        · intro h
          exact hk (congrArg Prod.fst (Option.some.inj h)).symm
        · cases hp' : call.prob
          · exact Or.inl rfl
          · exact Or.inr (hr hp')
      · left
        refine ⟨rfl, ?_, fun h => Bool.noConfusion h.2⟩
        intro h
        rcases h.2.2 with h' | h'
        · rw [hpr] at h'
          cases h'
        · exact hr h'
    · have hslot' : b'.m_data[i]? = some e := by
        rw [hframe i (Ne.symm hi)]
        exact he
      have hderef' : b'.deref c = some e.value := by
        simp only [deref, hnode, hslot', Option.map_some']
      rw [hderef, hderef']
      exact Or.inl ⟨rfl, fun h => hi h.1, fun h => hi h.1⟩
  refine ⟨hderef, hnode, ?_, ?_, ?_, hframe⟩
  · rcases hchar with ⟨h1, h2, _⟩ | ⟨_, h1, h2, _⟩
    · exact ⟨fun h => absurd h1 h, fun h => absurd h h2⟩
    · exact ⟨fun _ => h2, fun _ => h1⟩
  · rcases hchar with ⟨h1, _, h2⟩ | ⟨_, h1, _, h2⟩
    · exact ⟨fun h => absurd h1 h, fun h => absurd h h2⟩
    · exact ⟨fun _ => h2, fun _ => h1⟩
  · rcases hchar with ⟨h1, _, _⟩ | ⟨h1, _, _, _⟩
    · exact fun h => absurd h1 h
    · exact fun _ => h1

/-- Claim C16 on the scenario: the cursor of slot 1 dereferences to `(1, "a")`; after
key 5 displaced key 1 it denotes the same slot and dereferences to `(5, "b")`. -/
theorem cursor_stability_witness :
    scenario_one.apply_insertion id (.insert (5, "b") false 0) =
        .ok (scenario_five, (⟨some 1⟩, true)) ∧
      scenario_one.node_slot ⟨some 1⟩ = some 1 ∧
      scenario_one.m_data[1]? = some ⟨1, ⟨some 1⟩, (1, "a")⟩ ∧
      scenario_one.deref ⟨some 1⟩ = some (1, "a") ∧
      scenario_five.node_slot ⟨some 1⟩ = some 1 ∧
      (scenario_five.deref ⟨some 1⟩ ≠ scenario_one.deref ⟨some 1⟩ ↔
        (id 5 % scenario_one.max_size = 1 ∧ (1 : Nat) ≠ 5 ∧
          (false = false ∨ (0 : ℚ) < pow_two_neg 1))) ∧
      (scenario_five.deref ⟨some 1⟩ ≠ scenario_one.deref ⟨some 1⟩ ↔
        (id 5 % scenario_one.max_size = 1 ∧ true = true)) ∧
      (scenario_five.deref ⟨some 1⟩ ≠ scenario_one.deref ⟨some 1⟩ →
        scenario_five.deref ⟨some 1⟩ = some (5, "b")) :=
  ⟨rfl, rfl, rfl,
    (cursor_stability id scenario_one scenario_five (.insert (5, "b") false 0)
      (⟨some 1⟩, true) rfl ⟨some 1⟩ 1 ⟨1, ⟨some 1⟩, (1, "a")⟩ rfl rfl (by decide)).1,
    (cursor_stability id scenario_one scenario_five (.insert (5, "b") false 0)
      (⟨some 1⟩, true) rfl ⟨some 1⟩ 1 ⟨1, ⟨some 1⟩, (1, "a")⟩ rfl rfl (by decide)).2.1,
    (cursor_stability id scenario_one scenario_five (.insert (5, "b") false 0)
      (⟨some 1⟩, true) rfl ⟨some 1⟩ 1 ⟨1, ⟨some 1⟩, (1, "a")⟩ rfl rfl (by decide)).2.2.1,
    (cursor_stability id scenario_one scenario_five (.insert (5, "b") false 0)
      (⟨some 1⟩, true) rfl ⟨some 1⟩ 1 ⟨1, ⟨some 1⟩, (1, "a")⟩ rfl rfl (by decide)).2.2.2.1,
    (cursor_stability id scenario_one scenario_five (.insert (5, "b") false 0)
      (⟨some 1⟩, true) rfl ⟨some 1⟩ 1 ⟨1, ⟨some 1⟩, (1, "a")⟩ rfl rfl (by decide)).2.2.2.2.1⟩

/-! ## Lookup and iteration -/

/-- In the invariant, the visited entries are the pairs of the listed slots. -/
theorem mem_entries_iff (hash : Key → Nat) (b : unordered_buffer Key T) (hinv : Inv hash b)
    (kv : Key × T) :
    kv ∈ b.entries ↔
      ∃ i e, i ∈ b.m_used ∧ b.m_data[i]? = some e ∧ e.value = kv := by
  have hmap := entries_eq hash b hinv
  have h1 : kv ∈ b.entries ↔ some kv ∈ b.entries.map some :=
    (List.mem_map_of_injective (Option.some_injective _)).symm
  rw [h1, hmap, List.mem_map]
  constructor
  · rintro ⟨i, hi, hf⟩
    cases hs : b.m_data[i]? with
    | none => rw [hs] at hf; cases hf
    | some e =>
      rw [hs] at hf
      exact ⟨i, e, hi, hs, Option.some.inj hf⟩
  · rintro ⟨i, e, hi, hs, hv⟩
    exact ⟨i, hi, by rw [hs, ← hv]; rfl⟩

/-- Claim C17, counterexample. Two reachable states in which lookup and iteration
disagree. The container constructed with capacity 0: iteration visits no entry with key
1, yet `at(1)` does not fail with `out_of_range`, it divides by zero in
`hash % m_data.size()`. The container of capacity 4 after 2^31 insertions of key 1, whose
priority has wrapped to `INT_MIN`: iteration visits the entry `(1, "a")`, yet `count(1)`
is 0 and `at(1)` fails; one insertion more and `count(1)` is 1 while iteration visits
key 1 twice. -/
theorem lookup_disagrees_with_iteration :
    Reachable id (mk_sized 0 : unordered_buffer Nat String) ∧
      (¬ ∃ v, ((1 : Nat), v) ∈ (mk_sized 0 : unordered_buffer Nat String).entries) ∧
      (mk_sized 0 : unordered_buffer Nat String).at_ id 1 ≠ .error .out_of_range ∧
      (mk_sized 0 : unordered_buffer Nat String).at_ id 1 = .error .undefined_behavior ∧
      Reachable id (scenario_hit INT_MIN) ∧
      (scenario_hit INT_MIN).entries = [(1, "a")] ∧
      (scenario_hit INT_MIN).count id 1 = .ok 0 ∧
      (scenario_hit INT_MIN).at_ id 1 = .error .out_of_range ∧
      Reachable id scenario_twice ∧
      scenario_twice.count id 1 = .ok 1 ∧
      (scenario_twice.entries.map Prod.fst).count 1 = 2 :=
  ⟨Reachable.ctor 0,
    fun h => h.elim (fun _ hv => List.not_mem_nil _ hv),
    fun h => Error.noConfusion (Except.error.inj
      (show (Except.error Error.undefined_behavior : Except Error String) =
        .error Error.out_of_range from h)),
    rfl, scenario_wrapped_reachable, rfl, rfl, rfl, scenario_twice_reachable, rfl,
    by decide⟩

/-- Claim C17, amended. In every state reachable from construction by `insert`,
`emplace` and `clear` without an overflowing `priority++` (no call found its own key
resident with priority `INT_MAX`), and for every key `K`: `count(K) == 1` exactly when
iterating from `begin()` to `end()` visits an entry whose key is `K`; in that case
exactly one visited entry has key `K` and `at(K)` returns that entry's value; and
otherwise, when the capacity is at least 1, `at(K)` fails with `out_of_range`. -/
theorem lookup_agrees_with_iteration [DecidableEq Key] [Inhabited Key] [Inhabited T]
    (hash : Key → Nat) (b : unordered_buffer Key T) (hreach : ReachableInRange hash b)
    (K : Key) :
    (b.count hash K = .ok 1 ↔ ∃ v, (K, v) ∈ b.entries) ∧
    (∀ v, (K, v) ∈ b.entries →
      b.at_ hash K = .ok v ∧ (b.entries.map Prod.fst).count K = 1) ∧
    (1 ≤ b.max_size → (¬ ∃ v, (K, v) ∈ b.entries) →
      b.at_ hash K = .error .out_of_range) := by
  have hinv := reachable_inv hash b hreach
  have hfound : ∀ v, (K, v) ∈ b.entries →
      ∃ e, b.m_data[hash K % b.m_data.length]? = some e ∧ 1 ≤ e.priority ∧
        e.value = (K, v) := by
    intro v hv
    obtain ⟨i, e, hi, hs, hval⟩ := (mem_entries_iff hash b hinv (K, v)).mp hv
    obtain ⟨e2, hs2, hocc⟩ := (hinv.used_iff i).mp hi
    rw [hs] at hs2
    cases hs2
    have hhome := hinv.home i e hs hocc
    rw [hval] at hhome
    rw [hhome]
    exact ⟨e, hs, hocc, hval⟩
  have hiff : b.count hash K = .ok 1 ↔ ∃ v, (K, v) ∈ b.entries := by
    rw [count_eq_one_iff]
    constructor
    · rintro ⟨e, hs, hocc, hk⟩
      refine ⟨e.value.2, (mem_entries_iff hash b hinv _).mpr ⟨_, e, ?_, hs, ?_⟩⟩
      · exact (hinv.used_iff _).mpr ⟨e, hs, hocc⟩
      · rw [← hk]
    · rintro ⟨v, hv⟩
      obtain ⟨e, hs, hocc, hval⟩ := hfound v hv
      exact ⟨e, hs, hocc, by rw [hval]⟩
  refine ⟨hiff, ?_, ?_⟩
  · intro v hv
    obtain ⟨e, hs, hocc, hval⟩ := hfound v hv
    constructor
    · rw [at_of_slot hash b K e hs, if_pos ⟨hocc, by rw [hval]⟩, hval]
    · apply List.count_eq_one_of_mem (entries_keys_nodup hash b hinv)
      exact List.mem_map.mpr ⟨(K, v), hv, rfl⟩
  · intro hN hno
    simp only [max_size] at hN
    obtain ⟨d, hd⟩ := slot_exists hash b K hN
    rw [at_of_slot hash b K d hd, if_neg]
    intro hc
    exact hno (hiff.mp ((count_eq_one_iff hash b K).mpr ⟨d, hd, hc.1, hc.2⟩))

/-- Claim C17, amended, on the scenario after `insert(1, "a")`: key 1 is counted,
visited once and found; key 5 is neither visited nor found. -/
theorem lookup_agrees_with_iteration_witness :
    ReachableInRange id scenario_one ∧ ((1 : Nat), "a") ∈ scenario_one.entries ∧
      scenario_one.count id 1 = .ok 1 ∧
      scenario_one.at_ id 1 = .ok "a" ∧
      (scenario_one.entries.map Prod.fst).count 1 = 1 ∧
      1 ≤ scenario_one.max_size ∧
      (¬ ∃ v, ((5 : Nat), v) ∈ scenario_one.entries) ∧
      scenario_one.at_ id 5 = .error .out_of_range := by
  have hno : ¬ ∃ v, ((5 : Nat), v) ∈ scenario_one.entries := by
    rintro ⟨v, hv⟩
    have : scenario_one.entries = [(1, "a")] := rfl
    rw [this] at hv
    simp at hv
  have hmem : ((1 : Nat), "a") ∈ scenario_one.entries := by decide
  exact ⟨scenario_one_in_range, hmem,
    (lookup_agrees_with_iteration id scenario_one scenario_one_in_range 1).1.mpr
      ⟨"a", hmem⟩,
    ((lookup_agrees_with_iteration id scenario_one scenario_one_in_range 1).2.1 "a"
      hmem).1,
    ((lookup_agrees_with_iteration id scenario_one scenario_one_in_range 1).2.1 "a"
      hmem).2,
    by decide, hno,
    (lookup_agrees_with_iteration id scenario_one scenario_one_in_range 5).2.2
      (by decide) hno⟩

/-! ## States no operation tells apart -/

theorem sim_set (b1 b2 : unordered_buffer Key T) (hsim : Sim b1 b2) (idx : Nat)
    (e : Element Key T) (u : List Nat) (hlt : idx < b1.m_data.length)
    (hu : ∀ i ∈ u, i = idx ∨ i ∈ b1.m_used) :
    Sim (⟨b1.m_data.set idx e, u⟩ : unordered_buffer Key T) ⟨b2.m_data.set idx e, u⟩ := by
  have hlt2 : idx < b2.m_data.length := by rw [← hsim.len_eq]; exact hlt
  refine ⟨rfl, by simp [hsim.len_eq], ?_⟩
  intro i e1 e2 h1 h2
  simp only at h1 h2
  rw [slot_after_set _ _ _ _ hlt] at h1
  rw [slot_after_set _ _ _ _ hlt2] at h2
  by_cases hi : idx = i
  · rw [if_pos hi] at h1 h2
    cases h1
    cases h2
    exact Or.inl rfl
  · rw [if_neg hi] at h1 h2
    rcases hsim.slots i e1 e2 h1 h2 with heq | ⟨hp1, hp2, hnot⟩
    · exact Or.inl heq
    · refine Or.inr ⟨hp1, hp2, fun hmem => ?_⟩
      rcases hu i hmem with h | h
      · exact hi h.symm
      · exact hnot h

theorem sim_set_push (b1 b2 : unordered_buffer Key T) (hsim : Sim b1 b2) (idx : Nat)
    (e : Element Key T) (hlt : idx < b1.m_data.length) :
    Sim (⟨b1.m_data.set idx e, idx :: b1.m_used⟩ : unordered_buffer Key T)
      ⟨b2.m_data.set idx e, idx :: b1.m_used⟩ :=
  sim_set b1 b2 hsim idx e _ hlt (fun _ hi => List.mem_cons.mp hi)

theorem sim_set_keep (b1 b2 : unordered_buffer Key T) (hsim : Sim b1 b2) (idx : Nat)
    (e : Element Key T) (hlt : idx < b1.m_data.length) :
    Sim (⟨b1.m_data.set idx e, b1.m_used⟩ : unordered_buffer Key T)
      ⟨b2.m_data.set idx e, b1.m_used⟩ :=
  sim_set b1 b2 hsim idx e _ hlt (fun _ hi => Or.inr hi)

theorem sim_slot (b1 b2 : unordered_buffer Key T) (hsim : Sim b1 b2) (i : Nat)
    (e1 : Element Key T) (h1 : b1.m_data[i]? = some e1) :
    ∃ e2, b2.m_data[i]? = some e2 ∧
      (e1 = e2 ∨ (e1.priority ≤ 0 ∧ e2.priority ≤ 0 ∧ i ∉ b1.m_used)) := by
  have hlt : i < b2.m_data.length := by
    rw [← hsim.len_eq]
    exact slot_lt b1 i e1 h1
  exact ⟨_, List.getElem?_eq_getElem hlt, hsim.slots i e1 _ h1 (List.getElem?_eq_getElem hlt)⟩

/-- Related states answer `insert` alike and stay related. -/
theorem sim_insert [DecidableEq Key] (hash : Key → Nat) (b1 b2 : unordered_buffer Key T)
    (hsim : Sim b1 b2) (kv : Key × T) (prob : Bool) (r : ℚ) :
    (∃ e, b1.insert hash kv prob r = .error e ∧ b2.insert hash kv prob r = .error e) ∨
    (∃ b1' b2' res, b1.insert hash kv prob r = .ok (b1', res) ∧
      b2.insert hash kv prob r = .ok (b2', res) ∧ Sim b1' b2') := by
  by_cases h0 : b1.m_data.length = 0
  · left
    refine ⟨.undefined_behavior, ?_, ?_⟩
    · simp [insert, locate_zero hash b1 kv.1 h0]
    · simp [insert, locate_zero hash b2 kv.1 (by rw [← hsim.len_eq]; exact h0)]
  · right
    obtain ⟨d1, hd1⟩ := slot_exists hash b1 kv.1 (by omega)
    obtain ⟨d2, hd2, hrel⟩ := sim_slot b1 b2 hsim _ d1 hd1
    have hlt := slot_lt b1 _ d1 hd1
    rw [hsim.len_eq] at hd2
    rw [insert_of_slot hash b1 kv prob r d1 hd1, insert_of_slot hash b2 kv prob r d2 hd2]
    rcases hrel with rfl | ⟨hp1, hp2, _⟩
    · rw [← hsim.len_eq, ← hsim.used_eq]
      by_cases h1 : d1.priority ≤ 0
      · simp only [if_pos h1]
        exact ⟨_, _, _, rfl, rfl, sim_set_push b1 b2 hsim _ _ hlt⟩
      · simp only [if_neg h1]
        by_cases h2 : d1.value.1 = kv.1
        · simp only [if_pos h2]
          exact ⟨_, _, _, rfl, rfl, sim_set_keep b1 b2 hsim _ _ hlt⟩
        · simp only [if_neg h2]
          by_cases h3 : prob = true ∧ ¬ r < pow_two_neg d1.priority
          · simp only [if_pos h3]
            exact ⟨_, _, _, rfl, rfl, hsim⟩
          · simp only [if_neg h3]
            exact ⟨_, _, _, rfl, rfl, sim_set_keep b1 b2 hsim _ _ hlt⟩
    · rw [if_pos hp1, if_pos hp2, ← hsim.len_eq, ← hsim.used_eq]
      exact ⟨_, _, _, rfl, rfl, sim_set_push b1 b2 hsim _ _ hlt⟩

/-- Related states answer the keyed lookups alike. -/
theorem sim_lookup [DecidableEq Key] (hash : Key → Nat) (b1 b2 : unordered_buffer Key T)
    (hsim : Sim b1 b2) (key : Key) :
    b1.at_ hash key = b2.at_ hash key ∧ b1.count hash key = b2.count hash key ∧
      b1.equal_range hash key = b2.equal_range hash key := by
  by_cases h0 : b1.m_data.length = 0
  · have h0' : b2.m_data.length = 0 := by rw [← hsim.len_eq]; exact h0
    simp [at_, count, equal_range, locate_zero hash b1 key h0, locate_zero hash b2 key h0']
  · obtain ⟨d1, hd1⟩ := slot_exists hash b1 key (by omega)
    obtain ⟨d2, hd2, hrel⟩ := sim_slot b1 b2 hsim _ d1 hd1
    rw [hsim.len_eq] at hd2
    rw [at_of_slot hash b1 key d1 hd1, at_of_slot hash b2 key d2 hd2,
      count_of_slot hash b1 key d1 hd1, count_of_slot hash b2 key d2 hd2,
      equal_range_of_slot hash b1 key d1 hd1, equal_range_of_slot hash b2 key d2 hd2]
    rcases hrel with rfl | ⟨hp1, hp2, _⟩
    · simp only [end_, and_self]
    · have n1 : ¬ (1 ≤ d1.priority ∧ d1.value.1 = key) := fun h => by omega
      have n2 : ¬ (1 ≤ d2.priority ∧ d2.value.1 = key) := fun h => by omega
      simp only [if_neg n1, if_neg n2, end_, and_self]

/-- Related states dereference every cursor alike: a cursor denotes a listed slot. -/
theorem sim_deref (b1 b2 : unordered_buffer Key T) (hsim : Sim b1 b2) (c : iterator) :
    b1.deref c = b2.deref c := by
  have hnode : b2.node_slot c = b1.node_slot c := by
    unfold node_slot
    rw [hsim.used_eq]
  unfold deref
  rw [hnode]
  cases hn : b1.node_slot c with
  | none => rfl
  | some i =>
    simp only
    have hmem : i ∈ b1.m_used := by
      unfold node_slot at hn
      cases hc : c.it with
      | none => rw [hc] at hn; cases hn
      | some d =>
        rw [hc] at hn
        simp only at hn
        by_cases hd : d = 0 ∨ b1.m_used.length < d
        · rw [if_pos hd] at hn
          cases hn
        · rw [if_neg hd] at hn
          exact List.mem_iff_getElem?.mpr ⟨_, hn⟩
    cases he1 : b1.m_data[i]? with
    | none =>
      have hge : b2.m_data.length ≤ i := by
        rw [← hsim.len_eq]
        exact List.getElem?_eq_none_iff.mp he1
      rw [List.getElem?_eq_none_iff.mpr hge]
    | some e1 =>
      obtain ⟨e2, he2, hrel⟩ := sim_slot b1 b2 hsim i e1 he1
      rcases hrel with rfl | ⟨_, _, hnot⟩
      · rw [he2]
      · exact absurd hmem hnot

theorem sim_entries (b1 b2 : unordered_buffer Key T) (hsim : Sim b1 b2) :
    b1.entries = b2.entries := by
  have hvisit : ∀ d, b1.visit d = b2.visit d := by
    intro d
    induction d with
    | zero => rfl
    | succ d ih =>
      simp only [visit, sim_deref b1 b2 hsim, ih]
  simp only [entries, begin, hsim.used_eq]
  exact hvisit _

theorem sim_clear (b1 b2 : unordered_buffer Key T) (hlen : b1.m_data.length = b2.m_data.length) :
    Sim b1.clear b2.clear := by
  refine ⟨rfl, by simp [clear, reset_priorities_length, hlen], ?_⟩
  intro i e1 e2 h1 h2
  right
  rw [reset_priorities_slot b1.m_data i e1 h1, reset_priorities_slot b2.m_data i e2 h2]
  exact ⟨le_refl 0, le_refl 0, List.not_mem_nil i⟩

/-- Related states answer every operation alike and stay related. -/
theorem sim_call [DecidableEq Key] (hash : Key → Nat) (b1 b2 : unordered_buffer Key T)
    (hsim : Sim b1 b2) (c : Call Key T) :
    (∃ e, b1.call hash c = .error e ∧ b2.call hash c = .error e) ∨
    (∃ b1' b2' reply, b1.call hash c = .ok (b1', reply) ∧
      b2.call hash c = .ok (b2', reply) ∧ Sim b1' b2') := by
  cases c with
  | insertion ins =>
    simp only [call, apply_insertion_eq]
    rcases sim_insert hash b1 b2 hsim ins.pair ins.prob ins.draw with
      ⟨e, h1, h2⟩ | ⟨b1', b2', res, h1, h2, hs⟩
    · left
      exact ⟨e, by rw [h1], by rw [h2]⟩
    · right
      obtain ⟨cur, flag⟩ := res
      exact ⟨b1', b2', .inserted cur flag, by rw [h1], by rw [h2], hs⟩
  | at_ key =>
    simp only [call, ← (sim_lookup hash b1 b2 hsim key).1]
    cases h : b1.at_ hash key with
    | ok v => exact Or.inr ⟨b1, b2, .found v, rfl, rfl, hsim⟩
    | error e =>
      cases e with
      | out_of_range => exact Or.inr ⟨b1, b2, .not_found, rfl, rfl, hsim⟩
      | undefined_behavior => exact Or.inl ⟨.undefined_behavior, rfl, rfl⟩
  | count key =>
    simp only [call, ← (sim_lookup hash b1 b2 hsim key).2.1]
    cases h : b1.count hash key with
    | ok n => exact Or.inr ⟨b1, b2, .counted n, rfl, rfl, hsim⟩
    | error e => exact Or.inl ⟨e, rfl, rfl⟩
  | equal_range key =>
    simp only [call, ← (sim_lookup hash b1 b2 hsim key).2.2]
    cases h : b1.equal_range hash key with
    | ok range =>
      obtain ⟨first, second⟩ := range
      exact Or.inr ⟨b1, b2, .range first second, rfl, rfl, hsim⟩
    | error e => exact Or.inl ⟨e, rfl, rfl⟩
  | size =>
    right
    refine ⟨b1, b2, .sized b1.size, rfl, ?_, hsim⟩
    simp only [call, size, hsim.used_eq]
  | iterate =>
    right
    refine ⟨b1, b2, .visited b1.entries, rfl, ?_, hsim⟩
    simp only [call, sim_entries b1 b2 hsim]
  | clear =>
    right
    exact ⟨b1.clear, b2.clear, .cleared, rfl, rfl, sim_clear b1 b2 hsim.len_eq⟩

/-- Related states answer every sequence of operations alike. -/
theorem sim_run_calls [DecidableEq Key] (hash : Key → Nat) (calls : List (Call Key T)) :
    ∀ b1 b2 : unordered_buffer Key T, Sim b1 b2 →
      b1.run_calls hash calls = b2.run_calls hash calls := by
  induction calls with
  | nil =>
    intro b1 b2 _
    rfl
  | cons c rest ih =>
    intro b1 b2 hsim
    rcases sim_call hash b1 b2 hsim c with ⟨e, h1, h2⟩ | ⟨b1', b2', reply, h1, h2, hs⟩
    · simp only [run_calls, h1, h2]
    · simp only [run_calls, h1, h2, ih b1' b2' hs]

/-! ## Clearing and capacity -/

theorem mk_sized_length [Inhabited Key] [Inhabited T] (n : Nat) :
    (mk_sized n : unordered_buffer Key T).m_data.length = n := by
  simp [mk_sized, reset_priorities_length]

theorem clear_slot (s : unordered_buffer Key T) (i : Nat) (e : Element Key T)
    (h : s.m_data[i]? = some e) : s.clear.m_data[i]? = some ⟨0, e.pos, e.value⟩ := by
  simp only [clear, reset_priorities, List.getElem?_map, h, Option.map_some']

theorem sim_clear_fresh [Inhabited Key] [Inhabited T] (s : unordered_buffer Key T) :
    Sim s.clear (mk_sized s.max_size : unordered_buffer Key T) := by
  refine ⟨rfl, ?_, ?_⟩
  · rw [mk_sized_length]
    simp [clear, reset_priorities_length, max_size]
  · intro i e1 e2 h1 h2
    right
    rw [reset_priorities_slot s.m_data i e1 h1, reset_priorities_slot _ i e2 h2]
    exact ⟨le_refl 0, le_refl 0, List.not_mem_nil i⟩

/-- With at least one bucket every operation returns and keeps the capacity. -/
theorem call_total [DecidableEq Key] (hash : Key → Nat) (b : unordered_buffer Key T)
    (c : Call Key T) (hN : 1 ≤ b.m_data.length) :
    ∃ b' reply, b.call hash c = .ok (b', reply) ∧ b'.m_data.length = b.m_data.length := by
  cases c with
  | insertion ins =>
    obtain ⟨b', res, h⟩ := apply_insertion_total hash b ins hN
    obtain ⟨cur, flag⟩ := res
    have h' := h
    rw [apply_insertion_eq] at h'
    exact ⟨b', .inserted cur flag, by simp only [call, h],
      (insert_frame hash b b' _ _ _ _ h').1⟩
  | at_ key =>
    obtain ⟨d, hd⟩ := slot_exists hash b key hN
    simp only [call, at_of_slot hash b key d hd]
    split_ifs
    · exact ⟨b, _, rfl, rfl⟩
    · exact ⟨b, _, rfl, rfl⟩
  | count key =>
    obtain ⟨d, hd⟩ := slot_exists hash b key hN
    simp only [call, count_of_slot hash b key d hd]
    exact ⟨b, _, rfl, rfl⟩
  | equal_range key =>
    obtain ⟨d, hd⟩ := slot_exists hash b key hN
    simp only [call, equal_range_of_slot hash b key d hd]
    split_ifs
    · exact ⟨b, _, rfl, rfl⟩
    · exact ⟨b, _, rfl, rfl⟩
  | size => exact ⟨b, _, rfl, rfl⟩
  | iterate => exact ⟨b, _, rfl, rfl⟩
  | clear => exact ⟨b.clear, _, rfl, by simp [clear, reset_priorities_length]⟩

theorem run_calls_total [DecidableEq Key] (hash : Key → Nat) (calls : List (Call Key T)) :
    ∀ b : unordered_buffer Key T, 1 ≤ b.m_data.length →
      ∃ replies, b.run_calls hash calls = .ok replies ∧ replies.length = calls.length := by
  induction calls with
  | nil =>
    intro b _
    exact ⟨[], rfl, rfl⟩
  | cons c rest ih =>
    intro b hN
    obtain ⟨b', reply, hcall, hlen⟩ := call_total hash b c hN
    obtain ⟨replies, hrun, hl⟩ := ih b' (by omega)
    exact ⟨reply :: replies, by simp only [run_calls, hcall, hrun], by simp [hl]⟩

/-- Claim C18. `clear()` only sets each slot's priority to 0 and empties the traversal
list; the key, value and `pos` left in the slots are never observed: every sequence of
operations (insertions through any entry point, `at`, `count`, `equal_range`, `size`,
iteration, `clear`), run with the same draws, hands the client the same replies when
started on `clear(s)` as when started on a freshly constructed container of the same
capacity; with capacity at least 1 the sequence returns a reply for every operation. -/
theorem clear_like_fresh [DecidableEq Key] [Inhabited Key] [Inhabited T]
    (hash : Key → Nat) (s : unordered_buffer Key T) (calls : List (Call Key T)) :
    (∀ (i : Nat) (e : Element Key T), s.m_data[i]? = some e →
      s.clear.m_data[i]? = some ⟨0, e.pos, e.value⟩) ∧
    s.clear.m_used = [] ∧
    s.clear.max_size = s.max_size ∧
    s.clear.run_calls hash calls =
      (mk_sized s.max_size : unordered_buffer Key T).run_calls hash calls ∧
    (1 ≤ s.max_size →
      ∃ replies, s.clear.run_calls hash calls = .ok replies ∧
        replies.length = calls.length) := by
  have hlen : s.clear.m_data.length = s.m_data.length := by
    simp [clear, reset_priorities_length]
  refine ⟨clear_slot s, rfl, hlen, ?_, ?_⟩
  · exact sim_run_calls hash calls s.clear _ (sim_clear_fresh s)
  · intro hN
    exact run_calls_total hash calls s.clear (by rw [hlen]; exact hN)

/-- Claim C18 on the scenario: after `insert(1, "a")` and `clear()` slot 1 still holds
the key 1, the value `"a"` and its `pos`, unlike the fresh container, and a sequence
using every operation is answered as by the fresh container of capacity 4. -/
theorem clear_like_fresh_witness :
    scenario_one.clear.m_data[1]? = some ⟨0, ⟨some 1⟩, (1, "a")⟩ ∧
      scenario_fresh.m_data[1]? = some ⟨0, ⟨none⟩, (0, "")⟩ ∧
      1 ≤ scenario_one.max_size ∧
      scenario_one.clear.run_calls id
          [.count 1, .at_ 1, .insertion (.insert (5, "b") true (1 / 3)),
            .insertion (.emplace 1 "c" false 0), .equal_range 1, .size, .iterate, .clear,
            .size] =
        scenario_fresh.run_calls id
          [.count 1, .at_ 1, .insertion (.insert (5, "b") true (1 / 3)),
            .insertion (.emplace 1 "c" false 0), .equal_range 1, .size, .iterate, .clear,
            .size] ∧
      ∃ replies, scenario_one.clear.run_calls id
          [.count 1, .at_ 1, .insertion (.insert (5, "b") true (1 / 3)),
            .insertion (.emplace 1 "c" false 0), .equal_range 1, .size, .iterate, .clear,
            .size] = .ok replies ∧ replies.length = 9 :=
  ⟨(clear_like_fresh id scenario_one []).1 1 ⟨1, ⟨some 1⟩, (1, "a")⟩ rfl, rfl, by decide,
    (clear_like_fresh id scenario_one _).2.2.2.1,
    (clear_like_fresh id scenario_one _).2.2.2.2 (by decide)⟩

/-- Claim C20. `empty()` reports on the capacity, not on the contents: in every state it
is true exactly when `max_size()` is 0, so states of equal capacity agree on it whatever
their `size()`. A freshly constructed or freshly cleared container of capacity at least
1 has `size() == 0` and `empty() == false`, and neither `clear` nor an insertion call
that returns changes the value of `empty()`. -/
theorem empty_reports_capacity [DecidableEq Key] [Inhabited Key] [Inhabited T]
    (hash : Key → Nat) (b : unordered_buffer Key T) :
    (b.empty = true ↔ b.max_size = 0) ∧
    (∀ b2 : unordered_buffer Key T, b2.max_size = b.max_size → b2.empty = b.empty) ∧
    (∀ n, 1 ≤ n → (mk_sized n : unordered_buffer Key T).size = 0 ∧
      (mk_sized n : unordered_buffer Key T).empty = false) ∧
    (1 ≤ b.max_size → b.clear.size = 0 ∧ b.clear.empty = false) ∧
    b.clear.empty = b.empty ∧
    (∀ (c : Insertion Key T) (b' : unordered_buffer Key T) (res : iterator × Bool),
      b.apply_insertion hash c = .ok (b', res) → b'.empty = b.empty) := by
  have hiff : ∀ x : unordered_buffer Key T, x.empty = true ↔ x.max_size = 0 := by
    intro x
    simp [empty, max_size, List.isEmpty_iff]
  have hcap : ∀ x y : unordered_buffer Key T, x.max_size = y.max_size → x.empty = y.empty := by
    intro x y hxy
    have hx := hiff x
    have hy := hiff y
    rw [hxy] at hx
    cases hxe : x.empty <;> cases hye : y.empty <;> simp_all
  have hclear : b.clear.max_size = b.max_size := by
    simp [clear, max_size, reset_priorities_length]
  refine ⟨hiff b, fun b2 h => hcap b2 b h, ?_, ?_, hcap _ _ hclear, ?_⟩
  · intro n hn
    refine ⟨rfl, ?_⟩
    cases he : (mk_sized n : unordered_buffer Key T).empty with
    | false => rfl
    | true =>
      have := (hiff _).mp he
      simp only [max_size, mk_sized_length] at this
      omega
  · intro hN
    refine ⟨rfl, ?_⟩
    cases he : b.clear.empty with
    | false => rfl
    | true =>
      have := (hiff _).mp he
      rw [hclear] at this
      omega
  · intro c b' res hcall
    rw [apply_insertion_eq] at hcall
    exact hcap _ _ (insert_frame hash b b' _ _ _ _ hcall).1

/-- Claim C20 on the scenario: the fresh container of capacity 4 and the one holding key
1 are both not `empty()`, with `size()` 0 and 1; the container of capacity 0 is. -/
theorem empty_reports_capacity_witness :
    scenario_one.max_size = scenario_fresh.max_size ∧
      scenario_one.empty = scenario_fresh.empty ∧
      scenario_fresh.size = 0 ∧ scenario_one.size = 1 ∧ scenario_fresh.empty = false ∧
      (1 ≤ scenario_one.max_size ∧ scenario_one.clear.size = 0 ∧
        scenario_one.clear.empty = false) ∧
      (scenario_one.apply_insertion id (.insert (5, "b") false 0) =
          .ok (scenario_five, (⟨some 1⟩, true)) ∧
        scenario_five.empty = scenario_one.empty) ∧
      (mk_sized 0 : unordered_buffer Nat String).empty = true :=
  ⟨rfl, (empty_reports_capacity id scenario_fresh).2.1 scenario_one rfl,
    ((empty_reports_capacity id scenario_fresh).2.2.1 4 (by decide)).1, rfl,
    ((empty_reports_capacity id scenario_fresh).2.2.1 4 (by decide)).2,
    ⟨by decide, (empty_reports_capacity id scenario_one).2.2.2.1 (by decide)⟩,
    ⟨rfl, (empty_reports_capacity id scenario_one).2.2.2.2.2 (.insert (5, "b") false 0)
      scenario_five (⟨some 1⟩, true) rfl⟩,
    (empty_reports_capacity id (mk_sized 0 : unordered_buffer Nat String)).1.mpr rfl⟩

end unordered_buffer
